import Mathlib

/-!
Distributed graph ingress (`distributed_ingress_base.hpp`).

A shallow embedding of `graphlab::distributed_ingress_base<VertexData, EdgeData>`:
the routing of `add_edge` / `add_vertex` and the collective `finalize`.

Conventions of the embedding

* `vertex_id_type` values that are *added* (the degree fields) are reduced modulo
  `VID_MOD`; identifiers, local ids, process ids and `size_t` counters of in-memory
  objects are natural numbers.
* `boost::unordered_map` is an association list with unique keys; the order in which a
  `foreach` visits it, and the order and batching in which a `buffered_exchange` hands
  out what was sent to a process, are choices of the environment (`ingress_env`).
* An `ASSERT_*` that fails aborts: the enclosing function returns `none`.
* A field that a constructor leaves uninitialised (the `vdata` of a
  `vertex_negotiator_record`) holds a value chosen by the environment.
-/

namespace graphlab

/-! ## Collaborators that are not part of the ingress source -/

/-- Modelled from the spec: the width of `vertex_id_type` (declared in
`graph_basic_types.hpp`); the shuffle record carries `num_in: u32`, `num_out: u32`. -/
def VID_MOD : Nat := 2 ^ 32

/-- Modelled from the spec: `MirrorSet`, a set of PIDs (the bitset type
`graph_type::mirror_type`), supporting `set`, `clear`, `test`, `popcount`, `first_set`
and iteration. -/
abbrev mirror_type := Finset Nat

namespace mirror_type

/-- Modelled from the spec: `set` of a `MirrorSet` (`set_bit`). -/
def set_bit (m : mirror_type) (b : Nat) : mirror_type := insert b m

/-- Modelled from the spec: `clear` of a `MirrorSet` (`clear_bit`). -/
def clear_bit (m : mirror_type) (b : Nat) : mirror_type := m.erase b

/-- Modelled from the spec: `popcount` of a `MirrorSet`. -/
def popcount (m : mirror_type) : Nat := m.card

/-- Modelled from the spec: iteration over a `MirrorSet` (`begin()` .. `end()`): the
set bits, in increasing order. -/
def bits (m : mirror_type) : List Nat :=
  (List.range (m.sup id + 1)).filter (fun p => decide (p ∈ m))

/-- Modelled from the spec: `first_set` of a `MirrorSet` (`first_bit(b)`): the lowest
set bit, `none` when the C++ function returns `false`. -/
def first_bit (m : mirror_type) : Option Nat := (bits m).head?

end mirror_type

/-! ## Records of the ingress -/

/-- The `vertex_negotiator_record` of the source. -/
structure vertex_negotiator_record (V : Type) where
  vid : Nat
  num_in_edges : Nat
  num_out_edges : Nat
  owner : Nat
  mirrors : mirror_type
  vdata : V

/-- The default constructor `vertex_negotiator_record()` (lines 101-103):
`vid(-1), num_in_edges(0), num_out_edges(0), owner(-1)`. Its initialiser list leaves
`vdata` out, so the field is not initialised: `uninit` is the value that the memory of
the new record happens to hold. -/
def vertex_negotiator_record.default (V : Type) (uninit : V) : vertex_negotiator_record V :=
  { vid := VID_MOD - 1, num_in_edges := 0, num_out_edges := 0, owner := 2 ^ 16 - 1,
    mirrors := ∅, vdata := uninit }

/-! ## Phase 3, negotiator side: owner assignment (lines 252-284) -/

/-- The `operator<` of `std::pair<size_t, uint32_t>`: lexicographic. -/
def pair_lt (a b : Nat × Nat) : Bool :=
  decide (a.1 < b.1) || (decide (a.1 = b.1) && decide (a.2 < b.2))

/-- The `std::min` of two pairs: `b` when `b < a`, else `a`. -/
def pair_min (a b : Nat × Nat) : Nat × Nat := if pair_lt b a then b else a

/-- The load vector entry `counts[p]` (a `std::vector<size_t>`). -/
def counts_at (counts : List Nat) (p : Nat) : Nat := counts.getD p 0

/-- The loop of lines 267-271: `best_asg` after visiting every mirror. -/
def best_asg (counts : List Nat) (mirrors : mirror_type) (first_mirror : Nat) : Nat × Nat :=
  (mirror_type.bits mirrors).foldl
    (fun best proc => pair_min best (counts_at counts proc, proc))
    (counts_at counts first_mirror, first_mirror)

/-- The body of the loop over `vrec_map` (lines 257-279) for one entry `(vid, rec)`:
the new load vector and the record that is sent out. `none` is the failing
`ASSERT_TRUE(first_bit)`. -/
def assign_step {V : Type} (N : Nat) (counts : List Nat) (vid : Nat)
    (negotiator_rec : vertex_negotiator_record V) :
    Option (List Nat × vertex_negotiator_record V) :=
  let rec1 := { negotiator_rec with vid := vid }
  if mirror_type.popcount rec1.mirrors > 0 then
    match mirror_type.first_bit rec1.mirrors with
    | none => none
    | some first_mirror =>
      let best := best_asg counts rec1.mirrors first_mirror
      let rec2 := { rec1 with owner := best.2 }
      some (counts.set rec2.owner (counts_at counts rec2.owner + 1), rec2)
  else
    let proc := rec1.vid % N
    let rec2 := { rec1 with mirrors := mirror_type.set_bit rec1.mirrors proc }
    some (counts, { rec2 with owner := proc })

/-- The notification loop of lines 281-283: one `send(proc, negotiator_rec)` per mirror. -/
def notify {V : Type} (negotiator_rec : vertex_negotiator_record V) :
    List (Nat × vertex_negotiator_record V) :=
  (mirror_type.bits negotiator_rec.mirrors).map (fun proc => (proc, negotiator_rec))

/-! ## Buffer records, the local graph and the distributed graph -/

/-- The `edge_buffer_record` of the source. -/
structure edge_buffer_record (E : Type) where
  source : Nat
  target : Nat
  edata : E

/-- The `vertex_buffer_record` of the source. -/
structure vertex_buffer_record (V : Type) where
  vid : Nat
  vdata : V

/-- The `shuffle_record` of the source. -/
structure shuffle_record where
  vid : Nat
  num_in_edges : Nat
  num_out_edges : Nat

/-- Modelled from the spec: `VertexRecord (local, per LVID)`, the type
`graph_type::vertex_record`: `(gvid, owner, mirrors \ {owner}, num_in, num_out)`. -/
structure vertex_record where
  owner : Nat
  gvid : Nat
  num_in_edges : Nat
  num_out_edges : Nat
  _mirrors : mirror_type

/-- Modelled from the spec: a freshly constructed `vertex_record`; the degrees are zero
(they "must previously be zero" when a negotiator record is written), owner and gvid hold
the invalid value `-1` as in the records of the ingress. -/
def vertex_record.default : vertex_record :=
  { owner := 2 ^ 16 - 1, gvid := VID_MOD - 1, num_in_edges := 0, num_out_edges := 0,
    _mirrors := ∅ }

/-- Modelled from the spec: the local single-machine graph container (`local_graph`),
which provides `num_vertices`, `num_edges`, `num_in_edges(lvid)`, `num_out_edges(lvid)`,
`resize(n)`, `add_edge(u, v, edata)`, `add_vertex(lvid, vdata)`, `vertex_data(lvid)` and
`finalize()`. -/
structure local_graph (V E : Type) where
  vertices : List V
  edges : List (Nat × Nat × E)

namespace local_graph

variable {V E : Type}

/-- Modelled from the spec: `num_vertices()`. -/
def num_vertices (lg : local_graph V E) : Nat := lg.vertices.length

/-- Modelled from the spec: `num_edges()`. -/
def num_edges (lg : local_graph V E) : Nat := lg.edges.length

/-- Modelled from the spec: `num_in_edges(lvid)`, the edges whose target is `lvid`. -/
def num_in_edges (lg : local_graph V E) (lvid : Nat) : Nat :=
  lg.edges.countP (fun e => decide (e.2.1 = lvid))

/-- Modelled from the spec: `num_out_edges(lvid)`, the edges whose source is `lvid`. -/
def num_out_edges (lg : local_graph V E) (lvid : Nat) : Nat :=
  lg.edges.countP (fun e => decide (e.1 = lvid))

/-- Modelled from the spec: `resize(n)`; afterwards there are `n` vertices. -/
def resize [Inhabited V] (lg : local_graph V E) (n : Nat) : local_graph V E :=
  { lg with vertices := lg.vertices.take n ++
      List.replicate (n - lg.vertices.length) Inhabited.default }

/-- Modelled from the spec: `add_edge(u, v, edata)`. -/
def add_edge (lg : local_graph V E) (u v : Nat) (edata : E) : local_graph V E :=
  { lg with edges := lg.edges ++ [(u, v, edata)] }

/-- Modelled from the spec: `vertex_data(lvid) = vdata`. -/
def set_vertex_data (lg : local_graph V E) (lvid : Nat) (vdata : V) : local_graph V E :=
  { lg with vertices := lg.vertices.set lvid vdata }

/-- Modelled from the spec: `add_vertex(lvid, vdata)`; the graph grows to `lvid + 1`
vertices when it is smaller, and vertex `lvid` carries `vdata`. -/
def add_vertex [Inhabited V] (lg : local_graph V E) (lvid : Nat) (vdata : V) :
    local_graph V E :=
  set_vertex_data (if lvid < lg.num_vertices then lg else lg.resize (lvid + 1)) lvid vdata

/-- Modelled from the spec: `finalize()` (it builds an index; the content is unchanged). -/
def finalize (lg : local_graph V E) : local_graph V E := lg

end local_graph

/-- Modelled from the spec: the state of `distributed_graph` that the ingress reads and
writes on one process. -/
structure distributed_graph (V E : Type) where
  vid2lvid : List (Nat × Nat)
  lvid2record : List vertex_record
  local_graph : local_graph V E
  local_own_nverts : Nat
  nedges : Nat
  begin_eid : Nat
  nverts : Nat
  nreplicas : Nat

namespace distributed_graph

variable {V E : Type}

/-- The graph before anything was loaded. -/
def empty (V E : Type) : distributed_graph V E :=
  { vid2lvid := [], lvid2record := [], local_graph := { vertices := [], edges := [] },
    local_own_nverts := 0, nedges := 0, begin_eid := 0, nverts := 0, nreplicas := 0 }

/-- Modelled from the spec: `num_local_edges()` is `local_graph.num_edges()`. -/
def num_local_edges (g : distributed_graph V E) : Nat := g.local_graph.num_edges

/-- Modelled from the spec: `num_local_own_vertices()`. -/
def num_local_own_vertices (g : distributed_graph V E) : Nat := g.local_own_nverts

/-- Modelled from the spec: `num_local_vertices()` is `local_graph.num_vertices()`. -/
def num_local_vertices (g : distributed_graph V E) : Nat := g.local_graph.num_vertices

end distributed_graph

/-! ## `boost::unordered_map` as an association list -/

/-- The lookup `m.find(k)`: `none` is `m.end()`. -/
def umap_find {β : Type} (m : List (Nat × β)) (k : Nat) : Option β :=
  (m.find? (fun e => decide (e.1 = k))).map Prod.snd

/-- The access `m[k]` followed by an update `f` of the mapped value; a missing key is
first inserted with the value `d` that the default constructor leaves. -/
def umap_modify {β : Type} (m : List (Nat × β)) (k : Nat) (d : β) (f : β → β) :
    List (Nat × β) :=
  match umap_find m k with
  | none => m ++ [(k, f d)]
  | some _ => m.map (fun e => if e.1 = k then (e.1, f e.2) else e)

/-- The value under the key `k`, and `d` for a missing key. -/
def umap_get {β : Type} (m : List (Nat × β)) (k : Nat) (d : β) : β :=
  (umap_find m k).getD d

/-- The `std::vector::resize(n)` of `lvid2record`. -/
def resize_records (l : List vertex_record) (n : Nat) : List vertex_record :=
  l.take n ++ List.replicate (n - l.length) vertex_record.default

/-! ## Routing: `add_edge`, `add_vertex`, `vertex_to_proc` -/

/-- The helper `vertex_to_proc` (lines 365-367). -/
def vertex_to_proc (N : Nat) (vid : Nat) : Nat := vid % N

/-- Modelled from the spec: `edge_to_proc(src, dst, N)` of the placement policy
(`ingress_edge_decision::edge_to_proc_random`): `hash(src, dst) mod N` for a stable
hash. -/
def edge_to_proc_random (hash : Nat → Nat → Nat) (source target N : Nat) : Nat :=
  hash source target % N

/-- The method `add_edge` (lines 123-128): the destination and the record handed to
`edge_exchange.send`. -/
def add_edge {E : Type} (hash : Nat → Nat → Nat) (N : Nat) (source target : Nat) (edata : E) :
    Nat × edge_buffer_record E :=
  (edge_to_proc_random hash source target N, { source := source, target := target, edata := edata })

/-- The method `add_vertex` (lines 130-134): the destination and the record handed to
`vertex_exchange.send`. -/
def add_vertex {V : Type} (N : Nat) (vid : Nat) (vdata : V) : Nat × vertex_buffer_record V :=
  (vertex_to_proc N vid, { vid := vid, vdata := vdata })

/-! ## Phase 1: edge materialisation (lines 139-193) -/

/-- Lines 151-156 (and 158-163): the LVID of `vid` and the map after the look-up; a new
`vid` gets the LVID `vid2lvid.size()`. -/
def lvid_of (vid2lvid : List (Nat × Nat)) (vid : Nat) : Nat × List (Nat × Nat) :=
  match umap_find vid2lvid vid with
  | none => (vid2lvid.length, vid2lvid ++ [(vid, vid2lvid.length)])
  | some lvid => (lvid, vid2lvid)

/-- The body of the loop over received edges (lines 150-170). -/
def add_edge_rec {V E : Type} [Inhabited V] (g : distributed_graph V E)
    (rec : edge_buffer_record E) : distributed_graph V E :=
  let s := lvid_of g.vid2lvid rec.source
  let t := lvid_of s.2 rec.target
  let lg :=
    if s.1 ≥ g.local_graph.num_vertices ∨ t.1 ≥ g.local_graph.num_vertices then
      g.local_graph.resize (max s.1 t.1 + 1)
    else g.local_graph
  { g with vid2lvid := t.2, local_graph := lg.add_edge s.1 t.1 rec.edata }

/-- The drain of `edge_exchange` (lines 148-172) over the received buffers, followed by
`local_graph.finalize()` (line 178). -/
def materialize_edges {V E : Type} [Inhabited V] (g : distributed_graph V E)
    (edge_buffers : List (List (edge_buffer_record E))) : distributed_graph V E :=
  let g1 := edge_buffers.foldl (fun g buf => buf.foldl add_edge_rec g) g
  { g1 with local_graph := g1.local_graph.finalize }

/-- Lines 187-191: `lvid2record.resize(vid2lvid.size())` and the loop that writes
`lvid2record[pair.second].gvid = pair.first`; `order` is the sequence in which the
`foreach` visits `vid2lvid`. -/
def init_records {V E : Type} (order : List (Nat × Nat)) (g : distributed_graph V E) :
    distributed_graph V E :=
  let recs0 := resize_records g.lvid2record g.vid2lvid.length
  let recs1 := order.foldl
    (fun recs pair => recs.modify (fun r => { r with gvid := pair.1 }) pair.2) recs0
  { g with lvid2record := recs1 }

/-- Phase 1 on one process (lines 139-193); `none` is the failing `ASSERT_EQ` of
line 193. -/
def finalize_phase1 {V E : Type} [Inhabited V] (order : List (Nat × Nat) → List (Nat × Nat))
    (g : distributed_graph V E) (edge_buffers : List (List (edge_buffer_record E))) :
    Option (distributed_graph V E) :=
  let g1 := materialize_edges g edge_buffers
  let g2 := init_records (order g1.vid2lvid) g1
  if g2.local_graph.num_vertices = g2.lvid2record.length then some g2 else none

/-! ## Phase 2: shuffle to the negotiators (lines 196-245) -/

/-- Lines 200-208: the shuffle records of one process, one list per negotiator; `order`
is the sequence in which the `foreach` visits `vid2lvid`. -/
def build_proc2vids {V E : Type} (N : Nat) (g : distributed_graph V E)
    (order : List (Nat × Nat)) : List (List shuffle_record) :=
  order.foldl
    (fun proc2vids pair =>
      let negotiator := vertex_to_proc N pair.1
      let srec : shuffle_record :=
        { vid := pair.1,
          num_in_edges := g.local_graph.num_in_edges pair.2 % VID_MOD,
          num_out_edges := g.local_graph.num_out_edges pair.2 % VID_MOD }
      proc2vids.modify (fun l => l ++ [srec]) negotiator)
    (List.replicate N [])

/-- Modelled from the spec: the collective `all_to_all` (`mpi_tools::all2all`): `out[p]`
on worker `q` equals `in[q]` on worker `p`; `inp` lists the `in` vectors by worker. -/
def all2all {α : Type} (d : α) (inp : List (List α)) (q : Nat) : List α :=
  inp.map (fun row => row.getD q d)

/-- Lines 227-228: one received vertex payload. When `vrec_map[rec.vid]` creates the
entry, its `vdata` holds `uninit vrec_map rec.vid`: what the memory of the entry that
is created in this state of the map for this key happens to hold; the assignment of
line 228 overwrites it. -/
def vdata_rec {V : Type} (uninit : List (Nat × vertex_negotiator_record V) → Nat → V)
    (vrec_map : List (Nat × vertex_negotiator_record V))
    (vrec : vertex_buffer_record V) : List (Nat × vertex_negotiator_record V) :=
  umap_modify vrec_map vrec.vid (vertex_negotiator_record.default V (uninit vrec_map vrec.vid))
    (fun r => { r with vdata := vrec.vdata })

/-- Lines 219-231: the drain of `vertex_exchange` into a fresh `vrec_map`. -/
def populate_vrec_map {V : Type} (uninit : List (Nat × vertex_negotiator_record V) → Nat → V)
    (vertex_buffers : List (List (vertex_buffer_record V))) :
    List (Nat × vertex_negotiator_record V) :=
  vertex_buffers.foldl (fun m buf => buf.foldl (vdata_rec uninit) m) []

/-- Lines 240-243: one shuffle record received from `proc`. When
`vrec_map[shuffle_rec.vid]` creates the entry, its `vdata` holds
`uninit vrec_map shuffle_rec.vid`, and nothing writes it afterwards. -/
def accumulate_rec {V : Type} (uninit : List (Nat × vertex_negotiator_record V) → Nat → V)
    (proc : Nat) (vrec_map : List (Nat × vertex_negotiator_record V))
    (shuffle_rec : shuffle_record) : List (Nat × vertex_negotiator_record V) :=
  umap_modify vrec_map shuffle_rec.vid
    (vertex_negotiator_record.default V (uninit vrec_map shuffle_rec.vid))
    (fun r => { r with
      num_in_edges := (r.num_in_edges + shuffle_rec.num_in_edges) % VID_MOD,
      num_out_edges := (r.num_out_edges + shuffle_rec.num_out_edges) % VID_MOD,
      mirrors := mirror_type.set_bit r.mirrors proc })

/-- Lines 238-245: the accumulation loop over `proc2vids[0 .. N)`. -/
def accumulate_mirrors {V : Type} (uninit : List (Nat × vertex_negotiator_record V) → Nat → V)
    (N : Nat) (proc2vids : List (List shuffle_record))
    (vrec_map : List (Nat × vertex_negotiator_record V)) :
    List (Nat × vertex_negotiator_record V) :=
  (List.range N).foldl
    (fun m proc => (proc2vids.getD proc []).foldl (accumulate_rec uninit proc) m) vrec_map

/-! ## Phase 3: assignment loop and reception (lines 252-333) -/

/-- The loop over `vrec_map` (lines 256-284), visiting `entries` in order: the final
load vector and everything handed to `negotiator_exchange.send`. -/
def assign_loop {V : Type} (N : Nat) :
    List Nat → List (Nat × vertex_negotiator_record V) →
    Option (List Nat × List (Nat × vertex_negotiator_record V))
  | counts, [] => some (counts, [])
  | counts, entry :: rest =>
    match assign_step N counts entry.1 entry.2 with
    | none => none
    | some step =>
      match assign_loop N step.1 rest with
      | none => none
      | some out => some (out.1, notify step.2 ++ out.2)

/-- Lines 252-284 with `counts` as constructed on line 252 (`N` zeros). -/
def assign_owners {V : Type} (N : Nat) (entries : List (Nat × vertex_negotiator_record V)) :
    Option (List Nat × List (Nat × vertex_negotiator_record V)) :=
  assign_loop N (List.replicate N 0) entries

/-- Lines 313-322: the write of the local record; `none` is a failing assertion
(`ASSERT_LT` of line 313, the two `ASSERT_EQ` on the old degrees, the `ASSERT_TRUE` on
the mirror set). -/
def write_record {V : Type} (lvid2record : List vertex_record) (lvid : Nat)
    (negotiator_rec : vertex_negotiator_record V) : Option (List vertex_record) :=
  match lvid2record[lvid]? with
  | none => none
  | some local_record =>
    if local_record.num_in_edges = 0 ∧ local_record.num_out_edges = 0 ∧
        mirror_type.bits negotiator_rec.mirrors ≠ [] then
      some (lvid2record.set lvid
        { local_record with
          owner := negotiator_rec.owner,
          num_in_edges := negotiator_rec.num_in_edges,
          num_out_edges := negotiator_rec.num_out_edges,
          _mirrors := mirror_type.clear_bit negotiator_rec.mirrors negotiator_rec.owner })
    else none

/-- The body of the loop over received negotiator records (lines 300-322). -/
def recv_rec {V E : Type} [Inhabited V] (g : distributed_graph V E)
    (negotiator_rec : vertex_negotiator_record V) : Option (distributed_graph V E) :=
  match umap_find g.vid2lvid negotiator_rec.vid with
  | none =>
    let lvid := g.vid2lvid.length
    let vid2lvid := g.vid2lvid ++ [(negotiator_rec.vid, lvid)]
    let lg := g.local_graph.add_vertex lvid negotiator_rec.vdata
    let recs := (resize_records g.lvid2record vid2lvid.length).modify
      (fun r => { r with gvid := negotiator_rec.vid }) lvid
    (write_record recs lvid negotiator_rec).map
      (fun recs1 => { g with vid2lvid := vid2lvid, local_graph := lg, lvid2record := recs1 })
  | some lvid =>
    if lvid < g.local_graph.num_vertices then
      let lg := g.local_graph.set_vertex_data lvid negotiator_rec.vdata
      (write_record g.lvid2record lvid negotiator_rec).map
        (fun recs1 => { g with local_graph := lg, lvid2record := recs1 })
    else none

/-- The drain of `negotiator_exchange` (lines 293-325) over a sequence of records. -/
def recv_loop {V E : Type} [Inhabited V] :
    distributed_graph V E → List (vertex_negotiator_record V) → Option (distributed_graph V E)
  | g, [] => some g
  | g, r :: rest =>
    match recv_rec g r with
    | none => none
    | some g1 => recv_loop g1 rest

/-- Phase 3 on the receiving process `procid` (lines 287-333): the drain over the
received buffers, the two `ASSERT_EQ` of lines 327-328 and the count of locally owned
vertices. -/
def finalize_phase3 {V E : Type} [Inhabited V] (procid : Nat) (g : distributed_graph V E)
    (negotiator_buffers : List (List (vertex_negotiator_record V))) :
    Option (distributed_graph V E) :=
  match recv_loop g negotiator_buffers.flatten with
  | none => none
  | some g1 =>
    if g1.vid2lvid.length = g1.local_graph.num_vertices ∧
        g1.lvid2record.length = g1.local_graph.num_vertices then
      some { g1 with
        local_own_nverts := g1.lvid2record.countP (fun r => decide (r.owner = procid)) }
    else none

/-! ## Phase 4: global statistics (lines 335-359) -/

/-- Lines 342-359 on process `procid`, given the three count vectors as they are after
the respective `all2all`. -/
def finalize_phase4 {V E : Type} (procid : Nat) (g : distributed_graph V E)
    (edge_counts own_counts vertex_counts : List Nat) : distributed_graph V E :=
  { g with
    nedges := edge_counts.foldl (fun acc count => acc + count) 0,
    begin_eid := (List.range procid).foldl (fun acc i => acc + edge_counts.getD i 0) 0,
    nverts := own_counts.foldl (fun acc count => acc + count) 0,
    nreplicas := vertex_counts.foldl (fun acc count => acc + count) 0 }

/-! ## The cluster: `N` processes running `finalize` collectively -/

/-- The choices the source leaves to its environment: the hash of the edge placement,
the batches in which each `buffered_exchange` hands out what was sent to process `q`,
the order in which a `foreach` visits each `boost::unordered_map` on process `q`, and
the value that the uninitialised `vdata` of a `vertex_negotiator_record` created on
process `q` holds (for the entry created in a given state of `vrec_map` for a given
key). -/
structure ingress_env (V E : Type) where
  edge_hash : Nat → Nat → Nat
  edge_recv : Nat → List (edge_buffer_record E) → List (List (edge_buffer_record E))
  vertex_recv : Nat → List (vertex_buffer_record V) → List (List (vertex_buffer_record V))
  negotiator_recv : Nat → List (vertex_negotiator_record V) →
    List (List (vertex_negotiator_record V))
  vid2lvid_order : Nat → List (Nat × Nat) → List (Nat × Nat)
  vrec_map_order : Nat → List (Nat × vertex_negotiator_record V) →
    List (Nat × vertex_negotiator_record V)
  uninit_vdata : Nat → List (Nat × vertex_negotiator_record V) → Nat → V

/-- Modelled from the spec: what the environment must guarantee. An exchange delivers
to a process exactly the records sent to it (each once, in some order, in some
batches); a `foreach` over a map visits every entry once. -/
structure ingress_env.fair {V E : Type} (env : ingress_env V E) : Prop where
  edge_recv_perm : ∀ q l, (env.edge_recv q l).flatten.Perm l
  vertex_recv_perm : ∀ q l, (env.vertex_recv q l).flatten.Perm l
  negotiator_recv_perm : ∀ q l, (env.negotiator_recv q l).flatten.Perm l
  vid2lvid_order_perm : ∀ q l, (env.vid2lvid_order q l).Perm l
  vrec_map_order_perm : ∀ q l, (env.vrec_map_order q l).Perm l

/-- The simplest environment: one batch per exchange, in sending order, maps visited
in insertion order, and memory that happens to hold the default value wherever a
`vdata` is left uninitialised. -/
def ingress_env.fifo (V E : Type) [Inhabited V] (hash : Nat → Nat → Nat) : ingress_env V E :=
  { edge_hash := hash,
    edge_recv := fun _ l => [l],
    vertex_recv := fun _ l => [l],
    negotiator_recv := fun _ l => [l],
    vid2lvid_order := fun _ l => l,
    vrec_map_order := fun _ l => l,
    uninit_vdata := fun _ _ _ => Inhabited.default }

/-- The environment `env` on machines whose fresh memory holds `uninit` instead. -/
def ingress_env.with_uninit {V E : Type} (env : ingress_env V E)
    (uninit : Nat → List (Nat × vertex_negotiator_record V) → Nat → V) : ingress_env V E :=
  { env with uninit_vdata := uninit }

/-- A call of the public interface before `finalize`, on process `caller`. -/
inductive ingress_call (V E : Type) where
  | add_edge (caller source target : Nat) (edata : E)
  | add_vertex (caller vid : Nat) (vdata : V)

/-- Everything handed to `edge_exchange.send` by a sequence of calls. -/
def edge_sends {V E : Type} (hash : Nat → Nat → Nat) (N : Nat) :
    List (ingress_call V E) → List (Nat × edge_buffer_record E)
  | [] => []
  | ingress_call.add_edge _ source target edata :: rest =>
    add_edge hash N source target edata :: edge_sends hash N rest
  | ingress_call.add_vertex _ _ _ :: rest => edge_sends hash N rest

/-- Everything handed to `vertex_exchange.send` by a sequence of calls. -/
def vertex_sends {V E : Type} (N : Nat) :
    List (ingress_call V E) → List (Nat × vertex_buffer_record V)
  | [] => []
  | ingress_call.add_edge _ _ _ _ :: rest => vertex_sends N rest
  | ingress_call.add_vertex _ vid vdata :: rest => add_vertex N vid vdata :: vertex_sends N rest

/-- Modelled from the spec: the records of an exchange that are destined to process
`q` (`send(pid, item)` appends `item` to the buffer of `pid`). -/
def inbox {α : Type} (sends : List (Nat × α)) (q : Nat) : List α :=
  (sends.filter (fun m => decide (m.1 = q))).map Prod.snd

/-- All processes must succeed: one abort aborts the cluster. -/
def all_some {α : Type} : List (Option α) → Option (List α)
  | [] => some []
  | none :: _ => none
  | some a :: rest => (all_some rest).map (fun l => a :: l)

/-- Phase 1 on every process, starting from empty graphs. -/
def cluster_phase1 {V E : Type} [Inhabited V] (env : ingress_env V E) (N : Nat)
    (calls : List (ingress_call V E)) : Option (List (distributed_graph V E)) :=
  all_some ((List.range N).map (fun q =>
    finalize_phase1 (env.vid2lvid_order q) (distributed_graph.empty V E)
      (env.edge_recv q (inbox (edge_sends env.edge_hash N calls) q))))

/-- The `proc2vids` vectors built on every process (before the `all2all`). -/
def cluster_proc2vids {V E : Type} (env : ingress_env V E) (N : Nat)
    (g1 : List (distributed_graph V E)) : List (List (List shuffle_record)) :=
  (List.range N).map (fun p =>
    build_proc2vids N (g1.getD p (distributed_graph.empty V E))
      (env.vid2lvid_order p (g1.getD p (distributed_graph.empty V E)).vid2lvid))

/-- The `vrec_map` of negotiator `q` after Phase 2. -/
def cluster_vrec_map {V E : Type} [Inhabited V] (env : ingress_env V E) (N : Nat)
    (calls : List (ingress_call V E)) (g1 : List (distributed_graph V E)) (q : Nat) :
    List (Nat × vertex_negotiator_record V) :=
  accumulate_mirrors (env.uninit_vdata q) N (all2all [] (cluster_proc2vids env N g1) q)
    (populate_vrec_map (env.uninit_vdata q)
      (env.vertex_recv q (inbox (vertex_sends N calls) q)))

/-- The assignment loop on every negotiator: load vectors and sent records. -/
def cluster_assign {V E : Type} [Inhabited V] (env : ingress_env V E) (N : Nat)
    (calls : List (ingress_call V E)) (g1 : List (distributed_graph V E)) :
    Option (List (List Nat × List (Nat × vertex_negotiator_record V))) :=
  all_some ((List.range N).map (fun q =>
    assign_owners N (env.vrec_map_order q (cluster_vrec_map env N calls g1 q))))

/-- Phase 3 on every receiving process. -/
def cluster_phase3 {V E : Type} [Inhabited V] (env : ingress_env V E) (N : Nat)
    (g1 : List (distributed_graph V E))
    (sends : List (Nat × vertex_negotiator_record V)) :
    Option (List (distributed_graph V E)) :=
  all_some ((List.range N).map (fun q =>
    finalize_phase3 q (g1.getD q (distributed_graph.empty V E))
      (env.negotiator_recv q (inbox sends q))))

/-- Phase 4 on every process: the three `all2all` of the local counts. -/
def cluster_phase4 {V E : Type} (N : Nat) (g3 : List (distributed_graph V E)) :
    List (distributed_graph V E) :=
  (List.range N).map (fun q =>
    finalize_phase4 q (g3.getD q (distributed_graph.empty V E))
      (all2all 0 (g3.map (fun g => List.replicate N g.num_local_edges)) q)
      (all2all 0 (g3.map (fun g => List.replicate N g.num_local_own_vertices)) q)
      (all2all 0 (g3.map (fun g => List.replicate N g.num_local_vertices)) q))

/-- The collective `finalize` (lines 137-360) of `N` processes after the calls `calls`:
the graphs of processes `0 .. N-1`, or `none` when an assertion fails somewhere. -/
def finalize {V E : Type} [Inhabited V] (env : ingress_env V E) (N : Nat)
    (calls : List (ingress_call V E)) : Option (List (distributed_graph V E)) :=
  match cluster_phase1 env N calls with
  | none => none
  | some g1 =>
    match cluster_assign env N calls g1 with
    | none => none
    | some asg =>
      match cluster_phase3 env N g1 (asg.map Prod.snd).flatten with
      | none => none
      | some g3 => some (cluster_phase4 N g3)

/-! ## Vocabulary of the statements -/

/-- The order of `std::pair`: `a` is not greater than `b`. -/
def lex_le (a b : Nat × Nat) : Prop := a.1 < b.1 ∨ (a.1 = b.1 ∧ a.2 ≤ b.2)

/-- The flattened sequence `src_1, dst_1, src_2, dst_2, ...` of a list of edges. -/
def endpoints {E : Type} : List (edge_buffer_record E) → List Nat
  | [] => []
  | r :: rest => r.source :: r.target :: endpoints rest

/-- The map `vid2lvid` hands out the local ids `0, 1, 2, ...` in the order of its
entries and has no key twice. -/
def dense_lvids (m : List (Nat × Nat)) : Prop :=
  m.map Prod.snd = List.range m.length ∧ (m.map Prod.fst).Nodup

/-- The map `vid2lvid` after the look-ups of lines 151-163 for a sequence of vertex ids. -/
def lookup_all (m : List (Nat × Nat)) (vids : List Nat) : List (Nat × Nat) :=
  vids.foldl (fun m v => (lvid_of m v).2) m

/-- The LVID recorded for `vid` (0 when there is none). -/
def lvid_at (m : List (Nat × Nat)) (vid : Nat) : Nat := (umap_find m vid).getD 0

/-- A local record as Phase 1 leaves it: freshly constructed, with its `gvid` set. -/
def fresh_record (gvid : Nat) : vertex_record := { vertex_record.default with gvid := gvid }

/-- What Phase 1 establishes on a process that received the edges `l` into an empty
graph. -/
def phase1_post {V E : Type} (g : distributed_graph V E) (l : List (edge_buffer_record E)) :
    Prop :=
  g.vid2lvid = lookup_all [] (endpoints l) ∧
  g.lvid2record = g.vid2lvid.map (fun e => fresh_record e.1) ∧
  g.local_graph.num_vertices = g.vid2lvid.length ∧
  g.local_graph.edges =
    l.map (fun r => (lvid_at g.vid2lvid r.source, lvid_at g.vid2lvid r.target, r.edata))

/-- The shuffle records of `proc2vids[0 .. N)`, each with the PID of its sender, in the
order in which the accumulation loop visits them. -/
def tagged_records (N : Nat) (proc2vids : List (List shuffle_record)) :
    List (Nat × shuffle_record) :=
  (List.range N).flatMap (fun proc => (proc2vids.getD proc []).map (fun r => (proc, r)))

/-- The sum of a field over the shuffle records for `vid`. -/
def degree_sum (f : shuffle_record → Nat) (l : List shuffle_record) (vid : Nat) : Nat :=
  ((l.filter (fun r => decide (r.vid = vid))).map f).sum

/-- The payload that a sequence of drained vertex records leaves for `vid`, starting
from `d`: every record for `vid` overwrites it. -/
def last_vdata {V : Type} (l : List (vertex_buffer_record V)) (vid : Nat) (d : V) : V :=
  l.foldl (fun acc r => if r.vid = vid then r.vdata else acc) d

/-- The shuffle record that lines 205-206 build for the entry `pair` of `vid2lvid`. -/
def mk_shuffle {V E : Type} (g : distributed_graph V E) (pair : Nat × Nat) : shuffle_record :=
  { vid := pair.1,
    num_in_edges := g.local_graph.num_in_edges pair.2 % VID_MOD,
    num_out_edges := g.local_graph.num_out_edges pair.2 % VID_MOD }

/-- The number of edges of a list whose target is `vid`. -/
def in_count {E : Type} (l : List (edge_buffer_record E)) (vid : Nat) : Nat :=
  l.countP (fun r => decide (r.target = vid))

/-- The number of edges of a list whose source is `vid`. -/
def out_count {E : Type} (l : List (edge_buffer_record E)) (vid : Nat) : Nat :=
  l.countP (fun r => decide (r.source = vid))

/-- The relation between an entry `e` of `vrec_map` and the record `r` that the
assignment loop sends for it among `N` processes. -/
def sent_rel {V : Type} (N : Nat) (e : Nat × vertex_negotiator_record V)
    (r : vertex_negotiator_record V) : Prop :=
  r.vid = e.1 ∧ r.num_in_edges = e.2.num_in_edges ∧ r.num_out_edges = e.2.num_out_edges ∧
  r.vdata = e.2.vdata ∧
  r.mirrors = (if 0 < mirror_type.popcount e.2.mirrors then e.2.mirrors else {e.1 % N}) ∧
  r.owner ∈ r.mirrors

/-- The local record that lines 314-322 leave for a received negotiator record. -/
def stored_record {V : Type} (r : vertex_negotiator_record V) : vertex_record :=
  { owner := r.owner, gvid := r.vid, num_in_edges := r.num_in_edges,
    num_out_edges := r.num_out_edges,
    _mirrors := mirror_type.clear_bit r.mirrors r.owner }

/-- The local record of the GVID `k` once the records `done` were received: the stored
form of the record for `k`, or the fresh record of Phase 1 when none came. -/
def record_for {V : Type} (done : List (vertex_negotiator_record V)) (k : Nat) : vertex_record :=
  match done.find? (fun r => decide (r.vid = k)) with
  | some r => stored_record r
  | none => fresh_record k

/-- The vertex data of the GVID `k` once the records `done` were received. -/
def vdata_for {V : Type} [Inhabited V] (done : List (vertex_negotiator_record V)) (k : Nat) : V :=
  match done.find? (fun r => decide (r.vid = k)) with
  | some r => r.vdata
  | none => Inhabited.default

/-- The state of the receiving loop of Phase 3 after the records `done`, on a process
whose Phase 1 graph is `g0`. -/
def recv_inv {V E : Type} [Inhabited V] (g0 : distributed_graph V E)
    (done : List (vertex_negotiator_record V)) (g : distributed_graph V E) : Prop :=
  dense_lvids g.vid2lvid ∧
  (∀ k, k ∈ g.vid2lvid.map Prod.fst ↔ k ∈ g0.vid2lvid.map Prod.fst ∨ k ∈ done.map (fun r => r.vid)) ∧
  g.lvid2record = g.vid2lvid.map (fun e => record_for done e.1) ∧
  g.local_graph.vertices = g.vid2lvid.map (fun e => vdata_for done e.1) ∧
  g.local_graph.edges = g0.local_graph.edges ∧
  g.local_own_nverts = g0.local_own_nverts ∧
  (∀ k l, umap_find g0.vid2lvid k = some l → umap_find g.vid2lvid k = some l)

/-- The edge records of a sequence of calls, in call order. -/
def call_edges {V E : Type} : List (ingress_call V E) → List (edge_buffer_record E)
  | [] => []
  | ingress_call.add_edge _ source target edata :: rest =>
    { source := source, target := target, edata := edata } :: call_edges rest
  | ingress_call.add_vertex _ _ _ :: rest => call_edges rest

/-- The vertex payload records of a sequence of calls, in call order. -/
def call_vertices {V E : Type} : List (ingress_call V E) → List (vertex_buffer_record V)
  | [] => []
  | ingress_call.add_edge _ _ _ _ :: rest => call_vertices rest
  | ingress_call.add_vertex _ vid vdata :: rest => { vid := vid, vdata := vdata } :: call_vertices rest

/-- Every GVID that appears in an ingested edge or vertex payload. -/
def seen_vids {V E : Type} (calls : List (ingress_call V E)) : List Nat :=
  endpoints (call_edges calls) ++ (call_vertices calls).map (fun x => x.vid)

/-- The edges that process `q` drains from `edge_exchange`. -/
def received_edges {V E : Type} (env : ingress_env V E) (N : Nat)
    (calls : List (ingress_call V E)) (q : Nat) : List (edge_buffer_record E) :=
  (env.edge_recv q (inbox (edge_sends env.edge_hash N calls) q)).flatten

/-- The vertex payloads that process `q` drains from `vertex_exchange`. -/
def received_vertices {V E : Type} (env : ingress_env V E) (N : Nat)
    (calls : List (ingress_call V E)) (q : Nat) : List (vertex_buffer_record V) :=
  (env.vertex_recv q (inbox (vertex_sends N calls) q)).flatten

/-- The records that the assignment loop constructs, entry by entry (each is then sent
to all its mirrors). -/
def loop_records {V : Type} (N : Nat) :
    List Nat → List (Nat × vertex_negotiator_record V) → List (vertex_negotiator_record V)
  | _, [] => []
  | counts, entry :: rest =>
    match assign_step N counts entry.1 entry.2 with
    | none => []
    | some step => step.2 :: loop_records N step.1 rest

/-- The negotiator records constructed on all negotiators `0 .. N-1`. -/
def cluster_records {V E : Type} [Inhabited V] (env : ingress_env V E) (N : Nat)
    (calls : List (ingress_call V E)) (g1 : List (distributed_graph V E)) :
    List (vertex_negotiator_record V) :=
  (List.range N).flatMap (fun n =>
    loop_records N (List.replicate N 0) (env.vrec_map_order n (cluster_vrec_map env N calls g1 n)))

/-- What holds of a negotiator record sent in Phase 3 of the cluster run: it is for a
seen GVID, its owner is one of its mirrors, it carries the global degrees modulo
`VID_MOD`, its mirrors are the processes that received an edge incident to the GVID
(or the negotiator alone, for a GVID in no edge), and its payload is the last one the
negotiator drained for the GVID (when there is none, the payload is whatever value `d`
the uninitialised field held). -/
def record_sound {V E : Type} [Inhabited V] (env : ingress_env V E) (N : Nat)
    (calls : List (ingress_call V E)) (r : vertex_negotiator_record V) : Prop :=
  r.vid ∈ seen_vids calls ∧ r.owner ∈ r.mirrors ∧
  r.num_in_edges = in_count (call_edges calls) r.vid % VID_MOD ∧
  r.num_out_edges = out_count (call_edges calls) r.vid % VID_MOD ∧
  (∀ p, p ∈ r.mirrors ↔
    (p < N ∧ r.vid ∈ endpoints (received_edges env N calls p)) ∨
    (r.vid ∉ endpoints (call_edges calls) ∧ p = vertex_to_proc N r.vid)) ∧
  ∃ d, r.vdata = last_vdata (received_vertices env N calls (vertex_to_proc N r.vid)) r.vid d

/-- What Phase 3 establishes on process `q`, in terms of the negotiator records `recs`
sent in the cluster: the process holds exactly the GVIDs whose record lists `q` as a
mirror, with the stored form of that record and its payload. -/
def final_post {V E : Type} [Inhabited V] (env : ingress_env V E) (N : Nat)
    (calls : List (ingress_call V E)) (recs : List (vertex_negotiator_record V)) (q : Nat)
    (g : distributed_graph V E) : Prop :=
  dense_lvids g.vid2lvid ∧
  (∀ k, k ∈ g.vid2lvid.map Prod.fst ↔ ∃ r ∈ recs, r.vid = k ∧ q ∈ r.mirrors) ∧
  g.lvid2record = g.vid2lvid.map (fun e => record_for recs e.1) ∧
  g.local_graph.vertices = g.vid2lvid.map (fun e => vdata_for recs e.1) ∧
  g.local_graph.edges = (received_edges env N calls q).map
    (fun r => (lvid_at g.vid2lvid r.source, lvid_at g.vid2lvid r.target, r.edata)) ∧
  g.local_own_nverts = g.lvid2record.countP (fun r => decide (r.owner = q))

/-- What a cluster run establishes: `g1` are the graphs after Phase 1, `gs` the final
graphs. -/
def run_post {V E : Type} [Inhabited V] (env : ingress_env V E) (N : Nat)
    (calls : List (ingress_call V E)) (g1 gs : List (distributed_graph V E)) : Prop :=
  g1.length = N ∧ gs.length = N ∧
  (∀ q, q < N → ∃ g, g1[q]? = some g ∧ phase1_post g (received_edges env N calls q)) ∧
  ((cluster_records env N calls g1).map (fun r => r.vid)).Nodup ∧
  (∀ r ∈ cluster_records env N calls g1, record_sound env N calls r) ∧
  (∀ v ∈ seen_vids calls, ∃ r ∈ cluster_records env N calls g1, r.vid = v) ∧
  (∀ q, q < N → ∃ g, gs[q]? = some g ∧
    final_post env N calls (cluster_records env N calls g1) q g ∧
    g.nedges = (gs.map (fun x => x.num_local_edges)).sum ∧
    g.begin_eid = ((gs.take q).map (fun x => x.num_local_edges)).sum ∧
    g.nverts = (gs.map (fun x => x.num_local_own_vertices)).sum ∧
    g.nreplicas = (gs.map (fun x => x.num_local_vertices)).sum)

/-- The maps `vid2lvid` and `lvid2record` of a process are in bijection: the records
are as many as the keys, the record at the LVID of `gvid` carries `gvid`, the GVID of
the record at `lvid` maps back to `lvid`, and the LVIDs are `0, 1, 2, ...` without
repeated key. -/
def vid2lvid_bijection {V E : Type} (g : distributed_graph V E) : Prop :=
  g.lvid2record.length = g.vid2lvid.length ∧
  (∀ gvid lvid, umap_find g.vid2lvid gvid = some lvid →
    ∃ r, g.lvid2record[lvid]? = some r ∧ r.gvid = gvid) ∧
  (∀ lvid r, g.lvid2record[lvid]? = some r → umap_find g.vid2lvid r.gvid = some lvid) ∧
  dense_lvids g.vid2lvid

/-- Scenario S1: the triangle `1 -> 2`, `2 -> 3`, `3 -> 1`. -/
def triangle_calls : List (ingress_call Nat Nat) :=
  [ingress_call.add_edge 0 1 2 0, ingress_call.add_edge 0 2 3 0, ingress_call.add_edge 1 3 1 0]

/-- Scenario S1: a placement hash that sends `(1, 2)` and `(3, 1)` to process 0 and
`(2, 3)` to process 1. -/
def triangle_hash (source _target : Nat) : Nat := if source = 2 then 1 else 0

/-- Scenario S2: the star `0 -> 1`, `0 -> 2`, `0 -> 3`, `0 -> 4`. -/
def star_calls : List (ingress_call Nat Nat) :=
  [ingress_call.add_edge 0 0 1 0, ingress_call.add_edge 1 0 2 0, ingress_call.add_edge 2 0 3 0,
   ingress_call.add_edge 3 0 4 0]

/-- Scenario S2: a placement hash that spreads the star over the four processes. -/
def star_hash (_source target : Nat) : Nat := target

/-- Scenario S6: the self-loop `5 -> 5`. -/
def loop_calls : List (ingress_call Nat Nat) := [ingress_call.add_edge 0 5 5 0]

/-- The degrees stored for `vid` on every process that holds it. -/
def stored_degrees {V E : Type} (gs : List (distributed_graph V E)) (vid : Nat) :
    List (Nat × Nat) :=
  gs.filterMap (fun g =>
    (umap_find g.vid2lvid vid).bind (fun lvid =>
      (g.lvid2record[lvid]?).map (fun r => (r.num_in_edges, r.num_out_edges))))

/-- The GVID `v` is counted as locally owned on process `q`: `q` holds `v` and the
record of `v` there has `owner = q` (the test of line 333). -/
def counted_on {V E : Type} (gs : List (distributed_graph V E)) (q v : Nat) : Prop :=
  ∃ g lvid r, gs[q]? = some g ∧ umap_find g.vid2lvid v = some lvid ∧
    g.lvid2record[lvid]? = some r ∧ r.owner = q

/-- Process `q` holds the GVID `v`: its `vid2lvid` has an LVID for `v`. -/
def holds {V E : Type} (gs : List (distributed_graph V E)) (q v : Nat) : Prop :=
  ∃ g lvid, gs[q]? = some g ∧ umap_find g.vid2lvid v = some lvid

/-- The last record of a sequence of drained vertex records that carries `vid`. -/
def last_payload {V : Type} (l : List (vertex_buffer_record V)) (vid : Nat) :
    Option (vertex_buffer_record V) :=
  (l.filter (fun x => decide (x.vid = vid))).getLast?

/-- Two `vrec_map`s are the same map: the same key set and the same record under every
key. -/
def same_vrec_map {V : Type} (m m2 : List (Nat × vertex_negotiator_record V)) : Prop :=
  (∀ k, k ∈ m.map Prod.fst ↔ k ∈ m2.map Prod.fst) ∧
  ∀ k d, umap_get m k (vertex_negotiator_record.default V d) =
    umap_get m2 k (vertex_negotiator_record.default V d)

/-- Two `vrec_map`s agree on everything that the code initialises: the same key set,
under every key the same `vid`, degrees, `owner` and mirror set, and the same `vdata`
under every key of `written`, the keys whose `vdata` was assigned. -/
def same_vrec_map_initialised {V : Type} (written : List Nat)
    (m m2 : List (Nat × vertex_negotiator_record V)) : Prop :=
  (∀ k, k ∈ m.map Prod.fst ↔ k ∈ m2.map Prod.fst) ∧
  ∀ k d,
    (umap_get m k (vertex_negotiator_record.default V d)).vid =
      (umap_get m2 k (vertex_negotiator_record.default V d)).vid ∧
    (umap_get m k (vertex_negotiator_record.default V d)).num_in_edges =
      (umap_get m2 k (vertex_negotiator_record.default V d)).num_in_edges ∧
    (umap_get m k (vertex_negotiator_record.default V d)).num_out_edges =
      (umap_get m2 k (vertex_negotiator_record.default V d)).num_out_edges ∧
    (umap_get m k (vertex_negotiator_record.default V d)).owner =
      (umap_get m2 k (vertex_negotiator_record.default V d)).owner ∧
    (umap_get m k (vertex_negotiator_record.default V d)).mirrors =
      (umap_get m2 k (vertex_negotiator_record.default V d)).mirrors ∧
    (k ∈ written →
      (umap_get m k (vertex_negotiator_record.default V d)).vdata =
        (umap_get m2 k (vertex_negotiator_record.default V d)).vdata)

/-- A graph that holds `n` local edges and nothing else (for evaluating Phase 4). -/
def graph_with_edges (n : Nat) : distributed_graph Nat Nat :=
  { distributed_graph.empty Nat Nat with
    local_graph := { vertices := [], edges := List.replicate n (0, 0, 0) } }

/-- The round-robin state of the load vector over the sorted mirrors `B`: the first
`k` of them were assigned `d + 1` vertices, the others `d`. -/
def round_robin_state (N : Nat) (B : List Nat) (d k : Nat) (counts : List Nat) : Prop :=
  counts.length = N ∧ k < B.length ∧
  ∀ j, j < B.length → counts_at counts (B.getD j 0) = d + (if j < k then 1 else 0)


/-- The negotiator records that process `q` drains from `negotiator_exchange` in
Phase 3, in the order of the loop of lines 293-325, when `asg` are the outcomes of the
assignment loops of the negotiators. -/
def received_records {V E : Type} (env : ingress_env V E)
    (asg : List (List Nat × List (Nat × vertex_negotiator_record V))) (q : Nat) :
    List (vertex_negotiator_record V) :=
  (env.negotiator_recv q (inbox (asg.map Prod.snd).flatten q)).flatten

/-- The record `local_record` of line 314, as the assertions of lines 316-318 find it
when the loop body runs for `negotiator_rec` on the graph `g`: lines 300-314 without
the write. -/
def local_record_at_write {V E : Type} (g : distributed_graph V E)
    (negotiator_rec : vertex_negotiator_record V) : Option vertex_record :=
  match umap_find g.vid2lvid negotiator_rec.vid with
  | none =>
    let lvid := g.vid2lvid.length
    let vid2lvid := g.vid2lvid ++ [(negotiator_rec.vid, lvid)]
    let recs := (resize_records g.lvid2record vid2lvid.length).modify
      (fun r => { r with gvid := negotiator_rec.vid }) lvid
    recs[lvid]?
  | some lvid =>
    if lvid < g.local_graph.num_vertices then g.lvid2record[lvid]? else none

/-- The record stored for `vid` on process `q`. -/
def stored_record_at {V E : Type} (gs : List (distributed_graph V E)) (q vid : Nat) :
    Option vertex_record :=
  (gs[q]?).bind (fun g => (umap_find g.vid2lvid vid).bind (fun lvid => g.lvid2record[lvid]?))

/-- The vertex data stored for `vid` on process `q`. -/
def stored_vdata_at {V E : Type} (gs : List (distributed_graph V E)) (q vid : Nat) :
    Option V :=
  (gs[q]?).bind (fun g =>
    (umap_find g.vid2lvid vid).bind (fun lvid => g.local_graph.vertices[lvid]?))

/-- Scenario S3: the single call `add_vertex(42, "X")` on process 0. -/
def singleton_calls : List (ingress_call String Nat) := [ingress_call.add_vertex 0 42 "X"]

/-- Scenario S4: two payloads for the GVID 7, `"A"` from process 0 and `"B"` from
process 1, and the edges `7 -> 8` and `9 -> 7`. -/
def duplicate_calls : List (ingress_call String Nat) :=
  [ingress_call.add_vertex 0 7 "A", ingress_call.add_vertex 1 7 "B",
   ingress_call.add_edge 0 7 8 0, ingress_call.add_edge 1 9 7 0]

/-- Scenario S4: a placement hash that sends `(7, 8)` to process 0 and `(9, 7)` to
process 1 of two. -/
def duplicate_hash (_source target : Nat) : Nat := target

/-! ## Phase 3 over an arbitrary `add_vertex` of the local graph -/

/-- A scenario with edges and a singleton: the edges `1 -> 2` and `2 -> 3` and the
call `add_vertex(42, "X")`; with `triangle_hash` on three processes, process 0 gets the
edge `(1, 2)` and negotiates the GVID 42. -/
def mixed_calls : List (ingress_call String Nat) :=
  [ingress_call.add_edge 0 1 2 0, ingress_call.add_edge 1 2 3 0,
   ingress_call.add_vertex 2 42 "X"]
/-! ## Lemmas on mirror sets -/

theorem mirror_type.mem_bits (m : mirror_type) (p : Nat) : p ∈ mirror_type.bits m ↔ p ∈ m := by
  unfold mirror_type.bits
  simp only [List.mem_filter, List.mem_range, decide_eq_true_eq]
  constructor
  · exact fun h => h.2
  · intro h
    exact ⟨Nat.lt_succ_of_le (Finset.le_sup (f := id) h), h⟩

theorem mirror_type.first_bit_mem (m : mirror_type) (f : Nat)
    (h : mirror_type.first_bit m = some f) : f ∈ m := by
  unfold mirror_type.first_bit at h
  exact (mirror_type.mem_bits m f).1 (List.mem_of_mem_head? h)

theorem mirror_type.first_bit_isSome (m : mirror_type) (h : 0 < mirror_type.popcount m) :
    ∃ f, mirror_type.first_bit m = some f := by
  unfold mirror_type.popcount at h
  obtain ⟨x, hx⟩ := Finset.card_pos.1 h
  have hx2 := (mirror_type.mem_bits m x).2 hx
  unfold mirror_type.first_bit
  cases hb : mirror_type.bits m with
  | nil => rw [hb] at hx2; cases hx2
  | cons a t => exact ⟨a, rfl⟩

theorem mirror_type.bits_ne_nil (m : mirror_type) (p : Nat) (h : p ∈ m) :
    mirror_type.bits m ≠ [] := by
  intro hb
  have := (mirror_type.mem_bits m p).2 h
  rw [hb] at this
  cases this

/-! ## Lemmas on the greedy choice -/

theorem lex_le_refl (a : Nat × Nat) : lex_le a a := Or.inr ⟨rfl, le_refl _⟩

theorem lex_le_trans {a b c : Nat × Nat} (h1 : lex_le a b) (h2 : lex_le b c) : lex_le a c := by
  unfold lex_le at *
  omega

theorem pair_min_le_left (a b : Nat × Nat) : lex_le (pair_min a b) a := by
  unfold pair_min pair_lt lex_le
  split
  · rename_i h
    simp only [Bool.or_eq_true, Bool.and_eq_true, decide_eq_true_eq] at h
    omega
  · omega

theorem pair_min_le_right (a b : Nat × Nat) : lex_le (pair_min a b) b := by
  unfold pair_min pair_lt lex_le
  split
  · omega
  · rename_i h
    simp only [Bool.or_eq_true, Bool.and_eq_true, decide_eq_true_eq, not_or, not_and, not_lt] at h
    omega

theorem pair_min_cases (a b : Nat × Nat) : pair_min a b = a ∨ pair_min a b = b := by
  unfold pair_min
  split
  · exact Or.inr rfl
  · exact Or.inl rfl

theorem foldl_pair_min_spec (c : Nat → Nat) (l : List Nat) (init : Nat × Nat) :
    let r := l.foldl (fun best proc => pair_min best (c proc, proc)) init
    (r = init ∨ ∃ p ∈ l, r = (c p, p)) ∧ lex_le r init ∧ ∀ p ∈ l, lex_le r (c p, p) := by
  induction l generalizing init with
  | nil => simp [lex_le_refl]
  | cons x t ih =>
    simp only [List.foldl_cons]
    obtain ⟨h1, h2, h3⟩ := ih (pair_min init (c x, x))
    refine ⟨?_, ?_, ?_⟩
    · rcases h1 with h1 | ⟨p, hp, h1⟩
      · rcases pair_min_cases init (c x, x) with h | h
        · exact Or.inl (h1.trans h)
        · exact Or.inr ⟨x, List.mem_cons_self _ _, h1.trans h⟩
      · exact Or.inr ⟨p, List.mem_cons_of_mem _ hp, h1⟩
    · exact lex_le_trans h2 (pair_min_le_left _ _)
    · intro p hp
      rcases List.mem_cons.1 hp with rfl | hp
      · exact lex_le_trans h2 (pair_min_le_right _ _)
      · exact h3 p hp

theorem best_asg_spec (counts : List Nat) (m : mirror_type) (f : Nat) (hf : f ∈ m) :
    (best_asg counts m f).1 = counts_at counts (best_asg counts m f).2 ∧
    (best_asg counts m f).2 ∈ m ∧
    ∀ p ∈ m, lex_le (counts_at counts (best_asg counts m f).2, (best_asg counts m f).2)
      (counts_at counts p, p) := by
  obtain ⟨h1, _, h3⟩ := foldl_pair_min_spec (counts_at counts) (mirror_type.bits m)
    (counts_at counts f, f)
  have hfst : (best_asg counts m f).1 = counts_at counts (best_asg counts m f).2 := by
    unfold best_asg
    rcases h1 with h | ⟨p, _, h⟩ <;> rw [h]
  refine ⟨hfst, ?_, ?_⟩
  · unfold best_asg
    rcases h1 with h | ⟨p, hp, h⟩
    · rw [h]; exact hf
    · rw [h]; exact (mirror_type.mem_bits m p).1 hp
  · intro p hp
    have := h3 p ((mirror_type.mem_bits m p).2 hp)
    have e : best_asg counts m f = (counts_at counts (best_asg counts m f).2, (best_asg counts m f).2) := by
      rw [← hfst]
    rw [← e]
    exact this

/-! ## The assignment step: C1, C2, C10 -/

theorem assign_step_pos {V : Type} (N : Nat) (counts : List Nat) (vid : Nat)
    (r : vertex_negotiator_record V) (hpop : 0 < mirror_type.popcount r.mirrors) :
    ∃ f, mirror_type.first_bit r.mirrors = some f ∧
      assign_step N counts vid r =
        some (counts.set (best_asg counts r.mirrors f).2
                (counts_at counts (best_asg counts r.mirrors f).2 + 1),
              { r with vid := vid, owner := (best_asg counts r.mirrors f).2 }) := by
  obtain ⟨f, hf⟩ := mirror_type.first_bit_isSome r.mirrors hpop
  refine ⟨f, hf, ?_⟩
  unfold assign_step
  simp only [gt_iff_lt, hpop, if_true, hf]

theorem assign_step_zero {V : Type} (N : Nat) (counts : List Nat) (vid : Nat)
    (r : vertex_negotiator_record V) (hpop : ¬ 0 < mirror_type.popcount r.mirrors) :
    assign_step N counts vid r =
      some (counts, { r with vid := vid, mirrors := mirror_type.set_bit r.mirrors (vid % N),
                             owner := vid % N }) := by
  unfold assign_step
  simp only [gt_iff_lt, hpop, if_false]

/-- C1. For every entry processed by the assignment loop (either branch) the step
returns a record whose owner is a member of the mirror set it carries; and a worker
that writes this record into a local record with zero degrees stores
`_mirrors = rec.mirrors` with the owner bit cleared, which does not contain the owner. -/
theorem owner_in_sent_mirrors_and_not_in_local {V : Type} (N : Nat) (counts : List Nat)
    (vid : Nat) (r : vertex_negotiator_record V) (lvid2record : List vertex_record)
    (lvid : Nat) (local_record : vertex_record)
    (hrec : lvid2record[lvid]? = some local_record)
    (hin : local_record.num_in_edges = 0) (hout : local_record.num_out_edges = 0) :
    ∃ counts1 sent recs1 stored,
      assign_step N counts vid r = some (counts1, sent) ∧
      sent.owner ∈ sent.mirrors ∧
      (∀ m ∈ notify sent, m.2 = sent ∧ m.1 ∈ sent.mirrors) ∧
      write_record lvid2record lvid sent = some recs1 ∧
      recs1[lvid]? = some stored ∧
      stored._mirrors = mirror_type.clear_bit sent.mirrors sent.owner ∧
      sent.owner ∉ stored._mirrors := by
  have key : ∃ counts1 sent, assign_step N counts vid r = some (counts1, sent) ∧
      sent.owner ∈ sent.mirrors := by
    by_cases hpop : 0 < mirror_type.popcount r.mirrors
    · obtain ⟨f, hf, hstep⟩ := assign_step_pos N counts vid r hpop
      exact ⟨_, _, hstep, (best_asg_spec counts r.mirrors f
        (mirror_type.first_bit_mem _ _ hf)).2.1⟩
    · refine ⟨_, _, assign_step_zero N counts vid r hpop, ?_⟩
      simp [mirror_type.set_bit]
  obtain ⟨counts1, sent, hstep, hown⟩ := key
  have hlt : lvid < lvid2record.length := by
    rcases Nat.lt_or_ge lvid lvid2record.length with h | h
    · exact h
    · rw [List.getElem?_eq_none h] at hrec; cases hrec
  have hne : mirror_type.bits sent.mirrors ≠ [] := mirror_type.bits_ne_nil _ _ hown
  refine ⟨counts1, sent,
    lvid2record.set lvid { local_record with
      owner := sent.owner, num_in_edges := sent.num_in_edges,
      num_out_edges := sent.num_out_edges,
      _mirrors := mirror_type.clear_bit sent.mirrors sent.owner },
    { local_record with
      owner := sent.owner, num_in_edges := sent.num_in_edges,
      num_out_edges := sent.num_out_edges,
      _mirrors := mirror_type.clear_bit sent.mirrors sent.owner },
    hstep, hown, ?_, ?_, ?_, rfl, ?_⟩
  · intro m hm
    unfold notify at hm
    obtain ⟨p, hp, rfl⟩ := List.mem_map.1 hm
    exact ⟨rfl, (mirror_type.mem_bits _ _).1 hp⟩
  · unfold write_record
    simp only [hrec, hin, hout, hne, ne_eq, not_false_eq_true, and_self, if_true]
  · simp [List.getElem?_set, hlt]
  · simp [mirror_type.clear_bit]

theorem owner_in_sent_mirrors_and_not_in_local_witness :
    ∃ counts1 sent recs1 stored,
      assign_step 2 [1, 0] 7 (⟨0, 1, 1, 0, {0, 1}, 5⟩ : vertex_negotiator_record Nat)
        = some (counts1, sent) ∧
      sent.owner ∈ sent.mirrors ∧
      (∀ m ∈ notify sent, m.2 = sent ∧ m.1 ∈ sent.mirrors) ∧
      write_record [vertex_record.default] 0 sent = some recs1 ∧
      recs1[0]? = some stored ∧
      stored._mirrors = mirror_type.clear_bit sent.mirrors sent.owner ∧
      sent.owner ∉ stored._mirrors :=
  owner_in_sent_mirrors_and_not_in_local 2 [1, 0] 7 ⟨0, 1, 1, 0, {0, 1}, 5⟩
    [vertex_record.default] 0 vertex_record.default rfl rfl rfl

/-- C2. For an entry with a non-empty mirror set whose members index the load vector,
the step succeeds, the owner is the member `p` of the mirror set with the least pair
`(counts[p], p)` in lexicographic order, `counts[owner]` grows by exactly one and every
other entry of `counts` (and its length) is unchanged. -/
theorem greedy_owner_choice {V : Type} (N : Nat) (counts : List Nat) (vid : Nat)
    (r : vertex_negotiator_record V) (hpop : 0 < mirror_type.popcount r.mirrors)
    (hbound : ∀ p ∈ r.mirrors, p < counts.length) :
    ∃ counts1 sent,
      assign_step N counts vid r = some (counts1, sent) ∧
      sent.mirrors = r.mirrors ∧
      sent.owner ∈ r.mirrors ∧
      (∀ p ∈ r.mirrors, lex_le (counts_at counts sent.owner, sent.owner) (counts_at counts p, p)) ∧
      counts1.length = counts.length ∧
      counts1[sent.owner]? = some (counts_at counts sent.owner + 1) ∧
      ∀ p, p ≠ sent.owner → counts1[p]? = counts[p]? := by
  obtain ⟨f, hf, hstep⟩ := assign_step_pos N counts vid r hpop
  obtain ⟨_, h2, h3⟩ := best_asg_spec counts r.mirrors f (mirror_type.first_bit_mem _ _ hf)
  refine ⟨_, _, hstep, rfl, h2, h3, ?_, ?_, ?_⟩
  · simp
  · simp [List.getElem?_set, hbound _ h2]
  · intro p hp
    simp only [List.getElem?_set]
    rw [if_neg (fun h => hp h.symm)]

theorem greedy_owner_choice_witness :
    ∃ counts1 sent,
      assign_step 3 [2, 1, 1] 9 (⟨0, 0, 0, 0, {0, 1, 2}, 5⟩ : vertex_negotiator_record Nat)
        = some (counts1, sent) ∧
      sent.mirrors = {0, 1, 2} ∧
      sent.owner ∈ ({0, 1, 2} : Finset Nat) ∧
      (∀ p ∈ ({0, 1, 2} : Finset Nat),
        lex_le (counts_at [2, 1, 1] sent.owner, sent.owner) (counts_at [2, 1, 1] p, p)) ∧
      counts1.length = [2, 1, 1].length ∧
      counts1[sent.owner]? = some (counts_at [2, 1, 1] sent.owner + 1) ∧
      ∀ p, p ≠ sent.owner → counts1[p]? = [2, 1, 1][p]? :=
  greedy_owner_choice 3 [2, 1, 1] 9 ⟨0, 0, 0, 0, {0, 1, 2}, 5⟩ (by decide) (by decide)

/-- C10. For an entry whose mirror set is empty the step sets `owner = vid mod N`,
makes the mirror set exactly `{vid mod N}` and returns the load vector unchanged. -/
theorem singleton_branch {V : Type} (N : Nat) (counts : List Nat) (vid : Nat)
    (r : vertex_negotiator_record V) (hempty : mirror_type.popcount r.mirrors = 0) :
    ∃ sent, assign_step N counts vid r = some (counts, sent) ∧
      sent.owner = vid % N ∧ sent.mirrors = {vid % N} ∧ sent.vid = vid ∧
      sent.num_in_edges = r.num_in_edges ∧ sent.num_out_edges = r.num_out_edges ∧
      sent.vdata = r.vdata := by
  have hpop : ¬ 0 < mirror_type.popcount r.mirrors := by omega
  refine ⟨_, assign_step_zero N counts vid r hpop, rfl, ?_, rfl, rfl, rfl, rfl⟩
  have : r.mirrors = ∅ := Finset.card_eq_zero.1 hempty
  simp [mirror_type.set_bit, this]

theorem singleton_branch_witness :
    ∃ sent, assign_step 3 [4, 0, 1] 42 (⟨0, 0, 0, 0, ∅, 7⟩ : vertex_negotiator_record Nat)
        = some ([4, 0, 1], sent) ∧
      sent.owner = 42 % 3 ∧ sent.mirrors = {42 % 3} ∧ sent.vid = 42 ∧
      sent.num_in_edges = 0 ∧ sent.num_out_edges = 0 ∧ sent.vdata = 7 :=
  singleton_branch 3 [4, 0, 1] 42 ⟨0, 0, 0, 0, ∅, 7⟩ (by decide)

/-! ## Lemmas on association lists -/

theorem umap_find_nil {β : Type} (k : Nat) : umap_find ([] : List (Nat × β)) k = none := rfl

theorem umap_find_cons {β : Type} (e : Nat × β) (t : List (Nat × β)) (k : Nat) :
    umap_find (e :: t) k = if e.1 = k then some e.2 else umap_find t k := by
  unfold umap_find
  by_cases h : e.1 = k
  · simp [List.find?_cons, h]
  · simp [List.find?_cons, h]

theorem umap_find_append {β : Type} (m m2 : List (Nat × β)) (k : Nat) :
    umap_find (m ++ m2) k = (umap_find m k).or (umap_find m2 k) := by
  induction m with
  | nil => simp [umap_find_nil]
  | cons e t ih =>
    rw [List.cons_append, umap_find_cons, umap_find_cons, ih]
    by_cases h : e.1 = k
    · simp [h]
    · simp [h]

theorem umap_find_mem {β : Type} {m : List (Nat × β)} {k : Nat} {v : β}
    (h : umap_find m k = some v) : (k, v) ∈ m := by
  induction m with
  | nil => simp [umap_find_nil] at h
  | cons e t ih =>
    rw [umap_find_cons] at h
    by_cases hk : e.1 = k
    · rw [if_pos hk] at h
      cases h
      rw [← hk]
      exact List.mem_cons_self _ _
    · rw [if_neg hk] at h
      exact List.mem_cons_of_mem _ (ih h)

theorem umap_find_eq_none {β : Type} {m : List (Nat × β)} {k : Nat} :
    umap_find m k = none ↔ k ∉ m.map Prod.fst := by
  induction m with
  | nil => simp [umap_find_nil]
  | cons e t ih =>
    rw [umap_find_cons]
    by_cases hk : e.1 = k
    · simp [hk]
    · rw [if_neg hk, ih]
      simp only [List.map_cons, List.mem_cons, not_or]
      constructor
      · exact fun h => ⟨fun h2 => hk h2.symm, h⟩
      · exact fun h => h.2

theorem umap_find_isSome {β : Type} {m : List (Nat × β)} {k : Nat} :
    (∃ v, umap_find m k = some v) ↔ k ∈ m.map Prod.fst := by
  rcases h : umap_find m k with _ | v
  · have := umap_find_eq_none.1 h
    simp [this]
  · have := umap_find_mem h
    simp only [Option.some.injEq, exists_eq', true_iff]
    exact List.mem_map.2 ⟨(k, v), this, rfl⟩

theorem umap_find_of_mem {β : Type} {m : List (Nat × β)} {k : Nat} {v : β}
    (hnd : (m.map Prod.fst).Nodup) (h : (k, v) ∈ m) : umap_find m k = some v := by
  induction m with
  | nil => cases h
  | cons e t ih =>
    rw [umap_find_cons]
    simp only [List.map_cons, List.nodup_cons] at hnd
    rcases List.mem_cons.1 h with h | h
    · subst h; simp
    · have hk : e.1 ≠ k := by
        intro hk
        apply hnd.1
        rw [hk]
        exact List.mem_map.2 ⟨(k, v), h, rfl⟩
      rw [if_neg hk]
      exact ih hnd.2 h

theorem umap_find_perm {β : Type} {m m2 : List (Nat × β)} (hp : m.Perm m2)
    (hnd : (m.map Prod.fst).Nodup) (k : Nat) : umap_find m k = umap_find m2 k := by
  have hnd2 : (m2.map Prod.fst).Nodup := (hp.map Prod.fst).nodup_iff.1 hnd
  rcases h : umap_find m k with _ | v
  · symm
    rw [umap_find_eq_none] at h ⊢
    exact fun h2 => h ((hp.map Prod.fst).mem_iff.2 h2)
  · symm
    exact umap_find_of_mem hnd2 (hp.mem_iff.1 (umap_find_mem h))

/-- The keys of a map after `umap_modify`. -/
theorem umap_modify_keys {β : Type} (m : List (Nat × β)) (k : Nat) (d : β) (f : β → β) :
    (umap_modify m k d f).map Prod.fst =
      if k ∈ m.map Prod.fst then m.map Prod.fst else m.map Prod.fst ++ [k] := by
  unfold umap_modify
  rcases h : umap_find m k with _ | v
  · have := umap_find_eq_none.1 h
    simp [this]
  · have : k ∈ m.map Prod.fst := umap_find_isSome.1 ⟨v, h⟩
    simp only [this, if_true, List.map_map]
    apply List.map_congr_left
    intro e _
    by_cases he : e.1 = k <;> simp [he]

theorem umap_modify_nodup {β : Type} (m : List (Nat × β)) (k : Nat) (d : β) (f : β → β)
    (hnd : (m.map Prod.fst).Nodup) : ((umap_modify m k d f).map Prod.fst).Nodup := by
  rw [umap_modify_keys]
  by_cases h : k ∈ m.map Prod.fst
  · rw [if_pos h]; exact hnd
  · rw [if_neg h]
    exact List.nodup_append.2 ⟨hnd, List.nodup_singleton k, by
      intro a ha hb
      rw [List.mem_singleton] at hb
      subst hb
      exact h ha⟩

theorem umap_find_map {β : Type} (m : List (Nat × β)) (k k2 : Nat) (f : β → β) :
    umap_find (m.map (fun e => if e.1 = k then (e.1, f e.2) else e)) k2 =
      (umap_find m k2).map (fun v => if k2 = k then f v else v) := by
  induction m with
  | nil => simp [umap_find_nil]
  | cons e t ih =>
    rw [List.map_cons, umap_find_cons, umap_find_cons, ih]
    by_cases he : e.1 = k
    · by_cases h2 : e.1 = k2
      · have : k2 = k := h2 ▸ he
        simp [he, h2, this]
      · have h3 : ¬ k = k2 := he ▸ h2
        simp [he, h3]
    · by_cases h2 : e.1 = k2
      · have : ¬ k2 = k := h2 ▸ he
        simp [he, h2, this]
      · simp [he, h2]

/-- Reading a map after `umap_modify`: the value at `k` went through `f`, the others
are unchanged. -/
theorem umap_get_modify {β : Type} (m : List (Nat × β)) (k k2 : Nat) (d : β) (f : β → β) :
    umap_get (umap_modify m k d f) k2 d =
      if k2 = k then f (umap_get m k d) else umap_get m k2 d := by
  unfold umap_get umap_modify
  rcases h : umap_find m k with _ | v
  · simp only [umap_find_append, umap_find_cons, umap_find_nil]
    by_cases hk : k2 = k
    · subst hk; simp [h]
    · have : ¬ k = k2 := fun h => hk h.symm
      simp [hk, this]
  · simp only [umap_find_map]
    by_cases hk : k2 = k
    · subst hk; simp [h]
    · simp only [hk, if_false]
      rcases umap_find m k2 with _ | w <;> simp

/-! ## Phase 1: the map `vid2lvid` -/

theorem dense_lvids_nil : dense_lvids [] := ⟨rfl, List.nodup_nil⟩

theorem dense_lvids_lt {m : List (Nat × Nat)} (hd : dense_lvids m) {k l : Nat}
    (h : (k, l) ∈ m) : l < m.length := by
  have : l ∈ m.map Prod.snd := List.mem_map.2 ⟨(k, l), h, rfl⟩
  rw [hd.1] at this
  exact List.mem_range.1 this

theorem dense_lvids_snoc {m : List (Nat × Nat)} (hd : dense_lvids m) {v : Nat}
    (hv : v ∉ m.map Prod.fst) : dense_lvids (m ++ [(v, m.length)]) := by
  constructor
  · simp [hd.1, List.range_succ]
  · rw [List.map_append]
    exact List.nodup_append.2 ⟨hd.2, List.nodup_singleton _, by
      intro a ha hb
      simp only [List.map_cons, List.map_nil, List.mem_singleton] at hb
      subst hb
      exact hv ha⟩

theorem dense_lvids_getElem {m : List (Nat × Nat)} (hd : dense_lvids m) {i : Nat} {e : Nat × Nat}
    (h : m[i]? = some e) : e.2 = i := by
  have h1 : (m.map Prod.snd)[i]? = some e.2 := by simp [h]
  rw [hd.1] at h1
  have hi : i < m.length := by
    rcases Nat.lt_or_ge i m.length with hi | hi
    · exact hi
    · rw [List.getElem?_eq_none hi] at h; cases h
  rw [List.getElem?_range hi] at h1
  cases h1
  rfl

theorem dense_lvids_inj {m : List (Nat × Nat)} (hd : dense_lvids m) {k k2 l : Nat}
    (h1 : (k, l) ∈ m) (h2 : (k2, l) ∈ m) : k = k2 := by
  obtain ⟨i, hi⟩ := List.getElem?_of_mem h1
  obtain ⟨j, hj⟩ := List.getElem?_of_mem h2
  have e1 := dense_lvids_getElem hd hi
  have e2 := dense_lvids_getElem hd hj
  simp only at e1 e2
  rw [← e1, e2] at hi
  rw [hi] at hj
  cases hj
  rfl

theorem lvid_of_old {m : List (Nat × Nat)} {v l : Nat} (h : umap_find m v = some l) :
    lvid_of m v = (l, m) := by
  unfold lvid_of; rw [h]

theorem lvid_of_new {m : List (Nat × Nat)} {v : Nat} (h : umap_find m v = none) :
    lvid_of m v = (m.length, m ++ [(v, m.length)]) := by
  unfold lvid_of; rw [h]

theorem lvid_of_dense {m : List (Nat × Nat)} (hd : dense_lvids m) (v : Nat) :
    dense_lvids (lvid_of m v).2 := by
  rcases h : umap_find m v with _ | l
  · rw [lvid_of_new h]
    exact dense_lvids_snoc hd (umap_find_eq_none.1 h)
  · rw [lvid_of_old h]
    exact hd

theorem lvid_of_find (m : List (Nat × Nat)) (v : Nat) :
    umap_find (lvid_of m v).2 v = some (lvid_of m v).1 := by
  rcases h : umap_find m v with _ | l
  · rw [lvid_of_new h]
    simp [umap_find_append, h, umap_find_cons]
  · rw [lvid_of_old h]
    exact h

theorem lvid_of_keys (m : List (Nat × Nat)) (v k : Nat) :
    k ∈ (lvid_of m v).2.map Prod.fst ↔ k = v ∨ k ∈ m.map Prod.fst := by
  rcases h : umap_find m v with _ | l
  · rw [lvid_of_new h]
    simp only [List.map_append, List.mem_append, List.map_cons, List.map_nil, List.mem_singleton]
    exact Or.comm
  · rw [lvid_of_old h]
    have : v ∈ m.map Prod.fst := umap_find_isSome.1 ⟨l, h⟩
    constructor
    · exact Or.inr
    · rintro (rfl | h2)
      · exact this
      · exact h2

theorem lvid_of_stable {m : List (Nat × Nat)} {k l : Nat} (v : Nat)
    (h : umap_find m k = some l) : umap_find (lvid_of m v).2 k = some l := by
  rcases hv : umap_find m v with _ | l2
  · rw [lvid_of_new hv, umap_find_append, h]
    rfl
  · rw [lvid_of_old hv]
    exact h

theorem lvid_of_length (m : List (Nat × Nat)) (v : Nat) :
    (lvid_of m v).2.length = if v ∈ m.map Prod.fst then m.length else m.length + 1 := by
  rcases h : umap_find m v with _ | l
  · rw [lvid_of_new h, if_neg (umap_find_eq_none.1 h)]
    simp
  · rw [lvid_of_old h, if_pos (umap_find_isSome.1 ⟨l, h⟩)]

theorem lookup_all_append (m : List (Nat × Nat)) (s t : List Nat) :
    lookup_all m (s ++ t) = lookup_all (lookup_all m s) t := by
  unfold lookup_all
  rw [List.foldl_append]

theorem takeWhile_ne_append_of_mem {s : List Nat} {k : Nat} (h : k ∈ s) (t : List Nat) :
    (s ++ t).takeWhile (fun x => decide (x ≠ k)) = s.takeWhile (fun x => decide (x ≠ k)) := by
  induction s with
  | nil => cases h
  | cons a u ih =>
    by_cases ha : a = k
    · have hp : decide (a ≠ k) = false := by simp [ha]
      simp only [List.cons_append, List.takeWhile_cons, hp]
      rfl
    · have hk : k ∈ u := by
        rcases List.mem_cons.1 h with h | h
        · exact absurd h.symm ha
        · exact h
      have hp : decide (a ≠ k) = true := by simp [ha]
      simp only [List.cons_append, List.takeWhile_cons, hp]
      rw [ih hk]

theorem takeWhile_ne_append_self {s : List Nat} {k : Nat} (h : k ∉ s) (t : List Nat) :
    (s ++ k :: t).takeWhile (fun x => decide (x ≠ k)) = s := by
  induction s with
  | nil => simp [List.takeWhile_cons]
  | cons a u ih =>
    have ha : a ≠ k := fun e => h (e ▸ List.mem_cons_self _ _)
    have hk : k ∉ u := fun e => h (List.mem_cons_of_mem _ e)
    have hp : decide (a ≠ k) = true := by simp [ha]
    simp only [List.cons_append, List.takeWhile_cons, hp]
    rw [ih hk]
    rfl

/-- The state of `vid2lvid` after looking up a sequence of vertex ids from the empty
map: dense, its keys are the ids of the sequence, and every id has the rank of its
first occurrence. -/
theorem lookup_all_spec (s : List Nat) :
    dense_lvids (lookup_all [] s) ∧
    (∀ k, k ∈ (lookup_all [] s).map Prod.fst ↔ k ∈ s) ∧
    (lookup_all [] s).length = s.toFinset.card ∧
    ∀ k l, (k, l) ∈ lookup_all [] s →
      l = (s.takeWhile (fun x => decide (x ≠ k))).toFinset.card := by
  induction s using List.reverseRecOn with
  | nil =>
    refine ⟨dense_lvids_nil, ?_, rfl, ?_⟩
    · intro k; simp [lookup_all]
    · intro k l h; simp [lookup_all] at h
  | append_singleton s a ih =>
    obtain ⟨hd, hk, hl, hr⟩ := ih
    have e : lookup_all [] (s ++ [a]) = (lvid_of (lookup_all [] s) a).2 := by
      rw [lookup_all_append]; rfl
    rw [e]
    refine ⟨lvid_of_dense hd a, ?_, ?_, ?_⟩
    · intro k
      rw [lvid_of_keys, hk]
      simp only [List.mem_append, List.mem_singleton]
      exact Or.comm
    · rw [lvid_of_length]
      by_cases ha : a ∈ s
      · rw [if_pos ((hk a).2 ha), hl]
        congr 1
        ext x
        simp only [List.mem_toFinset, List.mem_append, List.mem_singleton]
        constructor
        · exact Or.inl
        · rintro (h | rfl)
          · exact h
          · exact ha
      · rw [if_neg (fun h => ha ((hk a).1 h)), hl, List.toFinset_append]
        have hdisj : Disjoint s.toFinset [a].toFinset := by
          rw [Finset.disjoint_left]
          intro x hx hx2
          simp only [List.toFinset_cons, List.toFinset_nil, insert_emptyc_eq,
            Finset.mem_singleton] at hx2
          subst hx2
          exact ha (List.mem_toFinset.1 hx)
        rw [Finset.card_union_of_disjoint hdisj]
        simp
    · intro k l hmem
      rcases hf : umap_find (lookup_all [] s) a with _ | la
      · rw [lvid_of_new hf] at hmem
        have ha : a ∉ s := fun h => umap_find_eq_none.1 hf ((hk a).2 h)
        rcases List.mem_append.1 hmem with h | h
        · have hks : k ∈ s := (hk k).1 (List.mem_map.2 ⟨(k, l), h, rfl⟩)
          rw [takeWhile_ne_append_of_mem hks]
          exact hr k l h
        · simp only [List.mem_singleton, Prod.mk.injEq] at h
          obtain ⟨rfl, rfl⟩ := h
          rw [takeWhile_ne_append_self ha, hl]
      · rw [lvid_of_old hf] at hmem
        have hks : k ∈ s := (hk k).1 (List.mem_map.2 ⟨(k, l), hmem, rfl⟩)
        rw [takeWhile_ne_append_of_mem hks]
        exact hr k l hmem

/-! ## Phase 1: the local graph and the vertex records -/

theorem lvid_of_facts {m : List (Nat × Nat)} (hd : dense_lvids m) (v : Nat) :
    (lvid_of m v).1 < (lvid_of m v).2.length ∧
    ((lvid_of m v).2.length = m.length ∨
      ((lvid_of m v).2.length = m.length + 1 ∧ (lvid_of m v).1 = m.length)) := by
  rcases h : umap_find m v with _ | l
  · rw [lvid_of_new h]
    simp
  · rw [lvid_of_old h]
    exact ⟨dense_lvids_lt hd (umap_find_mem h), Or.inl rfl⟩

theorem local_graph.num_vertices_resize {V E : Type} [Inhabited V] (lg : local_graph V E)
    (n : Nat) : (lg.resize n).num_vertices = n := by
  unfold local_graph.resize local_graph.num_vertices
  simp only [List.length_append, List.length_take, List.length_replicate]
  omega

theorem foldl_foldl_flatten {α β : Type} (f : β → α → β) (bufs : List (List α)) (b : β) :
    bufs.foldl (fun g buf => buf.foldl f g) b = bufs.flatten.foldl f b := by
  induction bufs generalizing b with
  | nil => rfl
  | cons x t ih => simp [List.foldl_append, ih]

theorem endpoints_append {E : Type} (l l2 : List (edge_buffer_record E)) :
    endpoints (l ++ l2) = endpoints l ++ endpoints l2 := by
  induction l with
  | nil => rfl
  | cons r t ih => simp [endpoints, ih]

theorem mem_endpoints {E : Type} (l : List (edge_buffer_record E)) (v : Nat) :
    v ∈ endpoints l ↔ ∃ r ∈ l, r.source = v ∨ r.target = v := by
  induction l with
  | nil => simp [endpoints]
  | cons r t ih =>
    simp only [endpoints, List.mem_cons, ih, exists_eq_or_imp]
    constructor
    · rintro (h | h | h)
      · exact Or.inl (Or.inl h.symm)
      · exact Or.inl (Or.inr h.symm)
      · exact Or.inr h
    · rintro ((h | h) | h)
      · exact Or.inl h.symm
      · exact Or.inr (Or.inl h.symm)
      · exact Or.inr (Or.inr h)

theorem lvid_at_of_find {m : List (Nat × Nat)} {v l : Nat} (h : umap_find m v = some l) :
    lvid_at m v = l := by
  unfold lvid_at; rw [h]; rfl

/-- One received edge: the effect of the loop body on a graph whose map is dense and as
long as the local graph. -/
theorem add_edge_rec_spec {V E : Type} [Inhabited V] (g : distributed_graph V E)
    (r : edge_buffer_record E) (hd : dense_lvids g.vid2lvid)
    (hn : g.local_graph.num_vertices = g.vid2lvid.length) :
    (add_edge_rec g r).vid2lvid = lookup_all g.vid2lvid [r.source, r.target] ∧
    (add_edge_rec g r).local_graph.num_vertices = (add_edge_rec g r).vid2lvid.length ∧
    (add_edge_rec g r).local_graph.edges = g.local_graph.edges ++
      [(lvid_at (add_edge_rec g r).vid2lvid r.source,
        lvid_at (add_edge_rec g r).vid2lvid r.target, r.edata)] ∧
    (add_edge_rec g r).lvid2record = g.lvid2record := by
  have hs := lvid_of_facts hd r.source
  have hd1 := lvid_of_dense hd r.source
  have ht := lvid_of_facts hd1 r.target
  have hfs : umap_find (add_edge_rec g r).vid2lvid r.source = some (lvid_of g.vid2lvid r.source).1 :=
    lvid_of_stable _ (lvid_of_find _ _)
  have hft : umap_find (add_edge_rec g r).vid2lvid r.target =
      some (lvid_of (lvid_of g.vid2lvid r.source).2 r.target).1 := lvid_of_find _ _
  refine ⟨rfl, ?_, ?_, rfl⟩
  · show (local_graph.add_edge _ _ _ _).num_vertices = (lvid_of (lvid_of g.vid2lvid r.source).2 r.target).2.length
    unfold local_graph.add_edge
    show local_graph.num_vertices (if _ then _ else _) = _
    split
    · rw [local_graph.num_vertices_resize]
      rename_i hc
      omega
    · rename_i hc
      omega
  · rw [lvid_at_of_find hfs, lvid_at_of_find hft]
    unfold add_edge_rec local_graph.add_edge
    simp only
    split <;> rfl

theorem lookup_all_find_stable {m : List (Nat × Nat)} {k l : Nat} (s : List Nat)
    (h : umap_find m k = some l) : umap_find (lookup_all m s) k = some l := by
  induction s generalizing m with
  | nil => exact h
  | cons a t ih => exact ih (lvid_of_stable a h)

/-- The loop over received edges, from the empty graph. -/
theorem foldl_add_edge_rec_spec {V E : Type} [Inhabited V] (l : List (edge_buffer_record E)) :
    let g := l.foldl add_edge_rec (distributed_graph.empty V E)
    g.vid2lvid = lookup_all [] (endpoints l) ∧
    g.local_graph.num_vertices = g.vid2lvid.length ∧
    g.local_graph.edges =
      l.map (fun r => (lvid_at g.vid2lvid r.source, lvid_at g.vid2lvid r.target, r.edata)) ∧
    g.lvid2record = [] := by
  induction l using List.reverseRecOn with
  | nil => exact ⟨rfl, rfl, rfl, rfl⟩
  | append_singleton l r ih =>
    simp only [List.foldl_append, List.foldl_cons, List.foldl_nil]
    simp only at ih
    generalize l.foldl add_edge_rec (distributed_graph.empty V E) = g at ih ⊢
    obtain ⟨h1, h2, h3, h4⟩ := ih
    have hd : dense_lvids g.vid2lvid := h1 ▸ (lookup_all_spec (endpoints l)).1
    obtain ⟨e1, e2, e3, e4⟩ := add_edge_rec_spec g r hd h2
    have hkeys : ∀ k, k ∈ g.vid2lvid.map Prod.fst ↔ k ∈ endpoints l := by
      rw [h1]; exact (lookup_all_spec (endpoints l)).2.1
    refine ⟨?_, e2, ?_, e4.trans h4⟩
    · rw [e1, h1, endpoints_append, lookup_all_append]
      rfl
    · rw [e3, h3, List.map_append]
      congr 1
      apply List.map_congr_left
      intro x hx
      have hxs : x.source ∈ g.vid2lvid.map Prod.fst :=
        (hkeys _).2 ((mem_endpoints l _).2 ⟨x, hx, Or.inl rfl⟩)
      have hxt : x.target ∈ g.vid2lvid.map Prod.fst :=
        (hkeys _).2 ((mem_endpoints l _).2 ⟨x, hx, Or.inr rfl⟩)
      obtain ⟨ls, hls⟩ := umap_find_isSome.2 hxs
      obtain ⟨lt, hlt⟩ := umap_find_isSome.2 hxt
      have hls2 : umap_find (add_edge_rec g r).vid2lvid x.source = some ls := by
        rw [e1]; exact lookup_all_find_stable _ hls
      have hlt2 : umap_find (add_edge_rec g r).vid2lvid x.target = some lt := by
        rw [e1]; exact lookup_all_find_stable _ hlt
      rw [lvid_at_of_find hls, lvid_at_of_find hlt, lvid_at_of_find hls2, lvid_at_of_find hlt2]

/-- The records after the loop of lines 190-191, when the `foreach` visits `order`:
only `gvid` fields change, the last visit of an index wins. -/
theorem foldl_set_gvid_spec (order : List (Nat × Nat)) (recs0 : List vertex_record) :
    let recs := order.foldl
      (fun recs pair => recs.modify (fun r => { r with gvid := pair.1 }) pair.2) recs0
    recs.length = recs0.length ∧
    (∀ (i : Nat) (r : vertex_record), recs[i]? = some r →
      ∃ r0 : vertex_record, recs0[i]? = some r0 ∧ r = { r0 with gvid := r.gvid }) ∧
    ((order.map Prod.snd).Nodup → ∀ k l, (k, l) ∈ order → ∀ r, recs[l]? = some r → r.gvid = k) := by
  induction order using List.reverseRecOn with
  | nil =>
    refine ⟨rfl, ?_, ?_⟩
    · intro i r h; exact ⟨r, h, rfl⟩
    · intro _ k l h; cases h
  | append_singleton order a ih =>
    simp only [List.foldl_append, List.foldl_cons, List.foldl_nil]
    simp only at ih
    generalize order.foldl
      (fun recs pair => recs.modify (fun r => { r with gvid := pair.1 }) pair.2) recs0 = recs at ih ⊢
    obtain ⟨h1, h2, h3⟩ := ih
    refine ⟨by simp [h1], ?_, ?_⟩
    · intro i r h
      rw [List.getElem?_modify] at h
      rcases hr : recs[i]? with _ | r1
      · rw [hr] at h; cases h
      · rw [hr] at h
        obtain ⟨r0, hr0, e0⟩ := h2 i r1 hr
        refine ⟨r0, hr0, ?_⟩
        simp only [Option.map_eq_map, Option.map_some', Option.some.injEq] at h
        rw [← h]
        split
        · rw [e0]
        · rw [e0]
    · intro hnd k l hmem r hr
      rw [List.map_append, List.nodup_append] at hnd
      rw [List.getElem?_modify] at hr
      rcases hr1 : recs[l]? with _ | r1
      · rw [hr1] at hr; cases hr
      · rw [hr1] at hr
        simp only [Option.map_eq_map, Option.map_some', Option.some.injEq] at hr
        rcases List.mem_append.1 hmem with hm | hm
        · have hne : a.2 ≠ l := by
            intro e
            exact hnd.2.2 (List.mem_map.2 ⟨(k, l), hm, rfl⟩) (by simp [e])
          rw [if_neg hne] at hr
          rw [← hr]
          exact h3 hnd.1 k l hm r1 hr1
        · simp only [List.mem_singleton] at hm
          subst hm
          rw [if_pos rfl] at hr
          rw [← hr]

theorem init_records_spec {V E : Type} (g : distributed_graph V E) (order : List (Nat × Nat))
    (hd : dense_lvids g.vid2lvid) (hrec : g.lvid2record = [])
    (hp : order.Perm g.vid2lvid) :
    (init_records order g).lvid2record = g.vid2lvid.map (fun e => fresh_record e.1) ∧
    (init_records order g).vid2lvid = g.vid2lvid ∧
    (init_records order g).local_graph = g.local_graph := by
  refine ⟨?_, rfl, rfl⟩
  show order.foldl
    (fun recs pair => recs.modify (fun r => { r with gvid := pair.1 }) pair.2)
    (resize_records g.lvid2record g.vid2lvid.length) = _
  obtain ⟨h1, h2, h3⟩ := foldl_set_gvid_spec order (resize_records g.lvid2record g.vid2lvid.length)
  generalize order.foldl
    (fun recs pair => recs.modify (fun r => { r with gvid := pair.1 }) pair.2)
    (resize_records g.lvid2record g.vid2lvid.length) = recs at h1 h2 h3 ⊢
  have hlen0 : (resize_records g.lvid2record g.vid2lvid.length).length = g.vid2lvid.length := by
    unfold resize_records
    simp [hrec]
  have hnd : (order.map Prod.snd).Nodup := by
    rw [(hp.map Prod.snd).nodup_iff, hd.1]
    exact List.nodup_range _
  apply List.ext_getElem?
  intro i
  rcases Nat.lt_or_ge i g.vid2lvid.length with hi | hi
  · have hi2 : i < recs.length := by omega
    obtain ⟨e, he⟩ : ∃ e, g.vid2lvid[i]? = some e := ⟨_, List.getElem?_eq_getElem hi⟩
    obtain ⟨r, hr⟩ : ∃ r, recs[i]? = some r := ⟨_, List.getElem?_eq_getElem hi2⟩
    have hei : e.2 = i := dense_lvids_getElem hd he
    have hmem : (e.1, i) ∈ order := by
      rw [hp.mem_iff, ← hei]
      exact List.getElem?_mem he
    obtain ⟨r0, hr0, er⟩ := h2 i r hr
    have hg : r.gvid = e.1 := h3 hnd e.1 i hmem r hr
    have hr0d : r0 = vertex_record.default := by
      unfold resize_records at hr0
      rw [hrec] at hr0
      simp only [List.take_nil, List.length_nil, Nat.sub_zero, List.nil_append] at hr0
      have := List.getElem?_mem hr0
      exact List.eq_of_mem_replicate this
    rw [hr, List.getElem?_map, he]
    simp only [Option.map_some', Option.some.injEq]
    rw [er, hg, hr0d]
    rfl
  · rw [List.getElem?_eq_none (by omega), List.getElem?_eq_none (by simp only [List.length_map]; omega)]

/-- Phase 1 from the empty graph succeeds and establishes `phase1_post`. -/
theorem finalize_phase1_spec {V E : Type} [Inhabited V]
    (order : List (Nat × Nat) → List (Nat × Nat)) (hp : ∀ l, (order l).Perm l)
    (bufs : List (List (edge_buffer_record E))) :
    ∃ g, finalize_phase1 order (distributed_graph.empty V E) bufs = some g ∧
      phase1_post g bufs.flatten ∧ g.local_own_nverts = 0 := by
  obtain ⟨h1, h2, h3, h4⟩ := foldl_add_edge_rec_spec (V := V) bufs.flatten
  have hm : materialize_edges (distributed_graph.empty V E) bufs =
      bufs.flatten.foldl add_edge_rec (distributed_graph.empty V E) := by
    unfold materialize_edges local_graph.finalize
    simp only
    rw [foldl_foldl_flatten]
  have hown : ∀ l : List (edge_buffer_record E),
      (l.foldl add_edge_rec (distributed_graph.empty V E)).local_own_nverts = 0 := by
    intro l
    induction l using List.reverseRecOn with
    | nil => rfl
    | append_singleton l r ih =>
      simp only [List.foldl_append, List.foldl_cons, List.foldl_nil]
      exact ih
  generalize hg : bufs.flatten.foldl add_edge_rec (distributed_graph.empty V E) = g at h1 h2 h3 h4 hm
  have hd : dense_lvids g.vid2lvid := h1 ▸ (lookup_all_spec _).1
  obtain ⟨e1, e2, e3⟩ := init_records_spec g (order g.vid2lvid) hd h4 (hp _)
  refine ⟨init_records (order g.vid2lvid) g, ?_, ⟨?_, ?_, ?_, ?_⟩, ?_⟩
  · unfold finalize_phase1
    simp only [hm]
    rw [if_pos]
    rw [e3, e1, h2]
    simp
  · rw [e2, h1]
  · rw [e1, e2]
  · rw [e3, e2, h2]
  · rw [e3, e2, h3]
  · have := hown bufs.flatten
    rw [hg] at this
    exact this

theorem materialize_edges_vid2lvid {V E : Type} [Inhabited V]
    (bufs : List (List (edge_buffer_record E))) :
    (materialize_edges (distributed_graph.empty V E) bufs).vid2lvid =
      lookup_all [] (endpoints bufs.flatten) := by
  have h := (foldl_add_edge_rec_spec (V := V) bufs.flatten).1
  rw [← h]
  unfold materialize_edges
  simp only
  rw [foldl_foldl_flatten]

/-- C8. After the drain of the received edge buffers into an empty graph, a GVID has
an LVID exactly when it occurs among the endpoints `src_1, dst_1, src_2, dst_2, ...`,
and the LVID is the number of distinct GVIDs that occur strictly before its first
occurrence; the map has no key twice and hands out `0, 1, 2, ...`; a single self-loop
`v -> v` allocates the one LVID `0` for `v`. -/
theorem first_seen_lvid_order {V E : Type} [Inhabited V]
    (bufs : List (List (edge_buffer_record E))) (gvid : Nat) :
    umap_find (materialize_edges (distributed_graph.empty V E) bufs).vid2lvid gvid =
      (if gvid ∈ endpoints bufs.flatten then
        some ((endpoints bufs.flatten).takeWhile (fun x => decide (x ≠ gvid))).toFinset.card
       else none) ∧
    dense_lvids (materialize_edges (distributed_graph.empty V E) bufs).vid2lvid ∧
    ∀ (v : Nat) (edata : E),
      (materialize_edges (distributed_graph.empty V E)
        [[{ source := v, target := v, edata := edata }]]).vid2lvid = [(v, 0)] := by
  rw [materialize_edges_vid2lvid]
  obtain ⟨hd, hk, _, hr⟩ := lookup_all_spec (endpoints bufs.flatten)
  refine ⟨?_, hd, ?_⟩
  · by_cases hmem : gvid ∈ endpoints bufs.flatten
    · rw [if_pos hmem]
      obtain ⟨l, hl⟩ := umap_find_isSome.2 ((hk gvid).2 hmem)
      rw [hl, hr gvid l (umap_find_mem hl)]
    · rw [if_neg hmem, umap_find_eq_none]
      exact fun h => hmem ((hk gvid).1 h)
  · intro v edata
    rw [materialize_edges_vid2lvid]
    simp [endpoints, lookup_all, lvid_of, umap_find]

/-! ## Phase 2: accumulation at a negotiator -/

theorem accumulate_mirrors_eq_foldl {V : Type}
    (u : List (Nat × vertex_negotiator_record V) → Nat → V) (N : Nat)
    (proc2vids : List (List shuffle_record))
    (m0 : List (Nat × vertex_negotiator_record V)) :
    accumulate_mirrors u N proc2vids m0 =
      (tagged_records N proc2vids).foldl (fun m pr => accumulate_rec u pr.1 m pr.2) m0 := by
  unfold accumulate_mirrors tagged_records
  generalize List.range N = procs
  induction procs generalizing m0 with
  | nil => rfl
  | cons p t ih =>
    simp only [List.foldl_cons, List.flatMap_cons, List.foldl_append]
    rw [ih]
    congr 1
    generalize proc2vids.getD p [] = l
    induction l generalizing m0 with
    | nil => rfl
    | cons a u2 ih2 => simp only [List.foldl_cons, List.map_cons]; rw [ih2]

/-- Reading a map after `umap_modify`, with any value `d2` for a missing key. -/
theorem umap_get_modify_read {β : Type} (m : List (Nat × β)) (k k2 : Nat) (d d2 : β)
    (f : β → β) :
    umap_get (umap_modify m k d f) k2 d2 =
      if k2 = k then f (umap_get m k d) else umap_get m k2 d2 := by
  unfold umap_get umap_modify
  rcases h : umap_find m k with _ | v
  · simp only [umap_find_append, umap_find_cons, umap_find_nil]
    by_cases hk : k2 = k
    · subst hk; simp [h]
    · have : ¬ k = k2 := fun h => hk h.symm
      simp [hk, this]
  · simp only [umap_find_map]
    by_cases hk : k2 = k
    · subst hk; simp [h]
    · simp only [hk, if_false]
      rcases umap_find m k2 with _ | w <;> simp

/-- What is read under a key does not depend on the uninitialised `vdata` of the record
that stands for a missing key, except in that `vdata`. -/
theorem umap_get_default_fields {V : Type} (m : List (Nat × vertex_negotiator_record V))
    (k : Nat) (d d2 : V) :
    (umap_get m k (vertex_negotiator_record.default V d)).vid =
      (umap_get m k (vertex_negotiator_record.default V d2)).vid ∧
    (umap_get m k (vertex_negotiator_record.default V d)).num_in_edges =
      (umap_get m k (vertex_negotiator_record.default V d2)).num_in_edges ∧
    (umap_get m k (vertex_negotiator_record.default V d)).num_out_edges =
      (umap_get m k (vertex_negotiator_record.default V d2)).num_out_edges ∧
    (umap_get m k (vertex_negotiator_record.default V d)).owner =
      (umap_get m k (vertex_negotiator_record.default V d2)).owner ∧
    (umap_get m k (vertex_negotiator_record.default V d)).mirrors =
      (umap_get m k (vertex_negotiator_record.default V d2)).mirrors ∧
    (k ∈ m.map Prod.fst →
      umap_get m k (vertex_negotiator_record.default V d) =
        umap_get m k (vertex_negotiator_record.default V d2)) := by
  unfold umap_get
  rcases h : umap_find m k with _ | r
  · refine ⟨rfl, rfl, rfl, rfl, rfl, ?_⟩
    intro hk
    exact absurd hk (umap_find_eq_none.1 h)
  · exact ⟨rfl, rfl, rfl, rfl, rfl, fun _ => rfl⟩

/-- A missing key reads as the given value. -/
theorem umap_get_of_not_mem {β : Type} {m : List (Nat × β)} {k : Nat} (d : β)
    (h : k ∉ m.map Prod.fst) : umap_get m k d = d := by
  unfold umap_get
  rw [umap_find_eq_none.2 h]
  rfl

theorem umap_get_accumulate_rec {V : Type}
    (u : List (Nat × vertex_negotiator_record V) → Nat → V) (proc : Nat)
    (m : List (Nat × vertex_negotiator_record V)) (sr : shuffle_record) (v : Nat) (d : V) :
    umap_get (accumulate_rec u proc m sr) v (vertex_negotiator_record.default V d) =
      if v = sr.vid then
        { umap_get m sr.vid (vertex_negotiator_record.default V (u m sr.vid)) with
          num_in_edges :=
            ((umap_get m sr.vid (vertex_negotiator_record.default V (u m sr.vid))).num_in_edges
              + sr.num_in_edges) % VID_MOD,
          num_out_edges :=
            ((umap_get m sr.vid (vertex_negotiator_record.default V (u m sr.vid))).num_out_edges
              + sr.num_out_edges) % VID_MOD,
          mirrors := mirror_type.set_bit
            (umap_get m sr.vid (vertex_negotiator_record.default V (u m sr.vid))).mirrors proc }
      else umap_get m v (vertex_negotiator_record.default V d) := by
  unfold accumulate_rec
  rw [umap_get_modify_read]

theorem accumulate_rec_keys {V : Type}
    (u : List (Nat × vertex_negotiator_record V) → Nat → V) (proc : Nat)
    (m : List (Nat × vertex_negotiator_record V)) (sr : shuffle_record) :
    ((accumulate_rec u proc m sr).map Prod.fst).Nodup ↔ (m.map Prod.fst).Nodup := by
  unfold accumulate_rec
  rw [umap_modify_keys]
  by_cases h : sr.vid ∈ m.map Prod.fst
  · rw [if_pos h]
  · rw [if_neg h]
    constructor
    · intro hn
      exact (List.nodup_append.1 hn).1
    · intro hn
      exact List.nodup_append.2 ⟨hn, List.nodup_singleton _, by
        intro a ha hb
        rw [List.mem_singleton] at hb
        subst hb
        exact h ha⟩

theorem accumulate_rec_mem_keys {V : Type}
    (u : List (Nat × vertex_negotiator_record V) → Nat → V) (proc : Nat)
    (m : List (Nat × vertex_negotiator_record V)) (sr : shuffle_record) (k : Nat) :
    k ∈ (accumulate_rec u proc m sr).map Prod.fst ↔ k ∈ m.map Prod.fst ∨ k = sr.vid := by
  unfold accumulate_rec
  rw [umap_modify_keys]
  by_cases h : sr.vid ∈ m.map Prod.fst
  · rw [if_pos h]
    constructor
    · exact Or.inl
    · rintro (h2 | rfl)
      · exact h2
      · exact h
  · rw [if_neg h]
    simp

/-- The accumulation of a sequence of tagged shuffle records, read at the key `v`; the
`vdata` is that of the entry when the key was in the map before. -/
theorem foldl_accumulate_rec_spec {V : Type}
    (u : List (Nat × vertex_negotiator_record V) → Nat → V) (l : List (Nat × shuffle_record))
    (m0 : List (Nat × vertex_negotiator_record V)) (v : Nat) (d : V) :
    let m := l.foldl (fun m pr => accumulate_rec u pr.1 m pr.2) m0
    let r0 := umap_get m0 v (vertex_negotiator_record.default V d)
    let r := umap_get m v (vertex_negotiator_record.default V d)
    r.num_in_edges % VID_MOD =
      (r0.num_in_edges + degree_sum shuffle_record.num_in_edges (l.map Prod.snd) v) % VID_MOD ∧
    r.num_out_edges % VID_MOD =
      (r0.num_out_edges + degree_sum shuffle_record.num_out_edges (l.map Prod.snd) v) % VID_MOD ∧
    (r0.num_in_edges < VID_MOD → r.num_in_edges < VID_MOD) ∧
    (r0.num_out_edges < VID_MOD → r.num_out_edges < VID_MOD) ∧
    (∀ p, p ∈ r.mirrors ↔ p ∈ r0.mirrors ∨ ∃ pr ∈ l, pr.1 = p ∧ pr.2.vid = v) ∧
    (v ∈ m0.map Prod.fst → r.vdata = r0.vdata) ∧ r.vid = r0.vid ∧ r.owner = r0.owner ∧
    ((m.map Prod.fst).Nodup ↔ (m0.map Prod.fst).Nodup) ∧
    (∀ k, k ∈ m.map Prod.fst ↔ k ∈ m0.map Prod.fst ∨ ∃ pr ∈ l, pr.2.vid = k) := by
  induction l generalizing m0 with
  | nil => simp [degree_sum]
  | cons a t ih =>
    simp only [List.foldl_cons]
    obtain ⟨h1, h2, h3, h4, h5, h6, h7, h8, h9, h10⟩ := ih (accumulate_rec u a.1 m0 a.2)
    rw [umap_get_accumulate_rec] at h1 h2 h3 h4 h5 h6 h7 h8
    have hpos : 0 < VID_MOD := by unfold VID_MOD; omega
    by_cases hv : v = a.2.vid
    · rw [if_pos hv] at h1 h2 h3 h4 h5 h6 h7 h8
      simp only at h1 h2 h3 h4 h5 h6 h7 h8
      rw [← hv] at h1 h2 h3 h4 h5 h6 h7 h8
      obtain ⟨e1, e2, e3, e4, e5, e6⟩ := umap_get_default_fields m0 v (u m0 v) d
      rw [e2] at h1
      rw [e3] at h2
      rw [e5] at h5
      rw [e1] at h7
      rw [e4] at h8
      have hds : ∀ f : shuffle_record → Nat,
          degree_sum f ((a :: t).map Prod.snd) v = f a.2 + degree_sum f (t.map Prod.snd) v := by
        intro f
        unfold degree_sum
        simp [List.filter_cons, hv]
      refine ⟨?_, ?_, fun _ => h3 (Nat.mod_lt _ hpos), fun _ => h4 (Nat.mod_lt _ hpos),
        ?_, ?_, h7, h8, ?_, ?_⟩
      · rw [h1, hds, Nat.mod_add_mod]
        congr 1
        omega
      · rw [h2, hds, Nat.mod_add_mod]
        congr 1
        omega
      · intro p
        rw [h5 p]
        simp only [mirror_type.set_bit, Finset.mem_insert, List.mem_cons, exists_eq_or_imp]
        constructor
        · rintro ((h | h) | h)
          · exact Or.inr (Or.inl ⟨h.symm, hv.symm⟩)
          · exact Or.inl h
          · exact Or.inr (Or.inr h)
        · rintro (h | h | h)
          · exact Or.inl (Or.inr h)
          · exact Or.inl (Or.inl h.1.symm)
          · exact Or.inr h
      · intro hmem
        rw [h6 ((accumulate_rec_mem_keys u a.1 m0 a.2 v).2 (Or.inl hmem)), e6 hmem]
      · rw [h9, accumulate_rec_keys]
      · intro k
        rw [h10 k, accumulate_rec_mem_keys]
        simp only [List.mem_cons, exists_eq_or_imp]
        constructor
        · rintro ((h | h) | h)
          · exact Or.inl h
          · exact Or.inr (Or.inl h.symm)
          · exact Or.inr (Or.inr h)
        · rintro (h | h | h)
          · exact Or.inl (Or.inl h)
          · exact Or.inl (Or.inr h.symm)
          · exact Or.inr h
    · rw [if_neg hv] at h1 h2 h3 h4 h5 h6 h7 h8
      have hds : ∀ f : shuffle_record → Nat,
          degree_sum f ((a :: t).map Prod.snd) v = degree_sum f (t.map Prod.snd) v := by
        intro f
        unfold degree_sum
        have : ¬ a.2.vid = v := fun e => hv e.symm
        simp [List.filter_cons, this]
      refine ⟨?_, ?_, h3, h4, ?_, ?_, h7, h8, ?_, ?_⟩
      · rw [h1, hds]
      · rw [h2, hds]
      · intro p
        rw [h5 p]
        simp only [List.mem_cons, exists_eq_or_imp]
        constructor
        · rintro (h | h)
          · exact Or.inl h
          · exact Or.inr (Or.inr h)
        · rintro (h | h | h)
          · exact Or.inl h
          · exact absurd h.2.symm hv
          · exact Or.inr h
      · intro hmem
        exact h6 ((accumulate_rec_mem_keys u a.1 m0 a.2 v).2 (Or.inl hmem))
      · rw [h9, accumulate_rec_keys]
      · intro k
        rw [h10 k, accumulate_rec_mem_keys]
        simp only [List.mem_cons, exists_eq_or_imp]
        constructor
        · rintro ((h | h) | h)
          · exact Or.inl h
          · exact Or.inr (Or.inl h.symm)
          · exact Or.inr (Or.inr h)
        · rintro (h | h | h)
          · exact Or.inl (Or.inl h)
          · exact Or.inl (Or.inr h.symm)
          · exact Or.inr h

theorem populate_vrec_map_eq_foldl {V : Type}
    (u : List (Nat × vertex_negotiator_record V) → Nat → V)
    (bufs : List (List (vertex_buffer_record V))) :
    populate_vrec_map u bufs = bufs.flatten.foldl (vdata_rec u) [] := by
  unfold populate_vrec_map
  rw [foldl_foldl_flatten]

/-- The drain of vertex payloads, read at the key `v`: only `vdata` changes. -/
theorem foldl_vdata_rec_spec {V : Type}
    (u : List (Nat × vertex_negotiator_record V) → Nat → V) (l : List (vertex_buffer_record V))
    (m0 : List (Nat × vertex_negotiator_record V)) (v : Nat) (d : V) :
    let m := l.foldl (vdata_rec u) m0
    let r0 := umap_get m0 v (vertex_negotiator_record.default V d)
    let r := umap_get m v (vertex_negotiator_record.default V d)
    r.num_in_edges = r0.num_in_edges ∧ r.num_out_edges = r0.num_out_edges ∧
    r.mirrors = r0.mirrors ∧ r.vid = r0.vid ∧ r.owner = r0.owner ∧
    r.vdata = last_vdata l v r0.vdata ∧
    ((m.map Prod.fst).Nodup ↔ (m0.map Prod.fst).Nodup) ∧
    (∀ k, k ∈ m.map Prod.fst ↔ k ∈ m0.map Prod.fst ∨ ∃ x ∈ l, x.vid = k) := by
  induction l generalizing m0 with
  | nil => simp [last_vdata]
  | cons a t ih =>
    simp only [List.foldl_cons]
    obtain ⟨h1, h2, h3, h4, h5, h6, h7, h8⟩ := ih (vdata_rec u m0 a)
    have hget : umap_get (vdata_rec u m0 a) v (vertex_negotiator_record.default V d) =
        if v = a.vid then
          { umap_get m0 a.vid (vertex_negotiator_record.default V (u m0 a.vid)) with
            vdata := a.vdata }
        else umap_get m0 v (vertex_negotiator_record.default V d) := by
      unfold vdata_rec
      rw [umap_get_modify_read]
    have hkeys : (vdata_rec u m0 a).map Prod.fst =
        if a.vid ∈ m0.map Prod.fst then m0.map Prod.fst else m0.map Prod.fst ++ [a.vid] := by
      unfold vdata_rec
      rw [umap_modify_keys]
    have hnd : ((vdata_rec u m0 a).map Prod.fst).Nodup ↔ (m0.map Prod.fst).Nodup := by
      constructor
      · intro h
        rw [hkeys] at h
        by_cases hm : a.vid ∈ m0.map Prod.fst
        · rw [if_pos hm] at h; exact h
        · rw [if_neg hm] at h; exact (List.nodup_append.1 h).1
      · intro h
        unfold vdata_rec
        exact umap_modify_nodup _ _ _ _ h
    have hmem : ∀ k, k ∈ (vdata_rec u m0 a).map Prod.fst ↔ k ∈ m0.map Prod.fst ∨ k = a.vid := by
      intro k
      rw [hkeys]
      by_cases hm : a.vid ∈ m0.map Prod.fst
      · rw [if_pos hm]
        constructor
        · exact Or.inl
        · rintro (h | rfl)
          · exact h
          · exact hm
      · rw [if_neg hm]; simp
    rw [hget] at h1 h2 h3 h4 h5 h6
    obtain ⟨e1, e2, e3, e4, e5, _⟩ := umap_get_default_fields m0 a.vid (u m0 a.vid) d
    refine ⟨?_, ?_, ?_, ?_, ?_, ?_, h7.trans hnd, ?_⟩
    · rw [h1]; by_cases hv : v = a.vid
      · rw [if_pos hv, hv]; exact e2
      · rw [if_neg hv]
    · rw [h2]; by_cases hv : v = a.vid
      · rw [if_pos hv, hv]; exact e3
      · rw [if_neg hv]
    · rw [h3]; by_cases hv : v = a.vid
      · rw [if_pos hv, hv]; exact e5
      · rw [if_neg hv]
    · rw [h4]; by_cases hv : v = a.vid
      · rw [if_pos hv, hv]; exact e1
      · rw [if_neg hv]
    · rw [h5]; by_cases hv : v = a.vid
      · rw [if_pos hv, hv]; exact e4
      · rw [if_neg hv]
    · rw [h6]
      unfold last_vdata
      simp only [List.foldl_cons]
      by_cases hv : v = a.vid
      · rw [if_pos hv, if_pos hv.symm]
      · rw [if_neg hv, if_neg (fun e => hv e.symm)]
    · intro k
      rw [h8 k, hmem k]
      simp only [List.mem_cons, exists_eq_or_imp]
      constructor
      · rintro ((h | h) | h)
        · exact Or.inl h
        · exact Or.inr (Or.inl h.symm)
        · exact Or.inr (Or.inr h)
      · rintro (h | h | h)
        · exact Or.inl (Or.inl h)
        · exact Or.inl (Or.inr h.symm)
        · exact Or.inr h

theorem umap_get_nil {β : Type} (k : Nat) (d : β) : umap_get ([] : List (Nat × β)) k d = d := rfl

/-- The `vrec_map` after the drain of vertex payloads: zero degrees, no mirrors, and
under a key with a payload the last payload drained for it. -/
theorem populate_vrec_map_spec {V : Type}
    (u : List (Nat × vertex_negotiator_record V) → Nat → V)
    (bufs : List (List (vertex_buffer_record V))) (v : Nat) (d : V) :
    let m := populate_vrec_map u bufs
    let r := umap_get m v (vertex_negotiator_record.default V d)
    r.num_in_edges = 0 ∧ r.num_out_edges = 0 ∧ r.mirrors = ∅ ∧
    r.vdata = last_vdata bufs.flatten v d ∧
    (m.map Prod.fst).Nodup ∧
    (∀ k, k ∈ m.map Prod.fst ↔ ∃ x ∈ bufs.flatten, x.vid = k) := by
  rw [populate_vrec_map_eq_foldl]
  obtain ⟨h1, h2, h3, _, _, h6, h7, h8⟩ := foldl_vdata_rec_spec u bufs.flatten [] v d
  rw [umap_get_nil] at h1 h2 h3 h6
  refine ⟨h1, h2, h3, h6, h7.2 List.nodup_nil, ?_⟩
  intro k
  rw [h8 k]
  simp

theorem tagged_records_mem (N : Nat) (proc2vids : List (List shuffle_record))
    (p : Nat) (r : shuffle_record) :
    (p, r) ∈ tagged_records N proc2vids ↔ p < N ∧ r ∈ proc2vids.getD p [] := by
  unfold tagged_records
  simp only [List.mem_flatMap, List.mem_range, List.mem_map, Prod.mk.injEq]
  constructor
  · rintro ⟨q, hq, x, hx, rfl, rfl⟩
    exact ⟨hq, hx⟩
  · rintro ⟨hp, hr⟩
    exact ⟨p, hp, r, hr, rfl, rfl⟩

theorem tagged_records_snd (N : Nat) (proc2vids : List (List shuffle_record))
    (hlen : proc2vids.length = N) :
    (tagged_records N proc2vids).map Prod.snd = proc2vids.flatten := by
  subst hlen
  unfold tagged_records
  induction proc2vids using List.reverseRecOn with
  | nil => rfl
  | append_singleton l a ih =>
    rw [List.length_append, List.length_singleton, List.range_succ, List.flatMap_append,
      List.map_append, List.flatten_append]
    congr 1
    · rw [← ih]
      congr 1
      apply List.flatMap_congr
      intro p hp
      rw [List.mem_range] at hp
      rw [List.getD_append _ _ _ _ hp]
    · simp [List.getD_append_right]

/-- C9. After the accumulation loop over the `N` received lists `proc2vids`, starting
from the `vrec_map` left by the drain of vertex payloads, the entry of every GVID `v`
holds the sums of `num_in_edges` and of `num_out_edges` over all received shuffle
records with `vid = v`, in the arithmetic of `vertex_id_type` (modulo `VID_MOD`), and
its mirror set is exactly the set of senders `p` whose list contains a record with
`vid = v`; this holds whatever the uninitialised `vdata` fields hold (`u`) and
whatever stands for the `vdata` of a missing key (`d`). -/
theorem phase2_aggregation {V : Type} (u : List (Nat × vertex_negotiator_record V) → Nat → V)
    (N : Nat) (proc2vids : List (List shuffle_record)) (hlen : proc2vids.length = N)
    (vertex_buffers : List (List (vertex_buffer_record V))) (v : Nat) (d : V) :
    (umap_get (accumulate_mirrors u N proc2vids (populate_vrec_map u vertex_buffers)) v
        (vertex_negotiator_record.default V d)).num_in_edges =
      degree_sum shuffle_record.num_in_edges proc2vids.flatten v % VID_MOD ∧
    (umap_get (accumulate_mirrors u N proc2vids (populate_vrec_map u vertex_buffers)) v
        (vertex_negotiator_record.default V d)).num_out_edges =
      degree_sum shuffle_record.num_out_edges proc2vids.flatten v % VID_MOD ∧
    ∀ p, p ∈ (umap_get (accumulate_mirrors u N proc2vids (populate_vrec_map u vertex_buffers))
        v (vertex_negotiator_record.default V d)).mirrors ↔
      ∃ l, proc2vids[p]? = some l ∧ ∃ r ∈ l, r.vid = v := by
  rw [accumulate_mirrors_eq_foldl]
  obtain ⟨h1, h2, h3, h4, h5, _⟩ := foldl_accumulate_rec_spec u (tagged_records N proc2vids)
    (populate_vrec_map u vertex_buffers) v d
  obtain ⟨p1, p2, p3, _⟩ := populate_vrec_map_spec u vertex_buffers v d
  rw [p1, tagged_records_snd N proc2vids hlen, Nat.zero_add] at h1
  rw [p2, tagged_records_snd N proc2vids hlen, Nat.zero_add] at h2
  have hpos : 0 < VID_MOD := by unfold VID_MOD; omega
  rw [p1] at h3
  rw [p2] at h4
  refine ⟨?_, ?_, ?_⟩
  · rw [← h1, Nat.mod_eq_of_lt (h3 hpos)]
  · rw [← h2, Nat.mod_eq_of_lt (h4 hpos)]
  · intro p
    rw [h5 p, p3]
    simp only [Finset.not_mem_empty, false_or]
    constructor
    · rintro ⟨pr, hpr, rfl, hv⟩
      obtain ⟨hp, hr⟩ := (tagged_records_mem N proc2vids pr.1 pr.2).1 hpr
      rw [← hlen] at hp
      refine ⟨proc2vids[pr.1], List.getElem?_eq_getElem hp, pr.2, ?_, hv⟩
      rw [List.getD_eq_getElem _ _ hp] at hr
      exact hr
    · rintro ⟨l, hl, r, hr, hv⟩
      have hp : p < proc2vids.length := by
        rcases Nat.lt_or_ge p proc2vids.length with h | h
        · exact h
        · rw [List.getElem?_eq_none h] at hl; cases hl
      refine ⟨(p, r), ?_, rfl, hv⟩
      rw [tagged_records_mem]
      refine ⟨hlen ▸ hp, ?_⟩
      rw [List.getD_eq_getElem?_getD, hl]
      exact hr

theorem phase2_aggregation_witness :
    (umap_get (accumulate_mirrors (fun m k => 7 + m.length + k) 2
        [[⟨4, 1, 2⟩, ⟨6, 0, 1⟩], [⟨4, 3, 0⟩]]
        (populate_vrec_map (fun m k => 7 + m.length + k)
          [[(⟨6, 9⟩ : vertex_buffer_record Nat)]])) 4
        (vertex_negotiator_record.default Nat 0)).num_in_edges =
      degree_sum shuffle_record.num_in_edges
        ([[⟨4, 1, 2⟩, ⟨6, 0, 1⟩], [⟨4, 3, 0⟩]] : List (List shuffle_record)).flatten 4 % VID_MOD ∧
    (umap_get (accumulate_mirrors (fun m k => 7 + m.length + k) 2
        [[⟨4, 1, 2⟩, ⟨6, 0, 1⟩], [⟨4, 3, 0⟩]]
        (populate_vrec_map (fun m k => 7 + m.length + k)
          [[(⟨6, 9⟩ : vertex_buffer_record Nat)]])) 4
        (vertex_negotiator_record.default Nat 0)).num_out_edges =
      degree_sum shuffle_record.num_out_edges
        ([[⟨4, 1, 2⟩, ⟨6, 0, 1⟩], [⟨4, 3, 0⟩]] : List (List shuffle_record)).flatten 4 % VID_MOD ∧
    ∀ p, p ∈ (umap_get (accumulate_mirrors (fun m k => 7 + m.length + k) 2
        [[⟨4, 1, 2⟩, ⟨6, 0, 1⟩], [⟨4, 3, 0⟩]]
        (populate_vrec_map (fun m k => 7 + m.length + k)
          [[(⟨6, 9⟩ : vertex_buffer_record Nat)]])) 4
        (vertex_negotiator_record.default Nat 0)).mirrors ↔
      ∃ l, ([[⟨4, 1, 2⟩, ⟨6, 0, 1⟩], [⟨4, 3, 0⟩]] : List (List shuffle_record))[p]? = some l ∧
        ∃ r ∈ l, r.vid = 4 :=
  phase2_aggregation (fun m k => 7 + m.length + k) 2 [[⟨4, 1, 2⟩, ⟨6, 0, 1⟩], [⟨4, 3, 0⟩]] rfl
    [[⟨6, 9⟩]] 4 0

/-! ## Phase 2: the shuffle records of one process -/

theorem foldl_modify_append_getElem {α β : Type} (f : α → β) (key : α → Nat) (order : List α)
    (acc : List (List β)) (n : Nat) :
    (order.foldl (fun a x => a.modify (fun l => l ++ [f x]) (key x)) acc)[n]? =
      (acc[n]?).map (fun l => l ++ (order.filter (fun x => decide (key x = n))).map f) := by
  induction order generalizing acc with
  | nil => simp
  | cons x t ih =>
    simp only [List.foldl_cons]
    rw [ih, List.getElem?_modify]
    rcases acc[n]? with _ | l
    · rfl
    · by_cases hk : key x = n
      · simp [List.filter_cons, hk]
      · simp [List.filter_cons, hk]

theorem foldl_modify_length {α β : Type} (g : α → List β → List β) (key : α → Nat)
    (order : List α) (acc : List (List β)) :
    (order.foldl (fun a x => a.modify (g x) (key x)) acc).length = acc.length := by
  induction order generalizing acc with
  | nil => rfl
  | cons x t ih => simp only [List.foldl_cons]; rw [ih, List.length_modify]

theorem build_proc2vids_eq {V E : Type} (N : Nat) (g : distributed_graph V E)
    (order : List (Nat × Nat)) :
    build_proc2vids N g order =
      order.foldl (fun a x => a.modify (fun l => l ++ [mk_shuffle g x]) (vertex_to_proc N x.1))
        (List.replicate N []) := rfl

theorem build_proc2vids_length {V E : Type} (N : Nat) (g : distributed_graph V E)
    (order : List (Nat × Nat)) : (build_proc2vids N g order).length = N := by
  rw [build_proc2vids_eq,
    foldl_modify_length (fun x l => l ++ [mk_shuffle g x]) (fun x => vertex_to_proc N x.1)]
  simp

theorem build_proc2vids_getD {V E : Type} (N : Nat) (g : distributed_graph V E)
    (order : List (Nat × Nat)) (n : Nat) (hn : n < N) :
    (build_proc2vids N g order).getD n [] =
      (order.filter (fun pair => decide (vertex_to_proc N pair.1 = n))).map (mk_shuffle g) := by
  rw [List.getD_eq_getElem?_getD, build_proc2vids_eq,
    foldl_modify_append_getElem (mk_shuffle g) (fun x => vertex_to_proc N x.1)]
  simp [List.getElem?_replicate, hn]

theorem phase1_post_dense {V E : Type} {g : distributed_graph V E}
    {l : List (edge_buffer_record E)} (h : phase1_post g l) : dense_lvids g.vid2lvid := by
  rw [h.1]; exact (lookup_all_spec _).1

theorem phase1_post_keys {V E : Type} {g : distributed_graph V E}
    {l : List (edge_buffer_record E)} (h : phase1_post g l) (k : Nat) :
    k ∈ g.vid2lvid.map Prod.fst ↔ k ∈ endpoints l := by
  rw [h.1]; exact (lookup_all_spec _).2.1 k

theorem lvid_at_eq_iff {m : List (Nat × Nat)} (hd : dense_lvids m) {v w l : Nat}
    (hv : umap_find m v = some l) (hw : w ∈ m.map Prod.fst) : lvid_at m w = l ↔ w = v := by
  obtain ⟨lw, hlw⟩ := umap_find_isSome.2 hw
  rw [lvid_at_of_find hlw]
  constructor
  · intro e
    subst e
    exact dense_lvids_inj hd (umap_find_mem hlw) (umap_find_mem hv)
  · intro e
    subst e
    rw [hv] at hlw
    cases hlw
    rfl

/-- The degrees that the local graph reports in Phase 2 are the degrees in the list of
received edges. -/
theorem phase1_post_degrees {V E : Type} {g : distributed_graph V E}
    {l : List (edge_buffer_record E)} (h : phase1_post g l) {v lv : Nat}
    (hv : umap_find g.vid2lvid v = some lv) :
    g.local_graph.num_in_edges lv = in_count l v ∧
    g.local_graph.num_out_edges lv = out_count l v := by
  have hd := phase1_post_dense h
  unfold local_graph.num_in_edges local_graph.num_out_edges in_count out_count
  rw [h.2.2.2, List.countP_map, List.countP_map]
  constructor
  · apply List.countP_congr
    intro r hr
    have hk : r.target ∈ g.vid2lvid.map Prod.fst :=
      (phase1_post_keys h _).2 ((mem_endpoints l _).2 ⟨r, hr, Or.inr rfl⟩)
    simp only [Function.comp, decide_eq_true_eq]
    exact lvid_at_eq_iff hd hv hk
  · apply List.countP_congr
    intro r hr
    have hk : r.source ∈ g.vid2lvid.map Prod.fst :=
      (phase1_post_keys h _).2 ((mem_endpoints l _).2 ⟨r, hr, Or.inl rfl⟩)
    simp only [Function.comp, decide_eq_true_eq]
    exact lvid_at_eq_iff hd hv hk

theorem in_count_eq_zero {E : Type} {l : List (edge_buffer_record E)} {v : Nat}
    (h : v ∉ endpoints l) : in_count l v = 0 ∧ out_count l v = 0 := by
  unfold in_count out_count
  constructor
  · rw [List.countP_eq_zero]
    intro r hr
    simp only [decide_eq_true_eq]
    exact fun e => h ((mem_endpoints l v).2 ⟨r, hr, Or.inr e⟩)
  · rw [List.countP_eq_zero]
    intro r hr
    simp only [decide_eq_true_eq]
    exact fun e => h ((mem_endpoints l v).2 ⟨r, hr, Or.inl e⟩)

/-- The shuffle records of one process for the GVID `v`, as seen by the negotiator `n`:
their degree sum is the degree of `v` in the edges this process received. -/
theorem degree_sum_build_proc2vids {V E : Type} {g : distributed_graph V E}
    {l : List (edge_buffer_record E)} (h : phase1_post g l) (N : Nat)
    (order : List (Nat × Nat)) (hp : order.Perm g.vid2lvid) (n : Nat) (hn : n < N) (v : Nat)
    (hv : vertex_to_proc N v = n) :
    degree_sum shuffle_record.num_in_edges ((build_proc2vids N g order).getD n []) v
      = in_count l v % VID_MOD ∧
    degree_sum shuffle_record.num_out_edges ((build_proc2vids N g order).getD n []) v
      = out_count l v % VID_MOD ∧
    ((∃ r ∈ (build_proc2vids N g order).getD n [], r.vid = v) ↔ v ∈ g.vid2lvid.map Prod.fst) := by
  have hd := phase1_post_dense h
  rw [build_proc2vids_getD N g order n hn]
  have hnd : (order.map Prod.fst).Nodup := (hp.map Prod.fst).nodup_iff.2 hd.2
  have hfilter : ∀ (o : List (Nat × Nat)), (o.map Prod.fst).Nodup →
      (((o.filter (fun pair => decide (vertex_to_proc N pair.1 = n))).map (mk_shuffle g)).filter
        (fun r => decide (r.vid = v))) =
      match umap_find o v with
      | some lv => [mk_shuffle g (v, lv)]
      | none => [] := by
    intro o
    induction o with
    | nil => intro _; rfl
    | cons a t ih =>
      intro hnd
      simp only [List.map_cons, List.nodup_cons] at hnd
      rw [umap_find_cons]
      by_cases ha : a.1 = v
      · rw [if_pos ha]
        have hnone : umap_find t v = none := umap_find_eq_none.2 (ha ▸ hnd.1)
        have iht := ih hnd.2
        rw [hnone] at iht
        have h1 : vertex_to_proc N a.1 = n := by rw [ha, hv]
        have h2 : (mk_shuffle g a).vid = v := ha
        simp only [List.filter_cons, h1, h2, decide_True, if_true, List.map_cons]
        rw [iht]
        simp only [List.cons.injEq, and_true]
        rw [← ha]
      · rw [if_neg ha, ← ih hnd.2]
        by_cases h1 : vertex_to_proc N a.1 = n
        · have h2 : ¬ (mk_shuffle g a).vid = v := ha
          simp only [List.filter_cons, h1, h2, decide_True, decide_False, if_true, List.map_cons,
            Bool.false_eq_true, if_false]
        · simp only [List.filter_cons, h1, decide_False, Bool.false_eq_true, if_false]
  have hfo : umap_find order v = umap_find g.vid2lvid v := umap_find_perm hp hnd v
  have hm : (∃ r ∈ (order.filter (fun pair => decide (vertex_to_proc N pair.1 = n))).map
      (mk_shuffle g), r.vid = v) ↔ v ∈ g.vid2lvid.map Prod.fst := by
    constructor
    · rintro ⟨r, hr, rfl⟩
      obtain ⟨pair, hpair, rfl⟩ := List.mem_map.1 hr
      exact List.mem_map.2 ⟨pair, hp.mem_iff.1 (List.mem_filter.1 hpair).1, rfl⟩
    · intro hk
      obtain ⟨pair, hpair, rfl⟩ := List.mem_map.1 hk
      refine ⟨mk_shuffle g pair, List.mem_map.2 ⟨pair, List.mem_filter.2 ⟨hp.mem_iff.2 hpair, ?_⟩,
        rfl⟩, rfl⟩
      simp [hv]
  unfold degree_sum
  rw [hfilter order hnd, hfo]
  rcases hf : umap_find g.vid2lvid v with _ | lv
  · have hne : v ∉ endpoints l := fun e =>
      umap_find_eq_none.1 hf ((phase1_post_keys h v).2 e)
    obtain ⟨z1, z2⟩ := in_count_eq_zero hne
    refine ⟨by simp [z1], by simp [z2], hm⟩
  · obtain ⟨d1, d2⟩ := phase1_post_degrees h hf
    refine ⟨by simp [mk_shuffle, d1], by simp [mk_shuffle, d2], hm⟩

/-! ## Phase 3: the assignment loop as a whole -/

theorem assign_step_total {V : Type} (N : Nat) (counts : List Nat) (vid : Nat)
    (r : vertex_negotiator_record V) :
    ∃ c1 r1, assign_step N counts vid r = some (c1, r1) ∧ sent_rel N (vid, r) r1 ∧
      c1.length = counts.length := by
  by_cases hpop : 0 < mirror_type.popcount r.mirrors
  · obtain ⟨f, hf, hstep⟩ := assign_step_pos N counts vid r hpop
    refine ⟨_, _, hstep, ⟨rfl, rfl, rfl, rfl, ?_, ?_⟩, by simp⟩
    · simp only [hpop, if_true]
    · exact (best_asg_spec counts r.mirrors f (mirror_type.first_bit_mem _ _ hf)).2.1
  · refine ⟨_, _, assign_step_zero N counts vid r hpop, ⟨rfl, rfl, rfl, rfl, ?_, ?_⟩, rfl⟩
    · have : r.mirrors = ∅ := Finset.card_eq_zero.1 (by unfold mirror_type.popcount at hpop; omega)
      show mirror_type.set_bit r.mirrors (vid % N) = _
      rw [if_neg hpop, this]
      rfl
    · simp [mirror_type.set_bit]

/-- The assignment loop never aborts; it sends, entry by entry, the record related to
the entry by `sent_rel` to each of its mirrors. -/
theorem assign_loop_spec {V : Type} (N : Nat) (counts : List Nat)
    (entries : List (Nat × vertex_negotiator_record V)) :
    ∃ c1 recs, assign_loop N counts entries = some (c1, recs.flatMap notify) ∧
      List.Forall₂ (sent_rel N) entries recs ∧ c1.length = counts.length := by
  induction entries generalizing counts with
  | nil => exact ⟨counts, [], rfl, List.Forall₂.nil, rfl⟩
  | cons e t ih =>
    obtain ⟨c1, r1, hstep, hrel, hlen⟩ := assign_step_total N counts e.1 e.2
    obtain ⟨c2, recs, hloop, hall, hlen2⟩ := ih c1
    refine ⟨c2, r1 :: recs, ?_, List.Forall₂.cons hrel hall, hlen2.trans hlen⟩
    unfold assign_loop
    simp only [hstep, hloop, List.flatMap_cons]

theorem mirror_type.bits_nodup (m : mirror_type) : (mirror_type.bits m).Nodup := by
  unfold mirror_type.bits
  exact (List.nodup_range _).filter _

theorem inbox_append {α : Type} (l l2 : List (Nat × α)) (q : Nat) :
    inbox (l ++ l2) q = inbox l q ++ inbox l2 q := by
  unfold inbox
  simp

theorem inbox_notify {V : Type} (r : vertex_negotiator_record V) (q : Nat) :
    inbox (notify r) q = if q ∈ r.mirrors then [r] else [] := by
  unfold inbox notify
  have hnd := mirror_type.bits_nodup r.mirrors
  have hmem := mirror_type.mem_bits r.mirrors q
  generalize mirror_type.bits r.mirrors = l at hnd hmem
  rw [List.filter_map, List.map_map]
  have : (List.filter ((fun m : Nat × vertex_negotiator_record V => decide (m.1 = q)) ∘
      fun proc => (proc, r)) l) = l.filter (fun p => decide (p = q)) := rfl
  rw [this]
  have hcomp : (Prod.snd ∘ fun proc : Nat => (proc, r)) = fun _ => r := rfl
  rw [hcomp]
  by_cases hq : q ∈ r.mirrors
  · rw [if_pos hq]
    have hq2 : q ∈ l := hmem.2 hq
    have hc : (l.filter (fun p => decide (p = q))).length = 1 := by
      have := List.count_eq_one_of_mem hnd hq2
      rw [List.count, List.countP_eq_length_filter] at this
      rw [← this]
      congr 1
    match hl : l.filter (fun p => decide (p = q)) with
    | [] => rw [hl] at hc; cases hc
    | [a] => rfl
    | a :: b :: t => rw [hl] at hc; simp at hc
  · rw [if_neg hq]
    have : l.filter (fun p => decide (p = q)) = [] := by
      rw [List.filter_eq_nil_iff]
      intro a ha
      simp only [decide_eq_true_eq]
      intro e
      subst e
      exact hq (hmem.1 ha)
    rw [this]
    rfl

/-- What process `q` is sent by an assignment loop: the records that list `q` among
their mirrors, each once. -/
theorem inbox_flatMap_notify {V : Type} (recs : List (vertex_negotiator_record V)) (q : Nat) :
    inbox (recs.flatMap notify) q = recs.filter (fun r => decide (q ∈ r.mirrors)) := by
  induction recs with
  | nil => rfl
  | cons r t ih =>
    rw [List.flatMap_cons, inbox_append, ih, inbox_notify, List.filter_cons]
    by_cases hq : q ∈ r.mirrors
    · simp [hq]
    · simp [hq]

/-! ## Phase 3: the receiving loop -/

theorem dense_lvids_find_getElem {m : List (Nat × Nat)} (hd : dense_lvids m) {k l : Nat}
    (h : umap_find m k = some l) : m[l]? = some (k, l) := by
  have hmem := umap_find_mem h
  obtain ⟨i, hi⟩ := List.getElem?_of_mem hmem
  have := dense_lvids_getElem hd hi
  simp only at this
  subst this
  exact hi

theorem dense_lvids_key_ne {m : List (Nat × Nat)} (hd : dense_lvids m) {k l i : Nat}
    {e : Nat × Nat} (h : umap_find m k = some l) (he : m[i]? = some e) (hne : i ≠ l) :
    e.1 ≠ k := by
  intro hk
  have hmem : (k, e.2) ∈ m := by
    have := List.getElem?_mem he
    rw [← hk]
    exact this
  have h2 := umap_find_of_mem hd.2 hmem
  rw [h] at h2
  cases h2
  exact hne (dense_lvids_getElem hd he).symm

theorem map_set_dense {β : Type} {m : List (Nat × Nat)} (hd : dense_lvids m) (f f2 : Nat → β)
    {k l : Nat} (hf : umap_find m k = some l) (x : β) (h1 : f2 k = x)
    (h2 : ∀ k2, k2 ≠ k → f2 k2 = f k2) :
    (m.map (fun e => f e.1)).set l x = m.map (fun e => f2 e.1) := by
  apply List.ext_getElem?
  intro i
  rw [List.getElem?_set, List.getElem?_map, List.getElem?_map, List.length_map]
  by_cases hi : l = i
  · subst hi
    rw [if_pos rfl, dense_lvids_find_getElem hd hf]
    have hl : l < m.length := dense_lvids_lt hd (umap_find_mem hf)
    simp [hl, h1]
  · rw [if_neg hi]
    rcases he : m[i]? with _ | e
    · rfl
    · simp only [Option.map_some', Option.some.injEq]
      exact (h2 e.1 (dense_lvids_key_ne hd hf he (fun h => hi h.symm))).symm

theorem map_snoc_dense {β : Type} {m : List (Nat × Nat)} (f f2 : Nat → β)
    {k l : Nat} (hk : k ∉ m.map Prod.fst) (x : β) (h1 : f2 k = x)
    (h2 : ∀ k2, k2 ≠ k → f2 k2 = f k2) :
    m.map (fun e => f e.1) ++ [x] = (m ++ [(k, l)]).map (fun e => f2 e.1) := by
  rw [List.map_append, List.map_cons, List.map_nil, h1]
  congr 1
  apply List.map_congr_left
  intro e he
  have : e.1 ≠ k := fun h => hk (h ▸ List.mem_map.2 ⟨e, he, rfl⟩)
  exact (h2 e.1 this).symm

theorem find_snoc_self {V : Type} (done : List (vertex_negotiator_record V))
    (r : vertex_negotiator_record V) (hr : r.vid ∉ done.map (fun r => r.vid)) :
    (done ++ [r]).find? (fun x => decide (x.vid = r.vid)) = some r := by
  rw [List.find?_append]
  have : done.find? (fun x => decide (x.vid = r.vid)) = none := by
    rw [List.find?_eq_none]
    intro x hx
    simp only [decide_eq_true_eq]
    exact fun e => hr (List.mem_map.2 ⟨x, hx, e⟩)
  rw [this]
  simp

theorem find_snoc_other {V : Type} (done : List (vertex_negotiator_record V))
    (r : vertex_negotiator_record V) (k : Nat) (hk : k ≠ r.vid) :
    (done ++ [r]).find? (fun x => decide (x.vid = k)) =
      done.find? (fun x => decide (x.vid = k)) := by
  rw [List.find?_append]
  have : [r].find? (fun x => decide (x.vid = k)) = none := by
    have hd : decide (r.vid = k) = false := decide_eq_false (fun e => hk e.symm)
    simp only [List.find?_cons, hd, List.find?_nil]
  rw [this]
  simp

theorem find_none_of_not_mem {V : Type} (done : List (vertex_negotiator_record V))
    (k : Nat) (hk : k ∉ done.map (fun r => r.vid)) :
    done.find? (fun x => decide (x.vid = k)) = none := by
  rw [List.find?_eq_none]
  intro x hx
  simp only [decide_eq_true_eq]
  exact fun e => hk (List.mem_map.2 ⟨x, hx, e⟩)

theorem record_for_snoc {V : Type} (done : List (vertex_negotiator_record V))
    (r : vertex_negotiator_record V) (hr : r.vid ∉ done.map (fun r => r.vid)) :
    record_for (done ++ [r]) r.vid = stored_record r ∧
    (∀ k, k ≠ r.vid → record_for (done ++ [r]) k = record_for done k) ∧
    record_for done r.vid = fresh_record r.vid := by
  refine ⟨?_, ?_, ?_⟩
  · unfold record_for; rw [find_snoc_self done r hr]
  · intro k hk; unfold record_for; rw [find_snoc_other done r k hk]
  · unfold record_for; rw [find_none_of_not_mem done r.vid hr]

theorem vdata_for_snoc {V : Type} [Inhabited V] (done : List (vertex_negotiator_record V))
    (r : vertex_negotiator_record V) (hr : r.vid ∉ done.map (fun r => r.vid)) :
    vdata_for (done ++ [r]) r.vid = r.vdata ∧
    (∀ k, k ≠ r.vid → vdata_for (done ++ [r]) k = vdata_for done k) := by
  refine ⟨?_, ?_⟩
  · unfold vdata_for; rw [find_snoc_self done r hr]
  · intro k hk; unfold vdata_for; rw [find_snoc_other done r k hk]

theorem write_record_fresh {V : Type} (recs : List vertex_record) (lvid : Nat)
    (r : vertex_negotiator_record V) (hrec : recs[lvid]? = some (fresh_record r.vid))
    (hne : mirror_type.bits r.mirrors ≠ []) :
    write_record recs lvid r = some (recs.set lvid (stored_record r)) := by
  unfold write_record
  rw [hrec]
  simp only [fresh_record, vertex_record.default, hne, ne_eq, not_false_eq_true, and_self, if_true]
  rfl

theorem local_graph.add_vertex_edges {V E : Type} [Inhabited V] (lg : local_graph V E)
    (lvid : Nat) (vdata : V) : (lg.add_vertex lvid vdata).edges = lg.edges := by
  unfold local_graph.add_vertex local_graph.set_vertex_data local_graph.resize
  split <;> rfl

/-- One received negotiator record for a GVID not received before: the loop body does
not abort and re-establishes the loop invariant. -/
theorem recv_rec_spec {V E : Type} [Inhabited V] (g0 g : distributed_graph V E)
    (done : List (vertex_negotiator_record V)) (r : vertex_negotiator_record V)
    (hinv : recv_inv g0 done g) (hr : r.vid ∉ done.map (fun r => r.vid))
    (hne : mirror_type.bits r.mirrors ≠ []) :
    ∃ g1, recv_rec g r = some g1 ∧ recv_inv g0 (done ++ [r]) g1 := by
  obtain ⟨hd, hkeys, hrecs, hverts, hedges, hown, hstab⟩ := hinv
  obtain ⟨rs1, rs2, rs3⟩ := record_for_snoc done r hr
  obtain ⟨vs1, vs2⟩ := vdata_for_snoc done r hr
  have hnv : g.local_graph.num_vertices = g.vid2lvid.length := by
    unfold local_graph.num_vertices; rw [hverts, List.length_map]
  have hnr : g.lvid2record.length = g.vid2lvid.length := by
    rw [hrecs, List.length_map]
  have hkeys2 : ∀ (m2 : List (Nat × Nat)),
      (∀ k, k ∈ m2.map Prod.fst ↔ k ∈ g.vid2lvid.map Prod.fst ∨ k = r.vid) →
      ∀ k, k ∈ m2.map Prod.fst ↔
        k ∈ g0.vid2lvid.map Prod.fst ∨ k ∈ (done ++ [r]).map (fun r => r.vid) := by
    intro m2 hm2 k
    rw [hm2 k, hkeys k]
    simp only [List.map_append, List.map_cons, List.map_nil, List.mem_append, List.mem_singleton]
    exact or_assoc
  rcases hf : umap_find g.vid2lvid r.vid with _ | lvid
  · have hk : r.vid ∉ g.vid2lvid.map Prod.fst := umap_find_eq_none.1 hf
    have hres : resize_records g.lvid2record (g.vid2lvid ++ [(r.vid, g.vid2lvid.length)]).length =
        g.lvid2record ++ [vertex_record.default] := by
      unfold resize_records
      rw [List.length_append, List.length_singleton, ← hnr, List.take_of_length_le (by omega)]
      simp
    have hmod : (g.lvid2record ++ [vertex_record.default]).modify
        (fun x => { x with gvid := r.vid }) g.vid2lvid.length =
        g.lvid2record ++ [fresh_record r.vid] := by
      rw [← hnr]
      apply List.ext_getElem?
      intro i
      rw [List.getElem?_modify]
      rcases Nat.lt_trichotomy i g.lvid2record.length with hi | hi | hi
      · rw [List.getElem?_append_left hi, List.getElem?_append_left hi,
          List.getElem?_eq_getElem hi]
        simp only [Option.map_eq_map, Option.map_some', Option.some.injEq]
        rw [if_neg (by omega)]
      · subst hi
        simp [fresh_record]
      · rw [List.getElem?_eq_none (by simp; omega), List.getElem?_eq_none (by simp; omega)]
        rfl
    have hget : (g.lvid2record ++ [fresh_record r.vid])[g.vid2lvid.length]? =
        some (fresh_record r.vid) := by
      rw [← hnr]; simp
    have hset : (g.lvid2record ++ [fresh_record r.vid]).set g.vid2lvid.length (stored_record r) =
        g.lvid2record ++ [stored_record r] := by
      rw [← hnr]; simp
    have hadd : (g.local_graph.add_vertex g.vid2lvid.length r.vdata).vertices =
        g.local_graph.vertices ++ [r.vdata] := by
      unfold local_graph.add_vertex local_graph.set_vertex_data
      rw [if_neg (by omega)]
      unfold local_graph.resize
      simp only
      have hvl : g.local_graph.vertices.length = g.vid2lvid.length := hnv
      rw [List.take_of_length_le (by omega), hvl]
      simp only [Nat.add_sub_cancel_left, List.replicate_one]
      rw [← hvl]
      simp
    refine ⟨{ g with
        vid2lvid := g.vid2lvid ++ [(r.vid, g.vid2lvid.length)],
        local_graph := g.local_graph.add_vertex g.vid2lvid.length r.vdata,
        lvid2record := g.lvid2record ++ [stored_record r] }, ?_, ?_⟩
    · unfold recv_rec
      rw [hf]
      simp only
      rw [hres, hmod, write_record_fresh _ _ r hget hne, hset]
      rfl
    · refine ⟨dense_lvids_snoc hd hk, ?_, ?_, ?_,
        (local_graph.add_vertex_edges _ _ _).trans hedges, hown, ?_⟩
      rotate_right
      · intro k l hkl
        show umap_find (g.vid2lvid ++ _) k = some l
        rw [umap_find_append, hstab k l hkl]
        rfl
      · apply hkeys2
        intro k
        simp
      · show g.lvid2record ++ [stored_record r] = _
        rw [hrecs]
        exact map_snoc_dense (record_for done) (record_for (done ++ [r])) hk _ rs1 rs2
      · show (g.local_graph.add_vertex g.vid2lvid.length r.vdata).vertices = _
        rw [hadd, hverts]
        exact map_snoc_dense (vdata_for done) (vdata_for (done ++ [r])) hk _ vs1 vs2
  · have hl : lvid < g.vid2lvid.length := dense_lvids_lt hd (umap_find_mem hf)
    have hget : g.lvid2record[lvid]? = some (fresh_record r.vid) := by
      rw [hrecs, List.getElem?_map, dense_lvids_find_getElem hd hf]
      simp [rs3]
    refine ⟨{ g with
        local_graph := g.local_graph.set_vertex_data lvid r.vdata,
        lvid2record := g.lvid2record.set lvid (stored_record r) }, ?_, ?_⟩
    · unfold recv_rec
      rw [hf]
      simp only
      rw [if_pos (by omega), write_record_fresh _ _ r hget hne]
      rfl
    · refine ⟨hd, ?_, ?_, ?_, hedges, hown, hstab⟩
      · apply hkeys2
        intro k
        constructor
        · exact Or.inl
        · rintro (h | rfl)
          · exact h
          · exact umap_find_isSome.1 ⟨lvid, hf⟩
      · show g.lvid2record.set lvid (stored_record r) = _
        rw [hrecs]
        exact map_set_dense hd (record_for done) (record_for (done ++ [r])) hf _ rs1 rs2
      · show (g.local_graph.set_vertex_data lvid r.vdata).vertices = _
        unfold local_graph.set_vertex_data
        simp only
        rw [hverts]
        exact map_set_dense hd (vdata_for done) (vdata_for (done ++ [r])) hf _ vs1 vs2

/-- The receiving loop over records with pairwise different GVIDs and non-empty mirror
sets never aborts and ends in the loop invariant for all of them. -/
theorem recv_loop_spec {V E : Type} [Inhabited V] (g0 : distributed_graph V E)
    (l : List (vertex_negotiator_record V)) :
    ∀ (done : List (vertex_negotiator_record V)) (g : distributed_graph V E),
      recv_inv g0 done g → ((done ++ l).map (fun r => r.vid)).Nodup →
      (∀ r ∈ l, mirror_type.bits r.mirrors ≠ []) →
      ∃ g1, recv_loop g l = some g1 ∧ recv_inv g0 (done ++ l) g1 := by
  induction l with
  | nil =>
    intro done g hinv _ _
    exact ⟨g, rfl, by rw [List.append_nil]; exact hinv⟩
  | cons r t ih =>
    intro done g hinv hnd hne
    have hr : r.vid ∉ done.map (fun r => r.vid) := by
      rw [List.map_append, List.nodup_append] at hnd
      intro hmem
      exact hnd.2.2 hmem (by simp)
    obtain ⟨g1, hstep, hinv1⟩ := recv_rec_spec g0 g done r hinv hr (hne r (List.mem_cons_self _ _))
    have hnd2 : (((done ++ [r]) ++ t).map (fun r => r.vid)).Nodup := by
      rw [List.append_assoc]; exact hnd
    obtain ⟨g2, hloop, hinv2⟩ := ih (done ++ [r]) g1 hinv1 hnd2
      (fun x hx => hne x (List.mem_cons_of_mem _ hx))
    refine ⟨g2, ?_, ?_⟩
    · unfold recv_loop
      rw [hstep]
      exact hloop
    · rw [List.append_assoc] at hinv2
      exact hinv2

theorem add_edge_rec_vertices {V E : Type} [Inhabited V] (g : distributed_graph V E)
    (r : edge_buffer_record E)
    (h : ∀ x ∈ g.local_graph.vertices, x = (Inhabited.default : V)) :
    ∀ x ∈ (add_edge_rec g r).local_graph.vertices, x = (Inhabited.default : V) := by
  intro x hx
  unfold add_edge_rec local_graph.add_edge at hx
  simp only at hx
  split at hx
  · unfold local_graph.resize at hx
    simp only [List.mem_append, List.mem_replicate] at hx
    rcases hx with hx | hx
    · exact h x (List.mem_of_mem_take hx)
    · exact hx.2
  · exact h x hx

theorem foldl_add_edge_rec_vertices {V E : Type} [Inhabited V]
    (l : List (edge_buffer_record E)) :
    ∀ x ∈ (l.foldl add_edge_rec (distributed_graph.empty V E)).local_graph.vertices,
      x = (Inhabited.default : V) := by
  induction l using List.reverseRecOn with
  | nil => intro x hx; cases hx
  | append_singleton l r ih =>
    simp only [List.foldl_append, List.foldl_cons, List.foldl_nil]
    exact add_edge_rec_vertices _ r ih

/-- Phase 1 from the empty graph, seen as the start of the receiving loop. -/
theorem finalize_phase1_recv_inv {V E : Type} [Inhabited V]
    (order : List (Nat × Nat) → List (Nat × Nat)) (hp : ∀ l, (order l).Perm l)
    (bufs : List (List (edge_buffer_record E))) :
    ∃ g, finalize_phase1 order (distributed_graph.empty V E) bufs = some g ∧
      phase1_post g bufs.flatten ∧ g.local_own_nverts = 0 ∧ recv_inv g [] g := by
  obtain ⟨g, hg, hpost, hown⟩ := finalize_phase1_spec (V := V) order hp bufs
  refine ⟨g, hg, hpost, hown, phase1_post_dense hpost, ?_, hpost.2.1, ?_, rfl, rfl,
    fun _ _ h => h⟩
  · intro k; simp
  · have hv : ∀ x ∈ g.local_graph.vertices, x = (Inhabited.default : V) := by
      unfold finalize_phase1 at hg
      simp only at hg
      split at hg
      · cases hg
        show ∀ x ∈ (materialize_edges (distributed_graph.empty V E) bufs).local_graph.vertices, _
        unfold materialize_edges local_graph.finalize
        simp only
        rw [foldl_foldl_flatten]
        exact foldl_add_edge_rec_vertices bufs.flatten
      · cases hg
    have hlen : g.local_graph.vertices.length = g.vid2lvid.length := hpost.2.2.1
    apply List.ext_getElem?
    intro i
    rw [List.getElem?_map]
    rcases Nat.lt_or_ge i g.vid2lvid.length with hi | hi
    · rw [List.getElem?_eq_getElem (by omega : i < g.local_graph.vertices.length),
        List.getElem?_eq_getElem hi]
      simp only [Option.map_some', Option.some.injEq]
      exact hv _ (List.getElem_mem _)
    · rw [List.getElem?_eq_none (by omega), List.getElem?_eq_none hi]
      rfl

/-! ## The cluster -/

theorem all_some_of_forall {α : Type} (l : List (Option α)) (h : ∀ o ∈ l, ∃ x, o = some x) :
    ∃ xs, all_some l = some xs ∧ l = xs.map some := by
  induction l with
  | nil => exact ⟨[], rfl, rfl⟩
  | cons o t ih =>
    obtain ⟨x, rfl⟩ := h o (List.mem_cons_self _ _)
    obtain ⟨xs, h1, h2⟩ := ih (fun o ho => h o (List.mem_cons_of_mem _ ho))
    refine ⟨x :: xs, ?_, ?_⟩
    · unfold all_some; rw [h1]; rfl
    · rw [h2]; rfl

theorem all_some_range {α : Type} (f : Nat → Option α) (N : Nat)
    (h : ∀ q, q < N → ∃ x, f q = some x) :
    ∃ xs, all_some ((List.range N).map f) = some xs ∧ xs.length = N ∧
      ∀ q, q < N → ∃ x, xs[q]? = some x ∧ f q = some x := by
  obtain ⟨xs, h1, h2⟩ := all_some_of_forall ((List.range N).map f) (by
    intro o ho
    obtain ⟨q, hq, rfl⟩ := List.mem_map.1 ho
    exact h q (List.mem_range.1 hq))
  have hlen : xs.length = N := by
    have := congrArg List.length h2
    simp at this
    exact this.symm
  refine ⟨xs, h1, hlen, ?_⟩
  intro q hq
  have hq2 : q < xs.length := by omega
  refine ⟨xs[q], List.getElem?_eq_getElem hq2, ?_⟩
  have := congrArg (fun l => l[q]?) h2
  simp only [List.getElem?_map, List.getElem?_range hq, Option.map_some',
    List.getElem?_eq_getElem hq2] at this
  exact Option.some.inj this

theorem getD_of_getElem? {α : Type} {l : List α} {i : Nat} {x : α} (d : α)
    (h : l[i]? = some x) : l.getD i d = x := by
  rw [List.getD_eq_getElem?_getD, h]; rfl

/-- Phase 1 of the cluster succeeds on every process. -/
theorem cluster_phase1_spec {V E : Type} [Inhabited V] (env : ingress_env V E)
    (hfair : env.fair) (N : Nat) (calls : List (ingress_call V E)) :
    ∃ g1, cluster_phase1 env N calls = some g1 ∧ g1.length = N ∧
      ∀ q, q < N → ∃ g, g1[q]? = some g ∧ phase1_post g (received_edges env N calls q) ∧
        g.local_own_nverts = 0 ∧ recv_inv g [] g := by
  obtain ⟨g1, h1, h2, h3⟩ := all_some_range (fun q =>
    finalize_phase1 (env.vid2lvid_order q) (distributed_graph.empty V E)
      (env.edge_recv q (inbox (edge_sends env.edge_hash N calls) q))) N (by
    intro q _
    obtain ⟨g, hg, _⟩ := finalize_phase1_recv_inv (V := V) (env.vid2lvid_order q)
      (hfair.vid2lvid_order_perm q) (env.edge_recv q (inbox (edge_sends env.edge_hash N calls) q))
    exact ⟨g, hg⟩)
  refine ⟨g1, h1, h2, ?_⟩
  intro q hq
  obtain ⟨g, hg1, hg2⟩ := h3 q hq
  obtain ⟨g2, hg3, hpost, hown, hinv⟩ := finalize_phase1_recv_inv (V := V) (env.vid2lvid_order q)
    (hfair.vid2lvid_order_perm q) (env.edge_recv q (inbox (edge_sends env.edge_hash N calls) q))
  rw [hg3] at hg2
  have e : g2 = g := Option.some.inj hg2
  rw [← e] at hg1
  exact ⟨g2, hg1, hpost, hown, hinv⟩

/-! ## Routing of the calls -/

theorem edge_sends_eq {V E : Type} (hash : Nat → Nat → Nat) (N : Nat)
    (calls : List (ingress_call V E)) :
    edge_sends hash N calls =
      (call_edges calls).map (fun r => (edge_to_proc_random hash r.source r.target N, r)) := by
  induction calls with
  | nil => rfl
  | cons c t ih =>
    cases c with
    | add_edge caller s d e => simp only [edge_sends, call_edges, List.map_cons, ih, add_edge]
    | add_vertex caller v x => simp only [edge_sends, call_edges, ih]

theorem vertex_sends_eq {V E : Type} (N : Nat) (calls : List (ingress_call V E)) :
    vertex_sends N calls =
      (call_vertices calls).map (fun x => (vertex_to_proc N x.vid, x)) := by
  induction calls with
  | nil => rfl
  | cons c t ih =>
    cases c with
    | add_edge caller s d e => simp only [vertex_sends, call_vertices, ih]
    | add_vertex caller v x =>
      simp only [vertex_sends, call_vertices, List.map_cons, ih, add_vertex]

theorem inbox_map {α : Type} (l : List α) (d : α → Nat) (q : Nat) :
    inbox (l.map (fun r => (d r, r))) q = l.filter (fun r => decide (d r = q)) := by
  unfold inbox
  induction l with
  | nil => rfl
  | cons a t ih =>
    by_cases h : d a = q
    · simp only [List.map_cons, List.filter_cons, h, decide_True, if_true, ih]
    · simp only [List.map_cons, List.filter_cons, h, decide_False, Bool.false_eq_true, if_false, ih]

theorem sum_map_indicator (N c x : Nat) (hc : c < N) :
    ((List.range N).map (fun q => if c = q then x else 0)).sum = x := by
  induction N with
  | zero => omega
  | succ n ih =>
    rw [List.range_succ, List.map_append, List.sum_append]
    rcases Nat.lt_succ_iff_lt_or_eq.1 hc with h | h
    · rw [ih h]
      have : c ≠ n := by omega
      simp [this]
    · subst h
      have hz : ((List.range c).map (fun q => if c = q then x else 0)).sum = 0 := by
        apply List.sum_eq_zero
        intro y hy
        obtain ⟨q, hq, rfl⟩ := List.mem_map.1 hy
        have : c ≠ q := by
          have := List.mem_range.1 hq
          omega
        simp [this]
      rw [hz]
      simp

/-- Routing by a destination below `N` splits a list into `N` inboxes without loss or
duplication: every count adds up. -/
theorem sum_countP_filter {α : Type} (P : α → Bool) (d : α → Nat) (N : Nat) (l : List α)
    (hd : ∀ r ∈ l, d r < N) :
    ((List.range N).map (fun q => (l.filter (fun r => decide (d r = q))).countP P)).sum =
      l.countP P := by
  induction l with
  | nil => simp
  | cons a t ih =>
    have iht := ih (fun r hr => hd r (List.mem_cons_of_mem _ hr))
    have hstep : ∀ q, ((a :: t).filter (fun r => decide (d r = q))).countP P =
        (t.filter (fun r => decide (d r = q))).countP P +
          (if d a = q then (if P a then 1 else 0) else 0) := by
      intro q
      by_cases h : d a = q
      · simp only [List.filter_cons, h, decide_True, if_true, List.countP_cons]
      · simp only [List.filter_cons, h, decide_False, Bool.false_eq_true, if_false, Nat.add_zero]
    simp only [hstep]
    rw [List.sum_map_add, iht, sum_map_indicator N (d a) _ (hd a (List.mem_cons_self _ _)),
      List.countP_cons]

theorem sum_length_filter {α : Type} (d : α → Nat) (N : Nat) (l : List α)
    (hd : ∀ r ∈ l, d r < N) :
    ((List.range N).map (fun q => (l.filter (fun r => decide (d r = q))).length)).sum =
      l.length := by
  have h := sum_countP_filter (fun _ => true) d N l hd
  simp only [List.countP_true] at h
  exact h

theorem edge_to_proc_random_lt (hash : Nat → Nat → Nat) (s t N : Nat) (hN : 0 < N) :
    edge_to_proc_random hash s t N < N := Nat.mod_lt _ hN

theorem vertex_to_proc_lt (N vid : Nat) (hN : 0 < N) : vertex_to_proc N vid < N :=
  Nat.mod_lt _ hN

/-- The edges a process receives are, up to order, the edges placed on it. -/
theorem received_edges_perm {V E : Type} (env : ingress_env V E) (hfair : env.fair) (N : Nat)
    (calls : List (ingress_call V E)) (q : Nat) :
    (received_edges env N calls q).Perm
      ((call_edges calls).filter
        (fun r => decide (edge_to_proc_random env.edge_hash r.source r.target N = q))) := by
  unfold received_edges
  have h := hfair.edge_recv_perm q (inbox (edge_sends env.edge_hash N calls) q)
  rw [edge_sends_eq, inbox_map] at h
  rw [edge_sends_eq, inbox_map]
  exact h

/-- The vertex payloads a negotiator receives are, up to order, the payloads of the
GVIDs it negotiates. -/
theorem received_vertices_perm {V E : Type} (env : ingress_env V E) (hfair : env.fair) (N : Nat)
    (calls : List (ingress_call V E)) (q : Nat) :
    (received_vertices env N calls q).Perm
      ((call_vertices calls).filter (fun x => decide (vertex_to_proc N x.vid = q))) := by
  unfold received_vertices
  have h := hfair.vertex_recv_perm q (inbox (vertex_sends N calls) q)
  rw [vertex_sends_eq, inbox_map] at h
  rw [vertex_sends_eq, inbox_map]
  exact h

theorem sum_in_count_received {V E : Type} (env : ingress_env V E) (hfair : env.fair) (N : Nat)
    (hN : 0 < N) (calls : List (ingress_call V E)) (v : Nat) :
    ((List.range N).map (fun q => in_count (received_edges env N calls q) v)).sum =
      in_count (call_edges calls) v ∧
    ((List.range N).map (fun q => out_count (received_edges env N calls q) v)).sum =
      out_count (call_edges calls) v ∧
    ((List.range N).map (fun q => (received_edges env N calls q).length)).sum =
      (call_edges calls).length := by
  have hd : ∀ r ∈ call_edges calls,
      edge_to_proc_random env.edge_hash r.source r.target N < N :=
    fun r _ => edge_to_proc_random_lt _ _ _ _ hN
  refine ⟨?_, ?_, ?_⟩
  · unfold in_count
    rw [← sum_countP_filter (fun r => decide (r.target = v)) _ N (call_edges calls) hd]
    congr 1
    apply List.map_congr_left
    intro q _
    exact (received_edges_perm env hfair N calls q).countP_eq _
  · unfold out_count
    rw [← sum_countP_filter (fun r => decide (r.source = v)) _ N (call_edges calls) hd]
    congr 1
    apply List.map_congr_left
    intro q _
    exact (received_edges_perm env hfair N calls q).countP_eq _
  · rw [← sum_length_filter _ N (call_edges calls) hd]
    congr 1
    apply List.map_congr_left
    intro q _
    exact (received_edges_perm env hfair N calls q).length_eq

theorem mem_endpoints_received {V E : Type} (env : ingress_env V E) (hfair : env.fair) (N : Nat)
    (hN : 0 < N) (calls : List (ingress_call V E)) (v : Nat) :
    (∃ q, q < N ∧ v ∈ endpoints (received_edges env N calls q)) ↔
      v ∈ endpoints (call_edges calls) := by
  constructor
  · rintro ⟨q, _, hv⟩
    obtain ⟨r, hr, hrv⟩ := (mem_endpoints _ v).1 hv
    have := (received_edges_perm env hfair N calls q).mem_iff.1 hr
    exact (mem_endpoints _ v).2 ⟨r, (List.mem_filter.1 this).1, hrv⟩
  · intro hv
    obtain ⟨r, hr, hrv⟩ := (mem_endpoints _ v).1 hv
    refine ⟨edge_to_proc_random env.edge_hash r.source r.target N,
      edge_to_proc_random_lt _ _ _ _ hN, (mem_endpoints _ v).2 ⟨r, ?_, hrv⟩⟩
    rw [(received_edges_perm env hfair N calls _).mem_iff]
    exact List.mem_filter.2 ⟨hr, by simp⟩

/-! ## Phase 2 on the cluster -/

theorem all2all_proc2vids_getD {V E : Type} (env : ingress_env V E) (N : Nat)
    (g1 : List (distributed_graph V E)) (n p : Nat) (hp : p < N) :
    (all2all [] (cluster_proc2vids env N g1) n).getD p [] =
      (build_proc2vids N (g1.getD p (distributed_graph.empty V E))
        (env.vid2lvid_order p (g1.getD p (distributed_graph.empty V E)).vid2lvid)).getD n [] := by
  unfold all2all cluster_proc2vids
  rw [List.getD_eq_getElem?_getD, List.getElem?_map, List.getElem?_map, List.getElem?_range hp]
  rfl

theorem degree_sum_append (f : shuffle_record → Nat) (l l2 : List shuffle_record) (v : Nat) :
    degree_sum f (l ++ l2) v = degree_sum f l v + degree_sum f l2 v := by
  unfold degree_sum
  simp

theorem degree_sum_tagged (f : shuffle_record → Nat) (P : List (List shuffle_record)) (N v : Nat) :
    degree_sum f ((tagged_records N P).map Prod.snd) v =
      ((List.range N).map (fun p => degree_sum f (P.getD p []) v)).sum := by
  unfold tagged_records
  generalize List.range N = procs
  induction procs with
  | nil => rfl
  | cons p t ih =>
    rw [List.flatMap_cons, List.map_append, degree_sum_append, ih, List.map_cons, List.sum_cons]
    congr 1
    rw [List.map_map]
    have : (Prod.snd ∘ fun r : shuffle_record => (p, r)) = id := rfl
    rw [this, List.map_id]

theorem sum_map_mod (l : List Nat) (f : Nat → Nat) (M : Nat) :
    (l.map (fun p => f p % M)).sum % M = (l.map f).sum % M := by
  induction l with
  | nil => rfl
  | cons a t ih =>
    simp only [List.map_cons, List.sum_cons]
    rw [Nat.add_mod, ih, Nat.mod_mod, ← Nat.add_mod]

/-- Without a payload for `vid` the drained records leave the start value. -/
theorem last_vdata_no_payload {V : Type} (l : List (vertex_buffer_record V)) (vid : Nat) (d : V)
    (h : ∀ x ∈ l, x.vid ≠ vid) : last_vdata l vid d = d := by
  unfold last_vdata
  induction l generalizing d with
  | nil => rfl
  | cons a t ih =>
    rw [List.foldl_cons, if_neg (h a (List.mem_cons_self _ _))]
    exact ih d (fun x hx => h x (List.mem_cons_of_mem _ hx))

/-- The `vrec_map` of negotiator `n` after Phase 2: its keys are the seen GVIDs that
`n` negotiates; every entry holds the global degrees (modulo `VID_MOD`) and the set of
processes that received an edge incident to the GVID. -/
theorem cluster_vrec_map_spec {V E : Type} [Inhabited V] (env : ingress_env V E)
    (hfair : env.fair) (N : Nat) (hN : 0 < N) (calls : List (ingress_call V E))
    (g1 : List (distributed_graph V E))
    (h1 : ∀ q, q < N → ∃ g, g1[q]? = some g ∧ phase1_post g (received_edges env N calls q))
    (n : Nat) (hn : n < N) :
    ((cluster_vrec_map env N calls g1 n).map Prod.fst).Nodup ∧
    (∀ k, k ∈ (cluster_vrec_map env N calls g1 n).map Prod.fst ↔
      vertex_to_proc N k = n ∧ k ∈ seen_vids calls) ∧
    ∀ k d, vertex_to_proc N k = n →
      (umap_get (cluster_vrec_map env N calls g1 n) k
        (vertex_negotiator_record.default V d)).num_in_edges =
          in_count (call_edges calls) k % VID_MOD ∧
      (umap_get (cluster_vrec_map env N calls g1 n) k
        (vertex_negotiator_record.default V d)).num_out_edges =
          out_count (call_edges calls) k % VID_MOD ∧
      (∀ p, p ∈ (umap_get (cluster_vrec_map env N calls g1 n) k
          (vertex_negotiator_record.default V d)).mirrors ↔
        p < N ∧ k ∈ endpoints (received_edges env N calls p)) ∧
      ∃ d2, (umap_get (cluster_vrec_map env N calls g1 n) k
        (vertex_negotiator_record.default V d)).vdata =
          last_vdata (received_vertices env N calls n) k d2 := by
  have hG : ∀ p, p < N → phase1_post (g1.getD p (distributed_graph.empty V E))
      (received_edges env N calls p) := by
    intro p hp
    obtain ⟨g, hg, hpost⟩ := h1 p hp
    rw [getD_of_getElem? _ hg]
    exact hpost
  have hpos : 0 < VID_MOD := by unfold VID_MOD; omega
  -- the records that sender `p` contributes
  have hP := fun p (hp : p < N) => all2all_proc2vids_getD env N g1 n p hp
  have hmemP : ∀ p, p < N → ∀ k,
      (∃ r ∈ (all2all [] (cluster_proc2vids env N g1) n).getD p [], r.vid = k) ↔
        vertex_to_proc N k = n ∧ k ∈ endpoints (received_edges env N calls p) := by
    intro p hp k
    rw [hP p hp]
    constructor
    · rintro ⟨r, hr, rfl⟩
      rw [build_proc2vids_getD N _ _ n hn] at hr
      obtain ⟨pair, hpair, rfl⟩ := List.mem_map.1 hr
      obtain ⟨hmem, hto⟩ := List.mem_filter.1 hpair
      refine ⟨by simpa using hto, ?_⟩
      rw [← phase1_post_keys (hG p hp)]
      exact List.mem_map.2 ⟨pair, (hfair.vid2lvid_order_perm p _).mem_iff.1 hmem, rfl⟩
    · rintro ⟨hk, hmem⟩
      rw [(degree_sum_build_proc2vids (hG p hp) N _ (hfair.vid2lvid_order_perm p _) n hn k hk).2.2,
        phase1_post_keys (hG p hp)]
      exact hmem
  unfold cluster_vrec_map
  rw [accumulate_mirrors_eq_foldl]
  refine ⟨?_, ?_, ?_⟩
  · obtain ⟨_, _, _, _, _, _, _, _, h9, _⟩ := foldl_accumulate_rec_spec (env.uninit_vdata n)
      (tagged_records N (all2all [] (cluster_proc2vids env N g1) n))
      (populate_vrec_map (env.uninit_vdata n)
        (env.vertex_recv n (inbox (vertex_sends N calls) n))) 0 Inhabited.default
    rw [h9]
    exact (populate_vrec_map_spec _ _ 0 Inhabited.default).2.2.2.2.1
  · intro k
    obtain ⟨_, _, _, _, _, _, _, _, _, h10⟩ := foldl_accumulate_rec_spec (env.uninit_vdata n)
      (tagged_records N (all2all [] (cluster_proc2vids env N g1) n))
      (populate_vrec_map (env.uninit_vdata n)
        (env.vertex_recv n (inbox (vertex_sends N calls) n))) 0 Inhabited.default
    rw [h10 k, (populate_vrec_map_spec _ _ 0 Inhabited.default).2.2.2.2.2 k]
    unfold seen_vids
    rw [List.mem_append]
    have hv : (∃ x ∈ (env.vertex_recv n (inbox (vertex_sends N calls) n)).flatten, x.vid = k) ↔
        vertex_to_proc N k = n ∧ k ∈ (call_vertices calls).map (fun x => x.vid) := by
      have hperm := received_vertices_perm env hfair N calls n
      unfold received_vertices at hperm
      constructor
      · rintro ⟨x, hx, rfl⟩
        obtain ⟨hx1, hx2⟩ := List.mem_filter.1 (hperm.mem_iff.1 hx)
        exact ⟨by simpa using hx2, List.mem_map.2 ⟨x, hx1, rfl⟩⟩
      · rintro ⟨hk, hmem⟩
        obtain ⟨x, hx, rfl⟩ := List.mem_map.1 hmem
        exact ⟨x, hperm.mem_iff.2 (List.mem_filter.2 ⟨hx, by simpa using hk⟩), rfl⟩
    have he : (∃ pr ∈ tagged_records N (all2all [] (cluster_proc2vids env N g1) n),
        pr.2.vid = k) ↔ vertex_to_proc N k = n ∧ k ∈ endpoints (call_edges calls) := by
      rw [← mem_endpoints_received env hfair N hN calls k]
      constructor
      · rintro ⟨pr, hpr, hk⟩
        obtain ⟨hp, hr⟩ := (tagged_records_mem N _ pr.1 pr.2).1 hpr
        obtain ⟨hk1, hk2⟩ := (hmemP pr.1 hp k).1 ⟨pr.2, hr, hk⟩
        exact ⟨hk1, pr.1, hp, hk2⟩
      · rintro ⟨hk, p, hp, hmem⟩
        obtain ⟨r, hr, hrk⟩ := (hmemP p hp k).2 ⟨hk, hmem⟩
        exact ⟨(p, r), (tagged_records_mem N _ p r).2 ⟨hp, hr⟩, hrk⟩
    rw [hv, he]
    constructor
    · rintro (⟨hk, h⟩ | ⟨hk, h⟩)
      · exact ⟨hk, Or.inr h⟩
      · exact ⟨hk, Or.inl h⟩
    · rintro ⟨hk, h | h⟩
      · exact Or.inr ⟨hk, h⟩
      · exact Or.inl ⟨hk, h⟩
  · intro k d hk
    obtain ⟨a1, a2, a3, a4, a5, a6, _⟩ := foldl_accumulate_rec_spec (env.uninit_vdata n)
      (tagged_records N (all2all [] (cluster_proc2vids env N g1) n))
      (populate_vrec_map (env.uninit_vdata n)
        (env.vertex_recv n (inbox (vertex_sends N calls) n))) k d
    obtain ⟨p1, p2, p3, p4, _, p6⟩ := populate_vrec_map_spec (env.uninit_vdata n)
      (env.vertex_recv n (inbox (vertex_sends N calls) n)) k d
    rw [p1, Nat.zero_add, degree_sum_tagged] at a1
    rw [p2, Nat.zero_add, degree_sum_tagged] at a2
    rw [p1] at a3
    rw [p2] at a4
    rw [p3] at a5
    have hvd : ∃ d2, (umap_get ((tagged_records N
        (all2all [] (cluster_proc2vids env N g1) n)).foldl
          (fun m pr => accumulate_rec (env.uninit_vdata n) pr.1 m pr.2)
          (populate_vrec_map (env.uninit_vdata n)
            (env.vertex_recv n (inbox (vertex_sends N calls) n)))) k
        (vertex_negotiator_record.default V d)).vdata =
          last_vdata (received_vertices env N calls n) k d2 := by
      by_cases hmem : k ∈ (populate_vrec_map (env.uninit_vdata n)
          (env.vertex_recv n (inbox (vertex_sends N calls) n))).map Prod.fst
      · exact ⟨d, (a6 hmem).trans p4⟩
      · refine ⟨_, (last_vdata_no_payload _ k _ ?_).symm⟩
        intro x hx hxk
        exact hmem ((p6 k).2 ⟨x, hx, hxk⟩)
    have hsum : ∀ (f : shuffle_record → Nat) (c : Nat → Nat),
        (∀ p, p < N → degree_sum f ((all2all [] (cluster_proc2vids env N g1) n).getD p []) k
          = c p % VID_MOD) →
        ((List.range N).map (fun p =>
          degree_sum f ((all2all [] (cluster_proc2vids env N g1) n).getD p []) k)).sum % VID_MOD
          = ((List.range N).map c).sum % VID_MOD := by
      intro f c hc
      have e : (List.range N).map (fun p =>
          degree_sum f ((all2all [] (cluster_proc2vids env N g1) n).getD p []) k) =
          (List.range N).map (fun p => c p % VID_MOD) := by
        apply List.map_congr_left
        intro p hp
        exact hc p (List.mem_range.1 hp)
      rw [e, sum_map_mod]
    obtain ⟨s1, s2, _⟩ := sum_in_count_received env hfair N hN calls k
    refine ⟨?_, ?_, ?_, hvd⟩
    · rw [← Nat.mod_eq_of_lt (a3 hpos), a1,
        hsum _ (fun p => in_count (received_edges env N calls p) k) (fun p hp => by
          rw [hP p hp]
          exact (degree_sum_build_proc2vids (hG p hp) N _
            (hfair.vid2lvid_order_perm p _) n hn k hk).1), s1]
    · rw [← Nat.mod_eq_of_lt (a4 hpos), a2,
        hsum _ (fun p => out_count (received_edges env N calls p) k) (fun p hp => by
          rw [hP p hp]
          exact (degree_sum_build_proc2vids (hG p hp) N _
            (hfair.vid2lvid_order_perm p _) n hn k hk).2.1), s2]
    · intro p
      rw [a5 p]
      simp only [Finset.not_mem_empty, false_or]
      constructor
      · rintro ⟨pr, hpr, rfl, hv⟩
        obtain ⟨hp, hr⟩ := (tagged_records_mem N _ pr.1 pr.2).1 hpr
        exact ⟨hp, ((hmemP pr.1 hp k).1 ⟨pr.2, hr, hv⟩).2⟩
      · rintro ⟨hp, hmem⟩
        obtain ⟨r, hr, hrk⟩ := (hmemP p hp k).2 ⟨hk, hmem⟩
        exact ⟨(p, r), (tagged_records_mem N _ p r).2 ⟨hp, hr⟩, rfl, hrk⟩

/-! ## Phase 3 on the cluster: the records that are sent -/

theorem loop_records_spec {V : Type} (N : Nat) (counts : List Nat)
    (entries : List (Nat × vertex_negotiator_record V)) :
    (∃ c1, assign_loop N counts entries =
      some (c1, (loop_records N counts entries).flatMap notify)) ∧
    List.Forall₂ (sent_rel N) entries (loop_records N counts entries) := by
  induction entries generalizing counts with
  | nil => exact ⟨⟨counts, rfl⟩, List.Forall₂.nil⟩
  | cons e t ih =>
    obtain ⟨c1, r1, hstep, hrel, _⟩ := assign_step_total N counts e.1 e.2
    obtain ⟨⟨c2, hloop⟩, hall⟩ := ih c1
    constructor
    · refine ⟨c2, ?_⟩
      unfold assign_loop loop_records
      simp only [hstep, hloop, List.flatMap_cons]
    · unfold loop_records
      simp only [hstep]
      exact List.Forall₂.cons hrel hall

theorem forall₂_sent_rel_vids {V : Type} (N : Nat)
    {entries : List (Nat × vertex_negotiator_record V)}
    {recs : List (vertex_negotiator_record V)} (h : List.Forall₂ (sent_rel N) entries recs) :
    recs.map (fun r => r.vid) = entries.map Prod.fst := by
  induction h with
  | nil => rfl
  | cons hr _ ih => simp only [List.map_cons, ih, hr.1]

theorem forall₂_mem_right {α β : Type} {R : α → β → Prop} {l : List α} {l2 : List β}
    (h : List.Forall₂ R l l2) : ∀ b ∈ l2, ∃ a ∈ l, R a b := by
  induction h with
  | nil => intro b hb; cases hb
  | cons hr _ ih =>
    intro b hb
    rcases List.mem_cons.1 hb with rfl | hb
    · exact ⟨_, List.mem_cons_self _ _, hr⟩
    · obtain ⟨a, ha, hab⟩ := ih b hb
      exact ⟨a, List.mem_cons_of_mem _ ha, hab⟩

theorem forall₂_mem_left {α β : Type} {R : α → β → Prop} {l : List α} {l2 : List β}
    (h : List.Forall₂ R l l2) : ∀ a ∈ l, ∃ b ∈ l2, R a b := by
  induction h with
  | nil => intro a ha; cases ha
  | cons hr _ ih =>
    intro a ha
    rcases List.mem_cons.1 ha with rfl | ha
    · exact ⟨_, List.mem_cons_self _ _, hr⟩
    · obtain ⟨b, hb, hab⟩ := ih a ha
      exact ⟨b, List.mem_cons_of_mem _ hb, hab⟩

/-- The assignment loops of the cluster never abort, and together they send the
records of `cluster_records`, each to all its mirrors. -/
theorem cluster_assign_spec {V E : Type} [Inhabited V] (env : ingress_env V E) (N : Nat)
    (calls : List (ingress_call V E)) (g1 : List (distributed_graph V E)) :
    ∃ asg, cluster_assign env N calls g1 = some asg ∧ asg.length = N ∧
      (asg.map Prod.snd).flatten = (cluster_records env N calls g1).flatMap notify := by
  obtain ⟨asg, h1, h2, h3⟩ := all_some_range (fun q =>
    assign_owners N (env.vrec_map_order q (cluster_vrec_map env N calls g1 q))) N (by
    intro q _
    obtain ⟨⟨c1, hc⟩, _⟩ := loop_records_spec N (List.replicate N 0)
      (env.vrec_map_order q (cluster_vrec_map env N calls g1 q))
    exact ⟨_, hc⟩)
  refine ⟨asg, h1, h2, ?_⟩
  have hmap : asg.map Prod.snd = (List.range N).map (fun n =>
      (loop_records N (List.replicate N 0)
        (env.vrec_map_order n (cluster_vrec_map env N calls g1 n))).flatMap notify) := by
    apply List.ext_getElem?
    intro i
    rw [List.getElem?_map, List.getElem?_map]
    rcases Nat.lt_or_ge i N with hi | hi
    · obtain ⟨x, hx1, hx2⟩ := h3 i hi
      obtain ⟨⟨c1, hc⟩, _⟩ := loop_records_spec N (List.replicate N 0)
        (env.vrec_map_order i (cluster_vrec_map env N calls g1 i))
      unfold assign_owners at hx2
      rw [hc] at hx2
      rw [hx1, List.getElem?_range hi, ← Option.some.inj hx2]
      rfl
    · rw [List.getElem?_eq_none (by omega), List.getElem?_eq_none (by simp; omega)]
      rfl
  rw [hmap]
  unfold cluster_records
  rw [List.flatMap_assoc]
  rfl

theorem inbox_cluster_sends {V E : Type} [Inhabited V] (env : ingress_env V E) (N : Nat)
    (calls : List (ingress_call V E)) (g1 : List (distributed_graph V E)) (q : Nat) :
    inbox ((cluster_records env N calls g1).flatMap notify) q =
      (cluster_records env N calls g1).filter (fun r => decide (q ∈ r.mirrors)) :=
  inbox_flatMap_notify _ q

theorem umap_get_of_mem {β : Type} {m : List (Nat × β)} {e : Nat × β} (d : β)
    (hnd : (m.map Prod.fst).Nodup) (h : e ∈ m) : umap_get m e.1 d = e.2 := by
  unfold umap_get
  rw [umap_find_of_mem hnd (show (e.1, e.2) ∈ m from h)]
  rfl

theorem record_sound_lt {V E : Type} [Inhabited V] {env : ingress_env V E} {N : Nat}
    (hN : 0 < N) {calls : List (ingress_call V E)} {r : vertex_negotiator_record V}
    (h : record_sound env N calls r) : ∀ p ∈ r.mirrors, p < N := by
  intro p hp
  rcases (h.2.2.2.2.1 p).1 hp with h1 | h1
  · exact h1.1
  · rw [h1.2]; exact vertex_to_proc_lt N _ hN

/-- The records sent in Phase 3: exactly one for every seen GVID, each sound. -/
theorem cluster_records_spec {V E : Type} [Inhabited V] (env : ingress_env V E)
    (hfair : env.fair) (N : Nat) (hN : 0 < N) (calls : List (ingress_call V E))
    (g1 : List (distributed_graph V E))
    (h1 : ∀ q, q < N → ∃ g, g1[q]? = some g ∧ phase1_post g (received_edges env N calls q)) :
    ((cluster_records env N calls g1).map (fun r => r.vid)).Nodup ∧
    (∀ r ∈ cluster_records env N calls g1, record_sound env N calls r) ∧
    (∀ v ∈ seen_vids calls, ∃ r ∈ cluster_records env N calls g1, r.vid = v) := by
  have hrel := fun n => (loop_records_spec N (List.replicate N 0)
      (env.vrec_map_order n (cluster_vrec_map env N calls g1 n))).2
  have hspec := fun n (hn : n < N) => cluster_vrec_map_spec env hfair N hN calls g1 h1 n hn
  have hvids : ∀ n, (loop_records N (List.replicate N 0)
      (env.vrec_map_order n (cluster_vrec_map env N calls g1 n))).map (fun r => r.vid) =
      (env.vrec_map_order n (cluster_vrec_map env N calls g1 n)).map Prod.fst :=
    fun n => forall₂_sent_rel_vids N (hrel n)
  have hkeyperm : ∀ n, ((env.vrec_map_order n (cluster_vrec_map env N calls g1 n)).map
      Prod.fst).Perm ((cluster_vrec_map env N calls g1 n).map Prod.fst) :=
    fun n => (hfair.vrec_map_order_perm n _).map Prod.fst
  refine ⟨?_, ?_, ?_⟩
  · unfold cluster_records
    rw [List.map_flatMap, List.nodup_flatMap]
    constructor
    · intro n hn
      rw [hvids n, (hkeyperm n).nodup_iff]
      exact (hspec n (List.mem_range.1 hn)).1
    · apply List.Nodup.pairwise_of_forall_ne (List.nodup_range N)
      intro a ha b hb hab
      rw [Function.onFun, hvids a, hvids b]
      intro x hxa hxb
      have h2a := ((hspec a (List.mem_range.1 ha)).2.1 x).1 ((hkeyperm a).mem_iff.1 hxa)
      have h2b := ((hspec b (List.mem_range.1 hb)).2.1 x).1 ((hkeyperm b).mem_iff.1 hxb)
      exact hab (h2a.1.symm.trans h2b.1)
  · intro r hr
    unfold cluster_records at hr
    obtain ⟨n, hn, hrn⟩ := List.mem_flatMap.1 hr
    have hn2 := List.mem_range.1 hn
    obtain ⟨e, he, hs⟩ := forall₂_mem_right (hrel n) r hrn
    have hem : e ∈ cluster_vrec_map env N calls g1 n := (hfair.vrec_map_order_perm n _).mem_iff.1 he
    obtain ⟨knd, kmem, kval⟩ := hspec n hn2
    obtain ⟨hto, hseen⟩ := (kmem e.1).1 (List.mem_map.2 ⟨e, hem, rfl⟩)
    obtain ⟨v1, v2, v3, d2, v4⟩ := kval e.1 Inhabited.default hto
    rw [umap_get_of_mem _ knd hem] at v1 v2 v3 v4
    obtain ⟨s1, s2, s3, s4, s5, s6⟩ := hs
    have hpop : 0 < mirror_type.popcount e.2.mirrors ↔ e.1 ∈ endpoints (call_edges calls) := by
      unfold mirror_type.popcount
      rw [Finset.card_pos, ← mem_endpoints_received env hfair N hN calls e.1]
      constructor
      · rintro ⟨p, hp⟩
        exact ⟨p, (v3 p).1 hp⟩
      · rintro ⟨p, hp⟩
        exact ⟨p, (v3 p).2 hp⟩
    refine ⟨s1 ▸ hseen, s6, ?_, ?_, ?_, ?_⟩
    · rw [s2, s1, v1]
    · rw [s3, s1, v2]
    · intro p
      rw [s5, s1]
      by_cases hp : 0 < mirror_type.popcount e.2.mirrors
      · rw [if_pos hp, v3 p]
        constructor
        · exact Or.inl
        · rintro (h | h)
          · exact h
          · exact absurd (hpop.1 hp) h.1
      · rw [if_neg hp]
        simp only [Finset.mem_singleton]
        constructor
        · intro h
          exact Or.inr ⟨fun hmem => hp (hpop.2 hmem), h⟩
        · rintro (h | h)
          · exact absurd (hpop.2 ((mem_endpoints_received env hfair N hN calls e.1).1
              ⟨p, h.1, h.2⟩)) hp
          · exact h.2
    · exact ⟨d2, by rw [s4, s1, v4, hto]⟩
  · intro v hv
    have hn : vertex_to_proc N v < N := vertex_to_proc_lt N v hN
    obtain ⟨_, kmem, _⟩ := hspec _ hn
    obtain ⟨e, he, rfl⟩ := List.mem_map.1 ((kmem v).2 ⟨rfl, hv⟩)
    obtain ⟨r, hr, hs⟩ := forall₂_mem_left (hrel _) e
      ((hfair.vrec_map_order_perm _ _).mem_iff.2 he)
    refine ⟨r, ?_, hs.1⟩
    unfold cluster_records
    exact List.mem_flatMap.2 ⟨_, List.mem_range.2 hn, hr⟩

theorem find_of_mem_nodup {V : Type} {l : List (vertex_negotiator_record V)}
    (hnd : (l.map (fun r => r.vid)).Nodup) {r : vertex_negotiator_record V} (hr : r ∈ l) :
    l.find? (fun x => decide (x.vid = r.vid)) = some r := by
  induction l with
  | nil => cases hr
  | cons a t ih =>
    simp only [List.map_cons, List.nodup_cons] at hnd
    rcases List.mem_cons.1 hr with rfl | hr
    · simp [List.find?_cons]
    · have hne : a.vid ≠ r.vid := fun e => hnd.1 (e ▸ List.mem_map.2 ⟨r, hr, rfl⟩)
      have hd : decide (a.vid = r.vid) = false := decide_eq_false hne
      simp only [List.find?_cons, hd]
      exact ih hnd.2 hr

/-- Phase 3 on process `q` of the cluster: the loop receives, in some order, the sent
records that list `q`, never aborts, and establishes `final_post`. -/
theorem finalize_phase3_spec {V E : Type} [Inhabited V] (env : ingress_env V E)
    (hfair : env.fair) (N : Nat) (hN : 0 < N) (calls : List (ingress_call V E))
    (recs : List (vertex_negotiator_record V))
    (hnd : (recs.map (fun r => r.vid)).Nodup)
    (hsound : ∀ r ∈ recs, record_sound env N calls r)
    (hcomplete : ∀ v ∈ seen_vids calls, ∃ r ∈ recs, r.vid = v)
    (q : Nat) (hq : q < N) (g0 : distributed_graph V E)
    (hpost : phase1_post g0 (received_edges env N calls q)) (hinv : recv_inv g0 [] g0) :
    ∃ g, finalize_phase3 q g0 (env.negotiator_recv q (inbox (recs.flatMap notify) q)) = some g ∧
      final_post env N calls recs q g := by
  have hperm := hfair.negotiator_recv_perm q (inbox (recs.flatMap notify) q)
  rw [inbox_flatMap_notify] at hperm ⊢
  generalize hLdef :
    (env.negotiator_recv q (recs.filter (fun r => decide (q ∈ r.mirrors)))).flatten = L at hperm
  have hL : ∀ r, r ∈ L ↔ r ∈ recs ∧ q ∈ r.mirrors := by
    intro r
    rw [hperm.mem_iff, List.mem_filter]
    simp
  have hLnd : (L.map (fun r => r.vid)).Nodup := by
    rw [(hperm.map _).nodup_iff]
    exact (List.filter_sublist _).map _ |>.nodup hnd
  have hLne : ∀ r ∈ L, mirror_type.bits r.mirrors ≠ [] :=
    fun r hr => mirror_type.bits_ne_nil _ q ((hL r).1 hr).2
  obtain ⟨g, hloop, hd, hkeys, hrecs, hverts, hedges, hown, hstab⟩ :=
    recv_loop_spec g0 L [] g0 hinv (by simpa using hLnd) hLne
  rw [List.nil_append] at hkeys hrecs hverts
  have hkeys2 : ∀ k, k ∈ g.vid2lvid.map Prod.fst ↔ ∃ r ∈ recs, r.vid = k ∧ q ∈ r.mirrors := by
    intro k
    rw [hkeys k]
    constructor
    · rintro (h | h)
      · have hk : k ∈ endpoints (received_edges env N calls q) := (phase1_post_keys hpost k).1 h
        have hseen : k ∈ seen_vids calls := by
          unfold seen_vids
          exact List.mem_append_left _
            ((mem_endpoints_received env hfair N hN calls k).1 ⟨q, hq, hk⟩)
        obtain ⟨r, hr, rfl⟩ := hcomplete k hseen
        exact ⟨r, hr, rfl, ((hsound r hr).2.2.2.2.1 q).2 (Or.inl ⟨hq, hk⟩)⟩
      · obtain ⟨r, hr, rfl⟩ := List.mem_map.1 h
        exact ⟨r, ((hL r).1 hr).1, rfl, ((hL r).1 hr).2⟩
    · rintro ⟨r, hr, rfl, hqr⟩
      exact Or.inr (List.mem_map.2 ⟨r, (hL r).2 ⟨hr, hqr⟩, rfl⟩)
  have hfind : ∀ e ∈ g.vid2lvid,
      L.find? (fun x => decide (x.vid = e.1)) = recs.find? (fun x => decide (x.vid = e.1)) := by
    intro e he
    obtain ⟨r, hr, hrk, hqr⟩ := (hkeys2 e.1).1 (List.mem_map.2 ⟨e, he, rfl⟩)
    rw [← hrk, find_of_mem_nodup hnd hr, find_of_mem_nodup hLnd ((hL r).2 ⟨hr, hqr⟩)]
  have hrecs2 : g.lvid2record = g.vid2lvid.map (fun e => record_for recs e.1) := by
    rw [hrecs]
    apply List.map_congr_left
    intro e he
    unfold record_for
    rw [hfind e he]
  have hverts2 : g.local_graph.vertices = g.vid2lvid.map (fun e => vdata_for recs e.1) := by
    rw [hverts]
    apply List.map_congr_left
    intro e he
    unfold vdata_for
    rw [hfind e he]
  refine ⟨{ g with
      local_own_nverts := g.lvid2record.countP (fun r => decide (r.owner = q)) }, ?_,
    hd, hkeys2, hrecs2, hverts2, ?_, rfl⟩
  · unfold finalize_phase3
    rw [hLdef, hloop]
    simp only
    rw [if_pos]
    constructor
    · unfold local_graph.num_vertices
      rw [hverts, List.length_map]
    · unfold local_graph.num_vertices
      rw [hverts, hrecs, List.length_map, List.length_map]
  · show g.local_graph.edges = _
    rw [hedges, hpost.2.2.2]
    apply List.map_congr_left
    intro x hx
    have hxs : x.source ∈ g0.vid2lvid.map Prod.fst :=
      (phase1_post_keys hpost _).2 ((mem_endpoints _ _).2 ⟨x, hx, Or.inl rfl⟩)
    have hxt : x.target ∈ g0.vid2lvid.map Prod.fst :=
      (phase1_post_keys hpost _).2 ((mem_endpoints _ _).2 ⟨x, hx, Or.inr rfl⟩)
    obtain ⟨ls, hls⟩ := umap_find_isSome.2 hxs
    obtain ⟨lt, hlt⟩ := umap_find_isSome.2 hxt
    rw [lvid_at_of_find hls, lvid_at_of_find hlt, lvid_at_of_find (hstab _ _ hls),
      lvid_at_of_find (hstab _ _ hlt)]

/-! ## Phase 4 and the whole run -/

theorem foldl_add_eq_sum (l : List Nat) (a : Nat) :
    l.foldl (fun acc c => acc + c) a = a + l.sum := by
  induction l generalizing a with
  | nil => rfl
  | cons x t ih => simp only [List.foldl_cons, List.sum_cons, ih]; omega

theorem foldl_getD_eq_sum_take (l : List Nat) (q : Nat) (hq : q ≤ l.length) :
    (List.range q).foldl (fun acc i => acc + l.getD i 0) 0 = (l.take q).sum := by
  induction q with
  | zero => rfl
  | succ n ih =>
    rw [List.range_succ, List.foldl_append, ih (by omega)]
    simp only [List.foldl_cons, List.foldl_nil]
    have hn : n < l.length := by omega
    rw [List.getD_eq_getElem _ _ hn, List.take_succ, List.sum_append,
      List.getElem?_eq_getElem hn]
    simp

theorem all2all_replicate {α : Type} (N : Nat) (xs : List α) (f : α → Nat) (q : Nat)
    (hq : q < N) : all2all 0 (xs.map (fun g => List.replicate N (f g))) q = xs.map f := by
  unfold all2all
  rw [List.map_map]
  apply List.map_congr_left
  intro g _
  simp [List.getD_eq_getElem?_getD, List.getElem?_replicate, hq]

/-- The collective `finalize` of a fair cluster of `N >= 1` processes never aborts, and
its outcome is described by `run_post`. -/
theorem finalize_spec {V E : Type} [Inhabited V] (env : ingress_env V E) (hfair : env.fair)
    (N : Nat) (hN : 0 < N) (calls : List (ingress_call V E)) :
    ∃ g1 asg gs, cluster_phase1 env N calls = some g1 ∧
      cluster_assign env N calls g1 = some asg ∧
      (asg.map Prod.snd).flatten = (cluster_records env N calls g1).flatMap notify ∧
      finalize env N calls = some gs ∧ run_post env N calls g1 gs := by
  obtain ⟨g1, hp1, hlen1, hq1⟩ := cluster_phase1_spec env hfair N calls
  obtain ⟨asg, ha1, _, ha3⟩ := cluster_assign_spec env N calls g1
  have h1 : ∀ q, q < N → ∃ g, g1[q]? = some g ∧
      phase1_post g (received_edges env N calls q) := by
    intro q hq
    obtain ⟨g, hg, hpost, _⟩ := hq1 q hq
    exact ⟨g, hg, hpost⟩
  obtain ⟨hnd, hsound, hcomplete⟩ := cluster_records_spec env hfair N hN calls g1 h1
  have hph3 : ∀ q, q < N → ∃ g,
      finalize_phase3 q (g1.getD q (distributed_graph.empty V E))
        (env.negotiator_recv q (inbox ((asg.map Prod.snd).flatten) q)) = some g ∧
      final_post env N calls (cluster_records env N calls g1) q g := by
    intro q hq
    obtain ⟨g, hg, hpost, _, hinv⟩ := hq1 q hq
    rw [getD_of_getElem? _ hg, ha3]
    exact finalize_phase3_spec env hfair N hN calls _ hnd hsound hcomplete q hq g hpost hinv
  obtain ⟨g3, h31, h32, h33⟩ := all_some_range (fun q =>
    finalize_phase3 q (g1.getD q (distributed_graph.empty V E))
      (env.negotiator_recv q (inbox ((asg.map Prod.snd).flatten) q))) N (by
    intro q hq
    obtain ⟨g, hg, _⟩ := hph3 q hq
    exact ⟨g, hg⟩)
  have hfin : finalize env N calls = some (cluster_phase4 N g3) := by
    unfold finalize
    rw [hp1]
    simp only
    rw [ha1]
    simp only
    unfold cluster_phase3
    rw [h31]
  have hgs : ∀ q, q < N → ∃ g, g3[q]? = some g ∧
      final_post env N calls (cluster_records env N calls g1) q g ∧
      (cluster_phase4 N g3)[q]? = some (finalize_phase4 q g
        (g3.map (fun x => x.num_local_edges)) (g3.map (fun x => x.num_local_own_vertices))
        (g3.map (fun x => x.num_local_vertices))) := by
    intro q hq
    obtain ⟨g, hg1, hg2⟩ := h33 q hq
    obtain ⟨g2, hg3, hfp⟩ := hph3 q hq
    rw [hg3] at hg2
    have e : g2 = g := Option.some.inj hg2
    subst e
    refine ⟨g2, hg1, hfp, ?_⟩
    unfold cluster_phase4
    rw [List.getElem?_map, List.getElem?_range hq]
    simp only [Option.map_some']
    rw [all2all_replicate N g3 _ q hq, all2all_replicate N g3 _ q hq,
      all2all_replicate N g3 _ q hq, getD_of_getElem? _ hg1]
  have hlen4 : (cluster_phase4 N g3).length = N := by
    unfold cluster_phase4; simp
  have hmapeq : ∀ (f : distributed_graph V E → Nat),
      (∀ (q : Nat) (g : distributed_graph V E) (a b c : List Nat),
        f (finalize_phase4 q g a b c) = f g) →
      (cluster_phase4 N g3).map f = g3.map f := by
    intro f hf
    apply List.ext_getElem?
    intro i
    rw [List.getElem?_map, List.getElem?_map]
    rcases Nat.lt_or_ge i N with hi | hi
    · obtain ⟨g, hg, _, hg4⟩ := hgs i hi
      rw [hg4, hg]
      simp only [Option.map_some', hf]
    · rw [List.getElem?_eq_none (by omega), List.getElem?_eq_none (by omega)]
  refine ⟨g1, asg, cluster_phase4 N g3, hp1, ha1, ha3, hfin, hlen1, hlen4, h1, hnd, hsound,
    hcomplete, ?_⟩
  intro q hq
  obtain ⟨g, hg, hfp, hg4⟩ := hgs q hq
  refine ⟨_, hg4, hfp, ?_, ?_, ?_, ?_⟩
  · rw [hmapeq (fun x => x.num_local_edges) (fun _ _ _ _ _ => rfl)]
    show List.foldl _ 0 _ = _
    rw [foldl_add_eq_sum, Nat.zero_add]
  · rw [List.map_take, hmapeq (fun x => x.num_local_edges) (fun _ _ _ _ _ => rfl)]
    show List.foldl _ 0 _ = _
    rw [foldl_getD_eq_sum_take _ q (by simp; omega)]
  · rw [hmapeq (fun x => x.num_local_own_vertices) (fun _ _ _ _ _ => rfl)]
    show List.foldl _ 0 _ = _
    rw [foldl_add_eq_sum, Nat.zero_add]
  · rw [hmapeq (fun x => x.num_local_vertices) (fun _ _ _ _ _ => rfl)]
    show List.foldl _ 0 _ = _
    rw [foldl_add_eq_sum, Nat.zero_add]

/-! ## End-to-end properties -/

theorem fifo_fair (V E : Type) [Inhabited V] (hash : Nat → Nat → Nat) :
    (ingress_env.fifo V E hash).fair := by
  constructor <;> intro q l <;> simp [ingress_env.fifo]

theorem map_eq_range_map {α : Type} (gs : List α) (N : Nat) (f : α → Nat) (c : Nat → Nat)
    (hlen : gs.length = N) (h : ∀ q, q < N → ∃ g, gs[q]? = some g ∧ f g = c q) :
    gs.map f = (List.range N).map c := by
  apply List.ext_getElem?
  intro i
  rw [List.getElem?_map, List.getElem?_map]
  rcases Nat.lt_or_ge i N with hi | hi
  · obtain ⟨g, hg, hf⟩ := h i hi
    rw [hg, List.getElem?_range hi]
    simp [hf]
  · rw [List.getElem?_eq_none (by omega), List.getElem?_eq_none (by simp; omega)]
    rfl

/-- C4. Among `N >= 1` processes, `add_edge` hands every edge to the one process that
`edge_to_proc` returns; after `finalize` the local graph of process `q` holds exactly
the edges received there (a reordering of the edges placed on `q`), one local edge per
received edge; the local edge counts add up to the number of `add_edge` calls, and
`nedges` on every process is that number. -/
theorem edge_conservation {V E : Type} [Inhabited V] (env : ingress_env V E) (hfair : env.fair)
    (N : Nat) (hN : 0 < N) (calls : List (ingress_call V E)) :
    ∃ gs, finalize env N calls = some gs ∧ gs.length = N ∧
      (∀ q, q < N →
        inbox (edge_sends env.edge_hash N calls) q = (call_edges calls).filter
          (fun r => decide (edge_to_proc_random env.edge_hash r.source r.target N = q)) ∧
        (received_edges env N calls q).Perm (inbox (edge_sends env.edge_hash N calls) q) ∧
        ∃ g, gs[q]? = some g ∧
          g.local_graph.edges = (received_edges env N calls q).map
            (fun r => (lvid_at g.vid2lvid r.source, lvid_at g.vid2lvid r.target, r.edata)) ∧
          g.num_local_edges = (inbox (edge_sends env.edge_hash N calls) q).length ∧
          g.nedges = (call_edges calls).length) ∧
      (gs.map (fun g => g.num_local_edges)).sum = (call_edges calls).length := by
  obtain ⟨g1, asg, gs, _, _, _, hfin, _, hlen, _, _, _, _, hfinal⟩ :=
    finalize_spec env hfair N hN calls
  have hsum : (gs.map (fun g => g.num_local_edges)).sum = (call_edges calls).length := by
    rw [map_eq_range_map gs N _ (fun q => (received_edges env N calls q).length) hlen (by
      intro q hq
      obtain ⟨g, hg, hfp, _⟩ := hfinal q hq
      refine ⟨g, hg, ?_⟩
      show g.local_graph.edges.length = _
      rw [hfp.2.2.2.2.1, List.length_map])]
    exact (sum_in_count_received env hfair N hN calls 0).2.2
  refine ⟨gs, hfin, hlen, ?_, hsum⟩
  intro q hq
  have hin : inbox (edge_sends env.edge_hash N calls) q = (call_edges calls).filter
      (fun r => decide (edge_to_proc_random env.edge_hash r.source r.target N = q)) := by
    rw [edge_sends_eq, inbox_map]
  have hperm : (received_edges env N calls q).Perm (inbox (edge_sends env.edge_hash N calls) q) :=
    hfair.edge_recv_perm q _
  obtain ⟨g, hg, hfp, hne, _⟩ := hfinal q hq
  refine ⟨hin, hperm, g, hg, hfp.2.2.2.2.1, ?_, ?_⟩
  · show g.local_graph.edges.length = _
    rw [hfp.2.2.2.2.1, List.length_map]
    exact hperm.length_eq
  · rw [hne, hsum]

/-- The local record and vertex data of a GVID held by process `q` after `finalize`:
the stored form of the one negotiator record sent for it. -/
theorem final_post_record {V E : Type} [Inhabited V] {env : ingress_env V E} {N : Nat}
    {calls : List (ingress_call V E)} {recs : List (vertex_negotiator_record V)} {q : Nat}
    {g : distributed_graph V E} (hfp : final_post env N calls recs q g)
    (hnd : (recs.map (fun r => r.vid)).Nodup) {v lvid : Nat}
    (hv : umap_find g.vid2lvid v = some lvid) :
    ∃ r ∈ recs, r.vid = v ∧ q ∈ r.mirrors ∧
      g.lvid2record[lvid]? = some (stored_record r) ∧
      g.local_graph.vertices[lvid]? = some r.vdata := by
  obtain ⟨hd, hkeys, hrecs, hverts, _, _⟩ := hfp
  obtain ⟨r, hr, hrv, hq⟩ := (hkeys v).1 (umap_find_isSome.1 ⟨lvid, hv⟩)
  refine ⟨r, hr, hrv, hq, ?_, ?_⟩
  · rw [hrecs, List.getElem?_map, dense_lvids_find_getElem hd hv]
    simp only [Option.map_some', Option.some.injEq]
    unfold record_for
    rw [← hrv, find_of_mem_nodup hnd hr]
  · rw [hverts, List.getElem?_map, dense_lvids_find_getElem hd hv]
    simp only [Option.map_some', Option.some.injEq]
    unfold vdata_for
    rw [← hrv, find_of_mem_nodup hnd hr]

theorem in_count_received_le {V E : Type} (env : ingress_env V E) (hfair : env.fair) (N : Nat)
    (calls : List (ingress_call V E)) (q v : Nat) :
    in_count (received_edges env N calls q) v ≤ in_count (call_edges calls) v ∧
    out_count (received_edges env N calls q) v ≤ out_count (call_edges calls) v := by
  unfold in_count out_count
  rw [(received_edges_perm env hfair N calls q).countP_eq,
    (received_edges_perm env hfair N calls q).countP_eq]
  exact ⟨(List.filter_sublist _).countP_le _, (List.filter_sublist _).countP_le _⟩

/-- C3. For calls spread over `N >= 1` processes and a GVID `v` whose global degrees
fit `vertex_id_type`: `finalize` succeeds, the local degrees that the processes report
for `v` in Phase 2 add up to the numbers of ingested edges with target `v` and with
source `v`, and every process that holds `v` stores exactly these two numbers as
`num_in_edges` and `num_out_edges` in the record of `v`. -/
theorem degree_consistency {V E : Type} [Inhabited V] (env : ingress_env V E)
    (hfair : env.fair) (N : Nat) (hN : 0 < N) (calls : List (ingress_call V E)) (v : Nat)
    (hin : in_count (call_edges calls) v < VID_MOD)
    (hout : out_count (call_edges calls) v < VID_MOD) :
    ∃ g1 gs, cluster_phase1 env N calls = some g1 ∧ finalize env N calls = some gs ∧
      gs.length = N ∧
      ((cluster_proc2vids env N g1).map (fun proc2vids =>
        degree_sum shuffle_record.num_in_edges (proc2vids.getD (vertex_to_proc N v) []) v)).sum
          = in_count (call_edges calls) v ∧
      ((cluster_proc2vids env N g1).map (fun proc2vids =>
        degree_sum shuffle_record.num_out_edges (proc2vids.getD (vertex_to_proc N v) []) v)).sum
          = out_count (call_edges calls) v ∧
      ∀ (q : Nat) (g : distributed_graph V E) (lvid : Nat),
        gs[q]? = some g → umap_find g.vid2lvid v = some lvid →
        ∃ r : vertex_record, g.lvid2record[lvid]? = some r ∧ r.gvid = v ∧
          r.num_in_edges = in_count (call_edges calls) v ∧
          r.num_out_edges = out_count (call_edges calls) v := by
  obtain ⟨g1, asg, gs, hp1, _, _, hfin, _, hlen, h1, hnd, hsound, _, hfinal⟩ :=
    finalize_spec env hfair N hN calls
  have hn : vertex_to_proc N v < N := vertex_to_proc_lt N v hN
  have hG : ∀ p, p < N → phase1_post (g1.getD p (distributed_graph.empty V E))
      (received_edges env N calls p) := by
    intro p hp
    obtain ⟨g, hg, hpost⟩ := h1 p hp
    rw [getD_of_getElem? _ hg]
    exact hpost
  obtain ⟨s1, s2, _⟩ := sum_in_count_received env hfair N hN calls v
  refine ⟨g1, gs, hp1, hfin, hlen, ?_, ?_, ?_⟩
  · rw [← s1]
    unfold cluster_proc2vids
    rw [List.map_map]
    congr 1
    apply List.map_congr_left
    intro p hp
    have hp2 := List.mem_range.1 hp
    simp only [Function.comp]
    rw [(degree_sum_build_proc2vids (hG p hp2) N _ (hfair.vid2lvid_order_perm p _) _ hn v rfl).1]
    exact Nat.mod_eq_of_lt (Nat.lt_of_le_of_lt (in_count_received_le env hfair N calls p v).1 hin)
  · rw [← s2]
    unfold cluster_proc2vids
    rw [List.map_map]
    congr 1
    apply List.map_congr_left
    intro p hp
    have hp2 := List.mem_range.1 hp
    simp only [Function.comp]
    rw [(degree_sum_build_proc2vids (hG p hp2) N _ (hfair.vid2lvid_order_perm p _) _ hn v rfl).2.1]
    exact Nat.mod_eq_of_lt (Nat.lt_of_le_of_lt (in_count_received_le env hfair N calls p v).2 hout)
  · intro q g lvid hg hv
    have hq : q < N := by
      rcases Nat.lt_or_ge q gs.length with h | h
      · omega
      · rw [List.getElem?_eq_none h] at hg; cases hg
    obtain ⟨g2, hg2, hfp, _⟩ := hfinal q hq
    rw [hg] at hg2
    have e : g = g2 := Option.some.inj hg2
    subst e
    obtain ⟨r, hr, hrv, _, hrec, _⟩ := final_post_record hfp hnd hv
    obtain ⟨_, _, hi, ho, _⟩ := hsound r hr
    refine ⟨stored_record r, hrec, hrv, ?_, ?_⟩
    · show r.num_in_edges = _
      rw [hi, hrv, Nat.mod_eq_of_lt hin]
    · show r.num_out_edges = _
      rw [ho, hrv, Nat.mod_eq_of_lt hout]

theorem degree_consistency_witness :
    (ingress_env.fifo Nat Nat star_hash).fair ∧ 0 < 4 ∧
    in_count (call_edges star_calls) 0 < VID_MOD ∧
    out_count (call_edges star_calls) 0 < VID_MOD ∧
    ∃ g1 gs, cluster_phase1 (ingress_env.fifo Nat Nat star_hash) 4 star_calls = some g1 ∧
      finalize (ingress_env.fifo Nat Nat star_hash) 4 star_calls = some gs ∧
      gs.length = 4 ∧
      ((cluster_proc2vids (ingress_env.fifo Nat Nat star_hash) 4 g1).map (fun proc2vids =>
        degree_sum shuffle_record.num_in_edges (proc2vids.getD (vertex_to_proc 4 0) []) 0)).sum
          = in_count (call_edges star_calls) 0 ∧
      ((cluster_proc2vids (ingress_env.fifo Nat Nat star_hash) 4 g1).map (fun proc2vids =>
        degree_sum shuffle_record.num_out_edges (proc2vids.getD (vertex_to_proc 4 0) []) 0)).sum
          = out_count (call_edges star_calls) 0 ∧
      ∀ (q : Nat) (g : distributed_graph Nat Nat) (lvid : Nat),
        gs[q]? = some g → umap_find g.vid2lvid 0 = some lvid →
        ∃ r : vertex_record, g.lvid2record[lvid]? = some r ∧ r.gvid = 0 ∧
          r.num_in_edges = in_count (call_edges star_calls) 0 ∧
          r.num_out_edges = out_count (call_edges star_calls) 0 :=
  ⟨fifo_fair Nat Nat star_hash, by decide, by decide, by decide,
    degree_consistency (ingress_env.fifo Nat Nat star_hash) (fifo_fair Nat Nat star_hash) 4
      (by decide) star_calls 0 (by decide) (by decide)⟩

/-- Scenario S2 evaluated: on the star `0 -> 1..4` over four processes every replica of
vertex 0 stores `(num_in_edges, num_out_edges) = (0, 4)` and the replica of each leaf
stores `(1, 0)`. -/
theorem star_scenario_degrees :
    (finalize (ingress_env.fifo Nat Nat star_hash) 4 star_calls).map
      (fun gs => [stored_degrees gs 0, stored_degrees gs 1, stored_degrees gs 2,
        stored_degrees gs 3, stored_degrees gs 4]) =
    some [[(0, 4), (0, 4), (0, 4), (0, 4)], [(1, 0)], [(1, 0)], [(1, 0)], [(1, 0)]] := by
  decide

/-- Scenario S6 evaluated: the self-loop `5 -> 5` gives
`num_in_edges(5) = num_out_edges(5) = 1` on the process that received the edge. -/
theorem self_loop_scenario_degrees :
    (finalize (ingress_env.fifo Nat Nat star_hash) 1 loop_calls).map
      (fun gs => stored_degrees gs 5) = some [(1, 1)] := by
  decide

theorem record_for_gvid {V : Type} (recs : List (vertex_negotiator_record V)) (k : Nat) :
    (record_for recs k).gvid = k := by
  unfold record_for
  rcases h : recs.find? (fun r => decide (r.vid = k)) with _ | r
  · simp only [h]
    rfl
  · have := List.find?_some h
    simp only [decide_eq_true_eq] at this
    simp only [h]
    exact this

theorem vid2lvid_bijection_of_map {V E : Type} (g : distributed_graph V E) (F : Nat → vertex_record)
    (hd : dense_lvids g.vid2lvid) (hF : ∀ k, (F k).gvid = k)
    (hrecs : g.lvid2record = g.vid2lvid.map (fun e => F e.1)) : vid2lvid_bijection g := by
  refine ⟨by rw [hrecs, List.length_map], ?_, ?_, hd⟩
  · intro gvid lvid h
    refine ⟨F gvid, ?_, hF gvid⟩
    rw [hrecs, List.getElem?_map, dense_lvids_find_getElem hd h]
    rfl
  · intro lvid r h
    rw [hrecs, List.getElem?_map] at h
    rcases he : g.vid2lvid[lvid]? with _ | e
    · rw [he] at h; cases h
    · rw [he] at h
      simp only [Option.map_some', Option.some.injEq] at h
      rw [← h, hF]
      have h2 := dense_lvids_getElem hd he
      have hmem : (e.1, lvid) ∈ g.vid2lvid := by
        rw [← h2]
        exact List.getElem?_mem he
      exact umap_find_of_mem hd.2 hmem

/-- C7. Starting from empty graphs, on every process of a cluster of `N >= 1`
processes, both after Phase 1 (record initialisation) and after `finalize`:
`lvid2record.size()` equals `|vid2lvid|`, the record at the LVID of a GVID carries that
GVID, the GVID of every record maps back to its LVID, and `vid2lvid` has no key twice
and hands out exactly the LVIDs `0 .. |vid2lvid| - 1`. -/
theorem vid2lvid_lvid2record_bijection {V E : Type} [Inhabited V] (env : ingress_env V E)
    (hfair : env.fair) (N : Nat) (hN : 0 < N) (calls : List (ingress_call V E)) :
    ∃ g1 gs, cluster_phase1 env N calls = some g1 ∧ finalize env N calls = some gs ∧
      g1.length = N ∧ gs.length = N ∧
      (∀ g ∈ g1, vid2lvid_bijection g) ∧ (∀ g ∈ gs, vid2lvid_bijection g) := by
  obtain ⟨g1, asg, gs, hp1, _, _, hfin, hlen1, hlen, h1, _, _, _, hfinal⟩ :=
    finalize_spec env hfair N hN calls
  refine ⟨g1, gs, hp1, hfin, hlen1, hlen, ?_, ?_⟩
  · intro g hg
    obtain ⟨q, hq⟩ := List.getElem?_of_mem hg
    have hq2 : q < N := by
      rcases Nat.lt_or_ge q g1.length with h | h
      · omega
      · rw [List.getElem?_eq_none h] at hq; cases hq
    obtain ⟨g2, hg2, hpost⟩ := h1 q hq2
    rw [hq] at hg2
    have e : g = g2 := Option.some.inj hg2
    subst e
    exact vid2lvid_bijection_of_map g fresh_record (phase1_post_dense hpost) (fun _ => rfl)
      hpost.2.1
  · intro g hg
    obtain ⟨q, hq⟩ := List.getElem?_of_mem hg
    have hq2 : q < N := by
      rcases Nat.lt_or_ge q gs.length with h | h
      · omega
      · rw [List.getElem?_eq_none h] at hq; cases hq
    obtain ⟨g2, hg2, hfp, _⟩ := hfinal q hq2
    rw [hq] at hg2
    have e : g = g2 := Option.some.inj hg2
    subst e
    exact vid2lvid_bijection_of_map g (record_for _) hfp.1 (record_for_gvid _) hfp.2.2.1

theorem vid2lvid_lvid2record_bijection_witness :
    (ingress_env.fifo Nat Nat triangle_hash).fair ∧ 0 < 2 ∧
    ∃ g1 gs, cluster_phase1 (ingress_env.fifo Nat Nat triangle_hash) 2 triangle_calls = some g1 ∧
      finalize (ingress_env.fifo Nat Nat triangle_hash) 2 triangle_calls = some gs ∧
      g1.length = 2 ∧ gs.length = 2 ∧
      (∀ g ∈ g1, vid2lvid_bijection g) ∧ (∀ g ∈ gs, vid2lvid_bijection g) :=
  ⟨fifo_fair Nat Nat triangle_hash, by decide,
    vid2lvid_lvid2record_bijection (ingress_env.fifo Nat Nat triangle_hash)
      (fifo_fair Nat Nat triangle_hash) 2 (by decide) triangle_calls⟩

theorem edge_conservation_witness :
    (ingress_env.fifo Nat Nat triangle_hash).fair ∧ 0 < 2 ∧
    ∃ gs, finalize (ingress_env.fifo Nat Nat triangle_hash) 2 triangle_calls = some gs ∧
      gs.length = 2 ∧
      (∀ q, q < 2 →
        inbox (edge_sends (ingress_env.fifo Nat Nat triangle_hash).edge_hash 2 triangle_calls) q =
          (call_edges triangle_calls).filter (fun r => decide (edge_to_proc_random
            (ingress_env.fifo Nat Nat triangle_hash).edge_hash r.source r.target 2 = q)) ∧
        (received_edges (ingress_env.fifo Nat Nat triangle_hash) 2 triangle_calls q).Perm
          (inbox (edge_sends (ingress_env.fifo Nat Nat triangle_hash).edge_hash 2
            triangle_calls) q) ∧
        ∃ g, gs[q]? = some g ∧
          g.local_graph.edges =
            (received_edges (ingress_env.fifo Nat Nat triangle_hash) 2 triangle_calls q).map
              (fun r => (lvid_at g.vid2lvid r.source, lvid_at g.vid2lvid r.target, r.edata)) ∧
          g.num_local_edges =
            (inbox (edge_sends (ingress_env.fifo Nat Nat triangle_hash).edge_hash 2
              triangle_calls) q).length ∧
          g.nedges = (call_edges triangle_calls).length) ∧
      (gs.map (fun g => g.num_local_edges)).sum = (call_edges triangle_calls).length :=
  ⟨fifo_fair Nat Nat triangle_hash, by decide,
    edge_conservation (ingress_env.fifo Nat Nat triangle_hash)
      (fifo_fair Nat Nat triangle_hash) 2 (by decide) triangle_calls⟩

/-- Scenario S1 evaluated: the triangle on two processes gives `nedges = 3` and
`nverts = 3` on both, local edge counts 2 and 1, and 2 + 1 locally owned vertices. -/
theorem triangle_scenario_counts :
    (finalize (ingress_env.fifo Nat Nat triangle_hash) 2 triangle_calls).map
      (fun gs => gs.map (fun g => [g.nedges, g.nverts, g.num_local_edges, g.local_own_nverts]))
      = some [[3, 3, 2, 2], [3, 3, 1, 1]] := by
  decide

theorem stored_record_of_mem {V : Type} {recs : List (vertex_negotiator_record V)}
    (hnd : (recs.map (fun r => r.vid)).Nodup) {r : vertex_negotiator_record V} (hr : r ∈ recs) :
    record_for recs r.vid = stored_record r := by
  unfold record_for
  rw [find_of_mem_nodup hnd hr]

/-- The count of line 333 on process `q`: the sent records whose owner is `q`. -/
theorem final_post_own_count {V E : Type} [Inhabited V] {env : ingress_env V E} {N : Nat}
    {calls : List (ingress_call V E)} {recs : List (vertex_negotiator_record V)} {q : Nat}
    {g : distributed_graph V E} (hfp : final_post env N calls recs q g)
    (hnd : (recs.map (fun r => r.vid)).Nodup)
    (hsound : ∀ r ∈ recs, record_sound env N calls r) :
    g.local_own_nverts = recs.countP (fun r => decide (r.owner = q)) := by
  obtain ⟨hd, hkeys, hrecs, _, _, hown⟩ := hfp
  rw [hown, hrecs, List.countP_map]
  have hperm : (g.vid2lvid.map Prod.fst).Perm
      ((recs.filter (fun r => decide (q ∈ r.mirrors))).map (fun r => r.vid)) := by
    rw [List.perm_ext_iff_of_nodup hd.2 (((List.filter_sublist _).map _).nodup hnd)]
    intro k
    rw [hkeys k]
    simp only [List.mem_map, List.mem_filter, decide_eq_true_eq]
    constructor
    · rintro ⟨r, hr, hrk, hq⟩
      exact ⟨r, ⟨hr, hq⟩, hrk⟩
    · rintro ⟨r, ⟨hr, hq⟩, hrk⟩
      exact ⟨r, hr, hrk, hq⟩
  have h1 : g.vid2lvid.countP ((fun r : vertex_record => decide (r.owner = q)) ∘
      fun e => record_for recs e.1) =
      (g.vid2lvid.map Prod.fst).countP (fun k => decide ((record_for recs k).owner = q)) := by
    rw [List.countP_map]
    rfl
  rw [h1, hperm.countP_eq, List.countP_map, List.countP_filter]
  apply List.countP_congr
  intro r hr
  simp only [Function.comp, stored_record_of_mem hnd hr, stored_record, Bool.and_eq_true,
    decide_eq_true_eq]
  constructor
  · exact fun h => h.1
  · intro h
    exact ⟨h, h ▸ (hsound r hr).2.1⟩

theorem sum_countP_owner {V : Type} (recs : List (vertex_negotiator_record V)) (N : Nat)
    (h : ∀ r ∈ recs, r.owner < N) :
    ((List.range N).map (fun q => recs.countP (fun r => decide (r.owner = q)))).sum =
      recs.length := by
  have h1 := sum_length_filter (fun r : vertex_negotiator_record V => r.owner) N recs h
  rw [← h1]
  congr 1
  apply List.map_congr_left
  intro q _
  rw [List.countP_eq_length_filter]

theorem cluster_records_length {V E : Type} [Inhabited V] {env : ingress_env V E} {N : Nat}
    {calls : List (ingress_call V E)} {recs : List (vertex_negotiator_record V)}
    (hnd : (recs.map (fun r => r.vid)).Nodup)
    (hsound : ∀ r ∈ recs, record_sound env N calls r)
    (hcomplete : ∀ v ∈ seen_vids calls, ∃ r ∈ recs, r.vid = v) :
    recs.length = (seen_vids calls).toFinset.card := by
  rw [← List.length_map recs (fun r => r.vid), ← List.toFinset_card_of_nodup hnd]
  congr 1
  ext v
  simp only [List.mem_toFinset, List.mem_map]
  constructor
  · rintro ⟨r, hr, rfl⟩
    exact (hsound r hr).1
  · intro hv
    obtain ⟨r, hr, hrv⟩ := hcomplete v hv
    exact ⟨r, hr, hrv⟩

/-- C5. After `finalize` on `N >= 1` processes every GVID that appeared in an edge or a
vertex payload is counted as locally owned on exactly one process (its owner, which
holds it); `local_own_nverts` is the count of line 333; these counts add up to the
number of distinct GVIDs seen, and `nverts` on every process is that number. -/
theorem unique_ownership_count {V E : Type} [Inhabited V] (env : ingress_env V E)
    (hfair : env.fair) (N : Nat) (hN : 0 < N) (calls : List (ingress_call V E)) :
    ∃ gs, finalize env N calls = some gs ∧ gs.length = N ∧
      (∀ v ∈ seen_vids calls, ∃ owner, owner < N ∧ ∀ q, counted_on gs q v ↔ q = owner) ∧
      (∀ g ∈ gs, g.nverts = (seen_vids calls).toFinset.card) ∧
      (∀ (q : Nat) (g : distributed_graph V E), gs[q]? = some g →
        g.local_own_nverts = g.lvid2record.countP (fun r => decide (r.owner = q))) ∧
      (gs.map (fun g => g.num_local_own_vertices)).sum = (seen_vids calls).toFinset.card := by
  obtain ⟨g1, asg, gs, _, _, _, hfin, _, hlen, _, hnd, hsound, hcomplete, hfinal⟩ :=
    finalize_spec env hfair N hN calls
  have hget : ∀ (q : Nat) (g : distributed_graph V E), gs[q]? = some g →
      q < N ∧ final_post env N calls (cluster_records env N calls g1) q g ∧
      g.nverts = (gs.map (fun x => x.num_local_own_vertices)).sum := by
    intro q g hg
    have hq : q < N := by
      rcases Nat.lt_or_ge q gs.length with h | h
      · omega
      · rw [List.getElem?_eq_none h] at hg; cases hg
    obtain ⟨g2, hg2, hfp, _, _, hnv, _⟩ := hfinal q hq
    rw [hg] at hg2
    have e : g = g2 := Option.some.inj hg2
    subst e
    exact ⟨hq, hfp, hnv⟩
  have hsum : (gs.map (fun g => g.num_local_own_vertices)).sum =
      (seen_vids calls).toFinset.card := by
    rw [map_eq_range_map gs N _ (fun q =>
        (cluster_records env N calls g1).countP (fun r => decide (r.owner = q))) hlen (by
      intro q hq
      obtain ⟨g, hg, hfp, _⟩ := hfinal q hq
      exact ⟨g, hg, final_post_own_count hfp hnd hsound⟩)]
    rw [sum_countP_owner _ N (fun r hr => record_sound_lt hN (hsound r hr) _ (hsound r hr).2.1)]
    exact cluster_records_length hnd hsound hcomplete
  refine ⟨gs, hfin, hlen, ?_, ?_, ?_, hsum⟩
  · intro v hv
    obtain ⟨r, hr, hrv⟩ := hcomplete v hv
    have hown := (hsound r hr).2.1
    have hlt := record_sound_lt hN (hsound r hr) _ hown
    refine ⟨r.owner, hlt, ?_⟩
    intro q
    constructor
    · rintro ⟨g, lvid, rec, hg, hfind, hrec, hq⟩
      obtain ⟨_, hfp, _⟩ := hget q g hg
      obtain ⟨r2, hr2, hr2v, _, hstored, _⟩ := final_post_record hfp hnd hfind
      have e : r2 = r := by
        have h1 := find_of_mem_nodup hnd hr2
        have h2 := find_of_mem_nodup hnd hr
        rw [hr2v] at h1
        rw [hrv] at h2
        rw [h1] at h2
        exact Option.some.inj h2
      subst e
      rw [hrec] at hstored
      rw [← hq, Option.some.inj hstored]
      rfl
    · intro hq
      subst hq
      obtain ⟨g, hg, hfp, _⟩ := hfinal r.owner hlt
      obtain ⟨lvid, hfind⟩ := umap_find_isSome.2 ((hfp.2.1 v).2 ⟨r, hr, hrv, hown⟩)
      obtain ⟨r2, hr2, hr2v, _, hstored, _⟩ := final_post_record hfp hnd hfind
      have e : r2 = r := by
        have h1 := find_of_mem_nodup hnd hr2
        have h2 := find_of_mem_nodup hnd hr
        rw [hr2v] at h1
        rw [hrv] at h2
        rw [h1] at h2
        exact Option.some.inj h2
      subst e
      exact ⟨g, lvid, stored_record r2, hg, hfind, hstored, rfl⟩
  · intro g hg
    obtain ⟨q, hq⟩ := List.getElem?_of_mem hg
    rw [(hget q g hq).2.2, hsum]
  · intro q g hg
    exact (hget q g hg).2.1.2.2.2.2.2

theorem unique_ownership_count_witness :
    (ingress_env.fifo Nat Nat triangle_hash).fair ∧ 0 < 2 ∧
    ∃ gs, finalize (ingress_env.fifo Nat Nat triangle_hash) 2 triangle_calls = some gs ∧
      gs.length = 2 ∧
      (∀ v ∈ seen_vids triangle_calls,
        ∃ owner, owner < 2 ∧ ∀ q, counted_on gs q v ↔ q = owner) ∧
      (∀ g ∈ gs, g.nverts = (seen_vids triangle_calls).toFinset.card) ∧
      (∀ (q : Nat) (g : distributed_graph Nat Nat), gs[q]? = some g →
        g.local_own_nverts = g.lvid2record.countP (fun r => decide (r.owner = q))) ∧
      (gs.map (fun g => g.num_local_own_vertices)).sum =
        (seen_vids triangle_calls).toFinset.card :=
  ⟨fifo_fair Nat Nat triangle_hash, by decide,
    unique_ownership_count (ingress_env.fifo Nat Nat triangle_hash)
      (fifo_fair Nat Nat triangle_hash) 2 (by decide) triangle_calls⟩

theorem mem_notify {V : Type} (r : vertex_negotiator_record V)
    (m : Nat × vertex_negotiator_record V) : m ∈ notify r ↔ m.2 = r ∧ m.1 ∈ r.mirrors := by
  unfold notify
  rw [List.mem_map]
  constructor
  · rintro ⟨p, hp, rfl⟩
    exact ⟨rfl, (mirror_type.mem_bits _ _).1 hp⟩
  · rintro ⟨h1, h2⟩
    refine ⟨m.1, (mirror_type.mem_bits _ _).2 h2, ?_⟩
    rw [← h1]

/-- The output of the assignment loop of negotiator `n` within the cluster. -/
theorem cluster_assign_getElem {V E : Type} [Inhabited V] (env : ingress_env V E) (N : Nat)
    (calls : List (ingress_call V E)) (g1 : List (distributed_graph V E))
    (asg : List (List Nat × List (Nat × vertex_negotiator_record V)))
    (h : cluster_assign env N calls g1 = some asg) (n : Nat) (hn : n < N) :
    ∃ c, asg[n]? = some (c, (loop_records N (List.replicate N 0)
      (env.vrec_map_order n (cluster_vrec_map env N calls g1 n))).flatMap notify) := by
  obtain ⟨xs, h1, _, h3⟩ := all_some_range (fun q =>
    assign_owners N (env.vrec_map_order q (cluster_vrec_map env N calls g1 q))) N (by
    intro q _
    obtain ⟨⟨c1, hc⟩, _⟩ := loop_records_spec N (List.replicate N 0)
      (env.vrec_map_order q (cluster_vrec_map env N calls g1 q))
    exact ⟨_, hc⟩)
  unfold cluster_assign at h
  rw [h] at h1
  have e : asg = xs := Option.some.inj h1
  subst e
  obtain ⟨x, hx1, hx2⟩ := h3 n hn
  obtain ⟨⟨c1, hc⟩, _⟩ := loop_records_spec N (List.replicate N 0)
    (env.vrec_map_order n (cluster_vrec_map env N calls g1 n))
  unfold assign_owners at hx2
  rw [hc] at hx2
  refine ⟨c1, ?_⟩
  rw [hx1, ← Option.some.inj hx2]

/-- The records of `cluster_records` that negotiator `n` constructs are those of the
GVIDs it negotiates. -/
theorem mem_loop_records_iff {V E : Type} [Inhabited V] (env : ingress_env V E)
    (hfair : env.fair) (N : Nat) (hN : 0 < N) (calls : List (ingress_call V E))
    (g1 : List (distributed_graph V E))
    (h1 : ∀ q, q < N → ∃ g, g1[q]? = some g ∧ phase1_post g (received_edges env N calls q))
    (n : Nat) (hn : n < N) (r : vertex_negotiator_record V) :
    r ∈ loop_records N (List.replicate N 0)
        (env.vrec_map_order n (cluster_vrec_map env N calls g1 n)) ↔
      r ∈ cluster_records env N calls g1 ∧ vertex_to_proc N r.vid = n := by
  have hto : ∀ n2, n2 < N → ∀ r2 ∈ loop_records N (List.replicate N 0)
      (env.vrec_map_order n2 (cluster_vrec_map env N calls g1 n2)),
      vertex_to_proc N r2.vid = n2 := by
    intro n2 hn2 r2 hr2
    obtain ⟨e, he, hs⟩ := forall₂_mem_right (loop_records_spec N (List.replicate N 0)
      (env.vrec_map_order n2 (cluster_vrec_map env N calls g1 n2))).2 r2 hr2
    have hem := (hfair.vrec_map_order_perm n2 _).mem_iff.1 he
    have := ((cluster_vrec_map_spec env hfair N hN calls g1 h1 n2 hn2).2.1 e.1).1
      (List.mem_map.2 ⟨e, hem, rfl⟩)
    rw [hs.1]
    exact this.1
  constructor
  · intro hr
    refine ⟨?_, hto n hn r hr⟩
    unfold cluster_records
    exact List.mem_flatMap.2 ⟨n, List.mem_range.2 hn, hr⟩
  · rintro ⟨hr, hv⟩
    unfold cluster_records at hr
    obtain ⟨n2, hn2, hr2⟩ := List.mem_flatMap.1 hr
    have := hto n2 (List.mem_range.1 hn2) r hr2
    rw [hv] at this
    subst this
    exact hr2

theorem record_unique {V : Type} {recs : List (vertex_negotiator_record V)}
    (hnd : (recs.map (fun r => r.vid)).Nodup) {r r2 : vertex_negotiator_record V}
    (hr : r ∈ recs) (hr2 : r2 ∈ recs) (hv : r2.vid = r.vid) : r2 = r := by
  have h1 := find_of_mem_nodup hnd hr2
  have h2 := find_of_mem_nodup hnd hr
  rw [hv, h2] at h1
  exact (Option.some.inj h1).symm

/-- C6. For every seen GVID `v`, its negotiator `vertex_to_proc v` sends one record `r`
for `v`, to exactly the members of the mirror set `r.mirrors` it holds at that moment;
no other message for `v` exists in the cluster; after `finalize` the processes that
hold `v` are exactly the members of `r.mirrors`; and every process that got an LVID
for `v` in Phase 1 is sent `r`. No process holds a GVID that was never seen. -/
theorem mirror_agreement {V E : Type} [Inhabited V] (env : ingress_env V E)
    (hfair : env.fair) (N : Nat) (hN : 0 < N) (calls : List (ingress_call V E)) :
    ∃ g1 asg gs, cluster_phase1 env N calls = some g1 ∧
      cluster_assign env N calls g1 = some asg ∧ finalize env N calls = some gs ∧
      (∀ q v, holds gs q v → v ∈ seen_vids calls) ∧
      ∀ v ∈ seen_vids calls, ∃ c sends r,
        asg[vertex_to_proc N v]? = some (c, sends) ∧
        (∃ p, (p, r) ∈ sends) ∧ r.vid = v ∧
        (∀ m ∈ (asg.map Prod.snd).flatten, m.2.vid = v → m.2 = r ∧ m ∈ sends) ∧
        (∀ q, (q, r) ∈ sends ↔ q ∈ r.mirrors) ∧
        (∀ q, q ∈ r.mirrors → q < N) ∧
        (∀ q, holds gs q v ↔ q ∈ r.mirrors) ∧
        (∀ q, holds g1 q v → (q, r) ∈ sends) := by
  obtain ⟨g1, asg, gs, hp1, ha1, ha3, hfin, hlen1, hlen, h1, hnd, hsound, hcomplete, hfinal⟩ :=
    finalize_spec env hfair N hN calls
  have hget : ∀ (q : Nat) (g : distributed_graph V E), gs[q]? = some g →
      q < N ∧ final_post env N calls (cluster_records env N calls g1) q g := by
    intro q g hg
    have hq : q < N := by
      rcases Nat.lt_or_ge q gs.length with h | h
      · omega
      · rw [List.getElem?_eq_none h] at hg; cases hg
    obtain ⟨g2, hg2, hfp, _⟩ := hfinal q hq
    rw [hg] at hg2
    have e : g = g2 := Option.some.inj hg2
    subst e
    exact ⟨hq, hfp⟩
  refine ⟨g1, asg, gs, hp1, ha1, hfin, ?_, ?_⟩
  · rintro q v ⟨g, lvid, hg, hfind⟩
    obtain ⟨_, hfp⟩ := hget q g hg
    obtain ⟨r, hr, hrv, _⟩ := (hfp.2.1 v).1 (umap_find_isSome.1 ⟨lvid, hfind⟩)
    exact hrv ▸ (hsound r hr).1
  · intro v hv
    obtain ⟨r, hr, hrv⟩ := hcomplete v hv
    have hn : vertex_to_proc N v < N := vertex_to_proc_lt N v hN
    obtain ⟨c, hc⟩ := cluster_assign_getElem env N calls g1 asg ha1 _ hn
    have hrn := (mem_loop_records_iff env hfair N hN calls g1 h1 _ hn r).2 ⟨hr, by rw [hrv]⟩
    have hsend : ∀ q, q ∈ r.mirrors → (q, r) ∈ (loop_records N (List.replicate N 0)
        (env.vrec_map_order (vertex_to_proc N v)
          (cluster_vrec_map env N calls g1 (vertex_to_proc N v)))).flatMap notify := by
      intro q hq
      exact List.mem_flatMap.2 ⟨r, hrn, (mem_notify r (q, r)).2 ⟨rfl, hq⟩⟩
    have hlt := record_sound_lt hN (hsound r hr)
    refine ⟨c, _, r, hc, ⟨r.owner, hsend _ (hsound r hr).2.1⟩, hrv, ?_, ?_, hlt, ?_, ?_⟩
    · intro m hm hmv
      rw [ha3] at hm
      obtain ⟨r2, hr2, hm2⟩ := List.mem_flatMap.1 hm
      obtain ⟨e2, hq2⟩ := (mem_notify r2 m).1 hm2
      have e : r2 = r := record_unique hnd hr hr2 (by rw [← e2, hmv, hrv])
      subst e
      refine ⟨e2, ?_⟩
      have := hsend m.1 hq2
      rw [← e2] at this
      exact this
    · intro q
      constructor
      · intro hm
        obtain ⟨r2, _, hm2⟩ := List.mem_flatMap.1 hm
        obtain ⟨e2, hq2⟩ := (mem_notify r2 (q, r)).1 hm2
        simp only at e2 hq2
        rw [e2]
        exact hq2
      · exact hsend q
    · intro q
      constructor
      · rintro ⟨g, lvid, hg, hfind⟩
        obtain ⟨_, hfp⟩ := hget q g hg
        obtain ⟨r2, hr2, hr2v, hq2⟩ := (hfp.2.1 v).1 (umap_find_isSome.1 ⟨lvid, hfind⟩)
        have e : r2 = r := record_unique hnd hr hr2 (by rw [hr2v, hrv])
        subst e
        exact hq2
      · intro hq
        obtain ⟨g, hg, hfp, _⟩ := hfinal q (hlt q hq)
        obtain ⟨lvid, hfind⟩ := umap_find_isSome.2 ((hfp.2.1 v).2 ⟨r, hr, hrv, hq⟩)
        exact ⟨g, lvid, hg, hfind⟩
    · rintro q ⟨g, lvid, hg, hfind⟩
      have hq : q < N := by
        rcases Nat.lt_or_ge q N with h | h
        · exact h
        · rw [List.getElem?_eq_none (by omega)] at hg
          cases hg
      obtain ⟨g2, hg2, hpost⟩ := h1 q hq
      rw [hg] at hg2
      have e : g = g2 := Option.some.inj hg2
      subst e
      have hmem : v ∈ endpoints (received_edges env N calls q) :=
        (phase1_post_keys hpost v).1 (umap_find_isSome.1 ⟨lvid, hfind⟩)
      apply hsend
      rw [(hsound r hr).2.2.2.2.1 q, hrv]
      exact Or.inl ⟨hq, hmem⟩

theorem mirror_agreement_witness :
    (ingress_env.fifo Nat Nat triangle_hash).fair ∧ 0 < 2 ∧
    ∃ g1 asg gs, cluster_phase1 (ingress_env.fifo Nat Nat triangle_hash) 2 triangle_calls = some g1 ∧
      cluster_assign (ingress_env.fifo Nat Nat triangle_hash) 2 triangle_calls g1 = some asg ∧
      finalize (ingress_env.fifo Nat Nat triangle_hash) 2 triangle_calls = some gs ∧
      (∀ q v, holds gs q v → v ∈ seen_vids triangle_calls) ∧
      ∀ v ∈ seen_vids triangle_calls, ∃ c sends r,
        asg[vertex_to_proc 2 v]? = some (c, sends) ∧
        (∃ p, (p, r) ∈ sends) ∧ r.vid = v ∧
        (∀ m ∈ (asg.map Prod.snd).flatten, m.2.vid = v → m.2 = r ∧ m ∈ sends) ∧
        (∀ q, (q, r) ∈ sends ↔ q ∈ r.mirrors) ∧
        (∀ q, q ∈ r.mirrors → q < 2) ∧
        (∀ q, holds gs q v ↔ q ∈ r.mirrors) ∧
        (∀ q, holds g1 q v → (q, r) ∈ sends) :=
  ⟨fifo_fair Nat Nat triangle_hash, by decide,
    mirror_agreement (ingress_env.fifo Nat Nat triangle_hash)
      (fifo_fair Nat Nat triangle_hash) 2 (by decide) triangle_calls⟩

/-! ## Vertex payloads at a negotiator (C17) and order of accumulation (C16) -/

theorem last_vdata_eq_last_payload {V : Type} (l : List (vertex_buffer_record V)) (vid : Nat)
    (d : V) : last_vdata l vid d = ((last_payload l vid).map (fun x => x.vdata)).getD d := by
  induction l using List.reverseRecOn with
  | nil => rfl
  | append_singleton l a ih =>
    unfold last_vdata last_payload at ih ⊢
    rw [List.foldl_append, List.filter_append]
    simp only [List.foldl_cons, List.foldl_nil]
    by_cases ha : a.vid = vid
    · rw [if_pos ha]
      have : [a].filter (fun x => decide (x.vid = vid)) = [a] := by
        simp [List.filter_cons, ha]
      rw [this, List.getLast?_concat]
      rfl
    · rw [if_neg ha, ih]
      have : [a].filter (fun x => decide (x.vid = vid)) = [] := by
        simp [List.filter_cons, ha]
      rw [this, List.append_nil]

theorem last_payload_isSome {V : Type} (l : List (vertex_buffer_record V)) (vid : Nat)
    (h : ∃ x ∈ l, x.vid = vid) :
    ∃ x, last_payload l vid = some x ∧ x ∈ l ∧ x.vid = vid := by
  obtain ⟨y, hy, hyv⟩ := h
  unfold last_payload
  have hmem : y ∈ l.filter (fun x => decide (x.vid = vid)) :=
    List.mem_filter.2 ⟨hy, by simpa using hyv⟩
  rcases hl : (l.filter (fun x => decide (x.vid = vid))).getLast? with _ | x
  · rw [List.getLast?_eq_none_iff] at hl
    rw [hl] at hmem
    cases hmem
  · have hx := List.mem_of_mem_getLast? hl
    obtain ⟨hx1, hx2⟩ := List.mem_filter.1 hx
    exact ⟨x, hl, hx1, by simpa using hx2⟩

theorem last_payload_none {V : Type} (l : List (vertex_buffer_record V)) (vid : Nat)
    (h : ∀ x ∈ l, x.vid ≠ vid) : last_payload l vid = none := by
  unfold last_payload
  have : l.filter (fun x => decide (x.vid = vid)) = [] := by
    rw [List.filter_eq_nil_iff]
    intro x hx
    simpa using h x hx
  rw [this]
  rfl

/-- An entry that the accumulation creates keeps the `vdata` that the memory held when
it was created: for a key that was not in the map before and is in it afterwards, the
`vdata` is `u m v` for some state `m` of the map. -/
theorem foldl_accumulate_rec_uninit {V : Type}
    (u : List (Nat × vertex_negotiator_record V) → Nat → V) (l : List (Nat × shuffle_record))
    (m0 : List (Nat × vertex_negotiator_record V)) (v : Nat) (d : V)
    (hnew : v ∉ m0.map Prod.fst)
    (hkey : v ∈ (l.foldl (fun m pr => accumulate_rec u pr.1 m pr.2) m0).map Prod.fst) :
    ∃ m, v ∉ m.map Prod.fst ∧
      (umap_get (l.foldl (fun m pr => accumulate_rec u pr.1 m pr.2) m0) v
        (vertex_negotiator_record.default V d)).vdata = u m v := by
  induction l generalizing m0 with
  | nil => exact absurd hkey hnew
  | cons a t ih =>
    simp only [List.foldl_cons] at hkey ⊢
    by_cases hv : v = a.2.vid
    · refine ⟨m0, hnew, ?_⟩
      have hmem : v ∈ (accumulate_rec u a.1 m0 a.2).map Prod.fst :=
        (accumulate_rec_mem_keys u a.1 m0 a.2 v).2 (Or.inr hv)
      rw [(foldl_accumulate_rec_spec u t (accumulate_rec u a.1 m0 a.2) v d).2.2.2.2.2.1 hmem,
        umap_get_accumulate_rec, if_pos hv, ← hv]
      show (umap_get m0 v (vertex_negotiator_record.default V (u m0 v))).vdata = u m0 v
      rw [umap_get_of_not_mem _ hnew]
      rfl
    · apply ih (accumulate_rec u a.1 m0 a.2) _ hkey
      rw [accumulate_rec_mem_keys]
      rintro (h | h)
      · exact hnew h
      · exact hv h

/-- Last write wins at the negotiator, for any content `u` of uninitialised memory and
any value `d` read for a missing key: after the drain of vertex-buffer records
`vrec_map[vid].vdata` is the `vdata` of the last record of the sequence with that `vid`
(there is one when `vid` occurs); a drain over any `vrec_map` changes no field of an
entry other than `vdata`; and a `vid` in no payload record that occurs in a shuffle
record is a key after the accumulation whose `vdata` is what the memory of its entry
held when the entry was created, `u m vid`: the constructor does not initialise it and
nothing writes it. -/
theorem last_write_wins {V : Type} (u : List (Nat × vertex_negotiator_record V) → Nat → V)
    (vertex_buffers : List (List (vertex_buffer_record V))) (N : Nat)
    (proc2vids : List (List shuffle_record)) (vid : Nat) (d : V) :
    (umap_get (populate_vrec_map u vertex_buffers) vid
        (vertex_negotiator_record.default V d)).vdata =
      ((last_payload vertex_buffers.flatten vid).map (fun x => x.vdata)).getD d ∧
    ((∃ x ∈ vertex_buffers.flatten, x.vid = vid) →
      ∃ x, last_payload vertex_buffers.flatten vid = some x ∧ x ∈ vertex_buffers.flatten ∧
        x.vid = vid ∧
        (umap_get (populate_vrec_map u vertex_buffers) vid
          (vertex_negotiator_record.default V d)).vdata = x.vdata ∧
        (umap_get (accumulate_mirrors u N proc2vids (populate_vrec_map u vertex_buffers)) vid
          (vertex_negotiator_record.default V d)).vdata = x.vdata) ∧
    ((∀ x ∈ vertex_buffers.flatten, x.vid ≠ vid) →
      (∃ p, p < N ∧ ∃ r ∈ proc2vids.getD p [], r.vid = vid) →
      vid ∈ (accumulate_mirrors u N proc2vids (populate_vrec_map u vertex_buffers)).map
        Prod.fst ∧
      ∃ m, vid ∉ m.map Prod.fst ∧
        (umap_get (accumulate_mirrors u N proc2vids (populate_vrec_map u vertex_buffers)) vid
          (vertex_negotiator_record.default V d)).vdata = u m vid) ∧
    ∀ (l : List (vertex_buffer_record V)) (m0 : List (Nat × vertex_negotiator_record V)),
      (umap_get (l.foldl (vdata_rec u) m0) vid (vertex_negotiator_record.default V d)).vid =
        (umap_get m0 vid (vertex_negotiator_record.default V d)).vid ∧
      (umap_get (l.foldl (vdata_rec u) m0) vid
          (vertex_negotiator_record.default V d)).num_in_edges =
        (umap_get m0 vid (vertex_negotiator_record.default V d)).num_in_edges ∧
      (umap_get (l.foldl (vdata_rec u) m0) vid
          (vertex_negotiator_record.default V d)).num_out_edges =
        (umap_get m0 vid (vertex_negotiator_record.default V d)).num_out_edges ∧
      (umap_get (l.foldl (vdata_rec u) m0) vid (vertex_negotiator_record.default V d)).owner =
        (umap_get m0 vid (vertex_negotiator_record.default V d)).owner ∧
      (umap_get (l.foldl (vdata_rec u) m0) vid (vertex_negotiator_record.default V d)).mirrors =
        (umap_get m0 vid (vertex_negotiator_record.default V d)).mirrors := by
  obtain ⟨_, _, _, hv, _, hkeys⟩ := populate_vrec_map_spec u vertex_buffers vid d
  rw [last_vdata_eq_last_payload] at hv
  refine ⟨hv, ?_, ?_, ?_⟩
  · intro hex
    obtain ⟨x, hx1, hx2, hx3⟩ := last_payload_isSome _ vid hex
    have e : (umap_get (populate_vrec_map u vertex_buffers) vid
        (vertex_negotiator_record.default V d)).vdata = x.vdata := by
      rw [hv, hx1]
      rfl
    refine ⟨x, hx1, hx2, hx3, e, ?_⟩
    rw [accumulate_mirrors_eq_foldl,
      (foldl_accumulate_rec_spec u (tagged_records N proc2vids)
        (populate_vrec_map u vertex_buffers) vid d).2.2.2.2.2.1 ((hkeys vid).2 hex), e]
  · rintro hno ⟨p, hp, r, hr, hrv⟩
    rw [accumulate_mirrors_eq_foldl]
    have hkey : vid ∈ ((tagged_records N proc2vids).foldl
        (fun m pr => accumulate_rec u pr.1 m pr.2)
        (populate_vrec_map u vertex_buffers)).map Prod.fst := by
      rw [(foldl_accumulate_rec_spec u (tagged_records N proc2vids)
        (populate_vrec_map u vertex_buffers) vid d).2.2.2.2.2.2.2.2.2 vid]
      exact Or.inr ⟨(p, r), (tagged_records_mem N proc2vids p r).2 ⟨hp, hr⟩, hrv⟩
    refine ⟨hkey, ?_⟩
    apply foldl_accumulate_rec_uninit u _ _ vid d _ hkey
    rw [hkeys vid]
    rintro ⟨x, hx, hxv⟩
    exact hno x hx hxv
  · intro l m0
    obtain ⟨h1, h2, h3, h4, h5, _⟩ := foldl_vdata_rec_spec u l m0 vid d
    exact ⟨h4, h1, h2, h5, h3⟩

/-- C17. The claim evaluated where it fails. A negotiator drains the payloads
`(7, 1), (9, 5), (7, 2)` and accumulates the shuffle record `(4, 1, 0)` of process 0,
with `vdata` a number and fresh memory that holds 7 plus the number of entries already
in `vrec_map`. For the GVID 7 the last payload wins (`vdata = 2`), and the drain
leaves the other fields of an entry alone. The GVID 4 has no payload and one shuffle
record: its `vdata` is 9, what the memory held, and not the default-constructed 0;
and in the run of one process over the edge `4 -> 5` with memory that holds 7, the
vertex data stored for the GVID 4 is 7. -/
theorem last_write_wins_uninitialised :
    (umap_get (populate_vrec_map (fun m _ => 7 + m.length)
        [[(⟨7, 1⟩ : vertex_buffer_record Nat), ⟨9, 5⟩], [⟨7, 2⟩]]) 7
        (vertex_negotiator_record.default Nat 0)).vdata = 2 ∧
    (umap_get (accumulate_mirrors (fun m _ => 7 + m.length) 2 [[⟨4, 1, 0⟩], []]
        (populate_vrec_map (fun m _ => 7 + m.length)
          [[(⟨7, 1⟩ : vertex_buffer_record Nat), ⟨9, 5⟩], [⟨7, 2⟩]])) 4
        (vertex_negotiator_record.default Nat 0)).vdata = 9 ∧
    (Inhabited.default : Nat) = 0 ∧
    (finalize ((ingress_env.fifo Nat Nat triangle_hash).with_uninit (fun _ _ _ => 7)) 1
        [ingress_call.add_edge 0 4 5 0]).map (fun gs => stored_vdata_at gs 0 4) =
      some (some 7) := by
  decide

theorem last_write_wins_witness :
    (∃ x ∈ ([[(⟨7, 1⟩ : vertex_buffer_record Nat), ⟨9, 5⟩], [⟨7, 2⟩]] :
        List (List (vertex_buffer_record Nat))).flatten, x.vid = 7) ∧
    ∃ x, last_payload ([[(⟨7, 1⟩ : vertex_buffer_record Nat), ⟨9, 5⟩], [⟨7, 2⟩]] :
        List (List (vertex_buffer_record Nat))).flatten 7 = some x ∧
      x ∈ ([[(⟨7, 1⟩ : vertex_buffer_record Nat), ⟨9, 5⟩], [⟨7, 2⟩]] :
        List (List (vertex_buffer_record Nat))).flatten ∧
      x.vid = 7 ∧
      (umap_get (populate_vrec_map (fun m _ => 7 + m.length)
          [[(⟨7, 1⟩ : vertex_buffer_record Nat), ⟨9, 5⟩], [⟨7, 2⟩]]) 7
        (vertex_negotiator_record.default Nat 0)).vdata = x.vdata ∧
      (umap_get (accumulate_mirrors (fun m _ => 7 + m.length) 2 [[⟨4, 1, 0⟩], []]
          (populate_vrec_map (fun m _ => 7 + m.length)
            [[(⟨7, 1⟩ : vertex_buffer_record Nat), ⟨9, 5⟩], [⟨7, 2⟩]])) 7
        (vertex_negotiator_record.default Nat 0)).vdata = x.vdata :=
  ⟨⟨⟨7, 1⟩, by simp, rfl⟩,
    (last_write_wins (fun m _ => 7 + m.length)
      [[(⟨7, 1⟩ : vertex_buffer_record Nat), ⟨9, 5⟩], [⟨7, 2⟩]] 2
      [[⟨4, 1, 0⟩], []] 7 0).2.1 ⟨⟨7, 1⟩, by simp, rfl⟩⟩

theorem foldl_senders_eq_foldl {V : Type}
    (u : List (Nat × vertex_negotiator_record V) → Nat → V) (procs : List Nat)
    (proc2vids : List (List shuffle_record))
    (m0 : List (Nat × vertex_negotiator_record V)) :
    procs.foldl (fun m proc => (proc2vids.getD proc []).foldl (accumulate_rec u proc) m) m0 =
      (procs.flatMap (fun proc => (proc2vids.getD proc []).map (fun r => (proc, r)))).foldl
        (fun m pr => accumulate_rec u pr.1 m pr.2) m0 := by
  induction procs generalizing m0 with
  | nil => rfl
  | cons p t ih =>
    simp only [List.foldl_cons, List.flatMap_cons, List.foldl_append]
    rw [ih]
    congr 1
    generalize proc2vids.getD p [] = l
    induction l generalizing m0 with
    | nil => rfl
    | cons a u2 ih2 => simp only [List.foldl_cons, List.map_cons]; rw [ih2]

theorem degree_sum_perm (f : shuffle_record → Nat) {l l2 : List shuffle_record}
    (h : l.Perm l2) (v : Nat) : degree_sum f l v = degree_sum f l2 v := by
  unfold degree_sum
  exact ((h.filter _).map f).sum_eq

/-- The accumulation of two reorderings of the same tagged shuffle records, from a
`vrec_map` whose degree fields are in range, gives maps that agree on everything that
the code initialises; the `vdata` agrees under the keys that the map had before. -/
theorem foldl_accumulate_rec_perm {V : Type}
    (u : List (Nat × vertex_negotiator_record V) → Nat → V)
    {l l2 : List (Nat × shuffle_record)}
    (hp : l.Perm l2) (m0 : List (Nat × vertex_negotiator_record V))
    (hin : ∀ k d, (umap_get m0 k (vertex_negotiator_record.default V d)).num_in_edges < VID_MOD)
    (hout : ∀ k d,
      (umap_get m0 k (vertex_negotiator_record.default V d)).num_out_edges < VID_MOD) :
    same_vrec_map_initialised (m0.map Prod.fst)
      (l.foldl (fun m pr => accumulate_rec u pr.1 m pr.2) m0)
      (l2.foldl (fun m pr => accumulate_rec u pr.1 m pr.2) m0) := by
  constructor
  · intro k
    rw [(foldl_accumulate_rec_spec u l m0 k (u [] 0)).2.2.2.2.2.2.2.2.2 k,
      (foldl_accumulate_rec_spec u l2 m0 k (u [] 0)).2.2.2.2.2.2.2.2.2 k]
    constructor
    · rintro (h | ⟨pr, hpr, hk⟩)
      · exact Or.inl h
      · exact Or.inr ⟨pr, hp.mem_iff.1 hpr, hk⟩
    · rintro (h | ⟨pr, hpr, hk⟩)
      · exact Or.inl h
      · exact Or.inr ⟨pr, hp.mem_iff.2 hpr, hk⟩
  · intro k d
    obtain ⟨a1, a2, a3, a4, a5, a6, a7, a8, _⟩ := foldl_accumulate_rec_spec u l m0 k d
    obtain ⟨b1, b2, b3, b4, b5, b6, b7, b8, _⟩ := foldl_accumulate_rec_spec u l2 m0 k d
    refine ⟨?_, ?_, ?_, ?_, ?_, ?_⟩
    · rw [a7, b7]
    · rw [← Nat.mod_eq_of_lt (a3 (hin k d)), ← Nat.mod_eq_of_lt (b3 (hin k d)), a1, b1,
        degree_sum_perm _ (hp.map Prod.snd)]
    · rw [← Nat.mod_eq_of_lt (a4 (hout k d)), ← Nat.mod_eq_of_lt (b4 (hout k d)), a2, b2,
        degree_sum_perm _ (hp.map Prod.snd)]
    · rw [a8, b8]
    · ext p
      rw [a5 p, b5 p]
      constructor
      · rintro (h | ⟨pr, hpr, hk⟩)
        · exact Or.inl h
        · exact Or.inr ⟨pr, hp.mem_iff.1 hpr, hk⟩
      · rintro (h | ⟨pr, hpr, hk⟩)
        · exact Or.inl h
        · exact Or.inr ⟨pr, hp.mem_iff.2 hpr, hk⟩
    · intro hk
      rw [a6 hk, b6 hk]

/-- Order independence of the accumulation, for any content `u` of uninitialised
memory. Take the received shuffle-record lists `proc2vids` and any drained vertex
payloads. If each sender's list is permuted (`proc2vids2`) and the senders are
processed in any order `procs`, the accumulation gives a `vrec_map` that agrees with
the one of the loop of the source on everything that the code initialises: the same
key set, under every key the same `num_in_edges`, `num_out_edges`, `mirrors`, `vid`
and `owner`, and the same `vdata` under every key for which a payload was drained. -/
theorem accumulation_order_independent {V : Type}
    (u : List (Nat × vertex_negotiator_record V) → Nat → V) (N : Nat)
    (proc2vids proc2vids2 : List (List shuffle_record))
    (vertex_buffers : List (List (vertex_buffer_record V))) (procs : List Nat)
    (hwithin : ∀ p, p < N → (proc2vids2.getD p []).Perm (proc2vids.getD p []))
    (hprocs : procs.Perm (List.range N)) :
    same_vrec_map_initialised (vertex_buffers.flatten.map (fun x => x.vid))
      (procs.foldl (fun m proc => (proc2vids2.getD proc []).foldl (accumulate_rec u proc) m)
        (populate_vrec_map u vertex_buffers))
      (accumulate_mirrors u N proc2vids (populate_vrec_map u vertex_buffers)) := by
  rw [foldl_senders_eq_foldl, accumulate_mirrors_eq_foldl]
  have h := foldl_accumulate_rec_perm u
    (l := procs.flatMap (fun proc => (proc2vids2.getD proc []).map (fun r => (proc, r))))
    (show _ from (List.Perm.flatMap_right _ hprocs).trans (List.Perm.flatMap_left _ (by
      intro p hp
      exact (hwithin p (List.mem_range.1 hp)).map _)))
    (populate_vrec_map u vertex_buffers)
    (by
      intro k d
      rw [(populate_vrec_map_spec u vertex_buffers k d).1]
      unfold VID_MOD
      omega)
    (by
      intro k d
      rw [(populate_vrec_map_spec u vertex_buffers k d).2.1]
      unfold VID_MOD
      omega)
  refine ⟨h.1, ?_⟩
  intro k d
  obtain ⟨h1, h2, h3, h4, h5, h6⟩ := h.2 k d
  refine ⟨h1, h2, h3, h4, h5, ?_⟩
  intro hk
  apply h6
  rw [(populate_vrec_map_spec u vertex_buffers k d).2.2.2.2.2 k]
  obtain ⟨x, hx, hxk⟩ := List.mem_map.1 hk
  exact ⟨x, hx, hxk⟩

theorem accumulation_order_independent_witness :
    (∀ p, p < 2 → (([[⟨6, 0, 1⟩, ⟨4, 1, 2⟩], [⟨4, 3, 0⟩]] : List (List shuffle_record)).getD p
      []).Perm (([[⟨4, 1, 2⟩, ⟨6, 0, 1⟩], [⟨4, 3, 0⟩]] : List (List shuffle_record)).getD p [])) ∧
    ([1, 0] : List Nat).Perm (List.range 2) ∧
    same_vrec_map_initialised
      (([[(⟨6, 9⟩ : vertex_buffer_record Nat)]] :
        List (List (vertex_buffer_record Nat))).flatten.map (fun x => x.vid))
      (([1, 0] : List Nat).foldl (fun m proc =>
          (([[⟨6, 0, 1⟩, ⟨4, 1, 2⟩], [⟨4, 3, 0⟩]] : List (List shuffle_record)).getD proc
            []).foldl (accumulate_rec (fun m _ => 7 + m.length) proc) m)
        (populate_vrec_map (fun m _ => 7 + m.length) [[(⟨6, 9⟩ : vertex_buffer_record Nat)]]))
      (accumulate_mirrors (fun m _ => 7 + m.length) 2 [[⟨4, 1, 2⟩, ⟨6, 0, 1⟩], [⟨4, 3, 0⟩]]
        (populate_vrec_map (fun m _ => 7 + m.length)
          [[(⟨6, 9⟩ : vertex_buffer_record Nat)]])) :=
  have hw : ∀ p, p < 2 → (([[⟨6, 0, 1⟩, ⟨4, 1, 2⟩], [⟨4, 3, 0⟩]] :
      List (List shuffle_record)).getD p []).Perm
      (([[⟨4, 1, 2⟩, ⟨6, 0, 1⟩], [⟨4, 3, 0⟩]] : List (List shuffle_record)).getD p []) := by
    intro p hp
    rcases Nat.lt_succ_iff_lt_or_eq.1 hp with h | h
    · have : p = 0 := by omega
      subst this
      exact List.Perm.swap _ _ _
    · subst h
      exact List.Perm.refl _
  have hr : ([1, 0] : List Nat).Perm (List.range 2) := List.Perm.swap _ _ _
  ⟨hw, hr, accumulation_order_independent _ 2 _ _ _ _ hw hr⟩

/-- C16. The claim evaluated where it fails. A negotiator that drained no payload
receives the shuffle record `(4, 1, 0)` from process 0 and `(6, 0, 1)` from process 1,
with `vdata` a number and fresh memory that holds the number of entries already in
`vrec_map`. Processing the senders in the order 0, 1 (the loop of the source) and in
the order 1, 0 gives the same keys, degrees and mirror sets, but the `vdata` of the
GVID 4 is 0 in the first map and 1 in the second (and the other way round for the
GVID 6): the two maps are not the same. -/
theorem accumulation_order_uninitialised :
    (umap_get (accumulate_mirrors (fun m _ => m.length) 2 [[⟨4, 1, 0⟩], [⟨6, 0, 1⟩]]
        (populate_vrec_map (fun m _ => m.length) ([] : List (List (vertex_buffer_record Nat)))))
        4 (vertex_negotiator_record.default Nat 0)).vdata = 0 ∧
    (umap_get (([1, 0] : List Nat).foldl (fun m proc =>
          (([[⟨4, 1, 0⟩], [⟨6, 0, 1⟩]] : List (List shuffle_record)).getD proc []).foldl
            (accumulate_rec (fun m _ => m.length) proc) m)
        (populate_vrec_map (fun m _ => m.length) ([] : List (List (vertex_buffer_record Nat)))))
        4 (vertex_negotiator_record.default Nat 0)).vdata = 1 ∧
    ([1, 0] : List Nat).Perm (List.range 2) ∧
    ¬ same_vrec_map
      (([1, 0] : List Nat).foldl (fun m proc =>
          (([[⟨4, 1, 0⟩], [⟨6, 0, 1⟩]] : List (List shuffle_record)).getD proc []).foldl
            (accumulate_rec (fun m _ => m.length) proc) m)
        (populate_vrec_map (fun m _ => m.length) ([] : List (List (vertex_buffer_record Nat)))))
      (accumulate_mirrors (fun m _ => m.length) 2 [[⟨4, 1, 0⟩], [⟨6, 0, 1⟩]]
        (populate_vrec_map (fun m _ => m.length)
          ([] : List (List (vertex_buffer_record Nat))))) := by
  refine ⟨by decide, by decide, List.Perm.swap _ _ _, ?_⟩
  intro h
  have h4 := congrArg (fun r => r.vdata) (h.2 4 0)
  revert h4
  decide

/-! ## Phase 4: edge statistics (C14) -/

theorem sum_take_succ (e : List Nat) (q : Nat) :
    (e.take (q + 1)).sum = (e.take q).sum + e.getD q 0 := by
  rw [List.take_succ, List.sum_append, List.getD_eq_getElem?_getD]
  rcases e[q]? with _ | x <;> simp

theorem sum_take_mono (e : List Nat) {q q2 : Nat} (h : q ≤ q2) :
    (e.take q).sum ≤ (e.take q2).sum := by
  induction h with
  | refl => exact Nat.le_refl _
  | step _ ih => rw [sum_take_succ]; omega

theorem sum_take_interval_exists (e : List Nat) (x : Nat) (hx : x < e.sum) :
    ∃ q, q < e.length ∧ (e.take q).sum ≤ x ∧ x < (e.take q).sum + e.getD q 0 := by
  induction e generalizing x with
  | nil => simp at hx
  | cons a t ih =>
    by_cases hxa : x < a
    · exact ⟨0, by simp, by simp, by simpa using hxa⟩
    · rw [List.sum_cons] at hx
      obtain ⟨q, hq, h1, h2⟩ := ih (x - a) (by omega)
      refine ⟨q + 1, by simp; omega, ?_, ?_⟩
      · rw [List.take_succ_cons, List.sum_cons]; omega
      · rw [List.take_succ_cons, List.sum_cons]
        simp only [List.getD_cons_succ]
        omega

/-- C14. After the `all2all` of the local edge counts `e[0 .. N)`, every process
computes `nedges = e[0] + ... + e[N-1]` and process `q` computes
`begin_eid = e[0] + ... + e[q-1]` (0 for `q = 0`); the next process begins where `q`
ends, the last one ends at `nedges`, and every edge id below `nedges` lies in the
interval `[begin_eid(q), begin_eid(q) + e[q])` of exactly one process. -/
theorem phase4_edge_statistics {V E : Type} (N : Nat) (gs : List (distributed_graph V E))
    (hlen : gs.length = N) :
    (cluster_phase4 N gs).length = N ∧
    (∀ q, q < N → ∃ g0 g, gs[q]? = some g0 ∧ (cluster_phase4 N gs)[q]? = some g ∧
      all2all 0 (gs.map (fun x => List.replicate N x.num_local_edges)) q =
        gs.map (fun x => x.num_local_edges) ∧
      g.num_local_edges = g0.num_local_edges ∧
      g.nedges = (gs.map (fun x => x.num_local_edges)).sum ∧
      g.begin_eid = ((gs.map (fun x => x.num_local_edges)).take q).sum ∧
      g.begin_eid + g.num_local_edges =
        ((gs.map (fun x => x.num_local_edges)).take (q + 1)).sum) ∧
    ((gs.map (fun x => x.num_local_edges)).take 0).sum = 0 ∧
    ((gs.map (fun x => x.num_local_edges)).take N).sum =
      (gs.map (fun x => x.num_local_edges)).sum ∧
    ∀ x, x < (gs.map (fun x => x.num_local_edges)).sum →
      ∃ q g, q < N ∧ (cluster_phase4 N gs)[q]? = some g ∧
        g.begin_eid ≤ x ∧ x < g.begin_eid + g.num_local_edges ∧
        ∀ q2 g2, (cluster_phase4 N gs)[q2]? = some g2 →
          g2.begin_eid ≤ x → x < g2.begin_eid + g2.num_local_edges → q2 = q := by
  have hq4 : ∀ q, q < N → ∃ g0, gs[q]? = some g0 ∧
      (cluster_phase4 N gs)[q]? = some (finalize_phase4 q g0
        (gs.map (fun x => x.num_local_edges)) (gs.map (fun x => x.num_local_own_vertices))
        (gs.map (fun x => x.num_local_vertices))) := by
    intro q hq
    have hq2 : q < gs.length := by omega
    refine ⟨gs[q], List.getElem?_eq_getElem hq2, ?_⟩
    unfold cluster_phase4
    rw [List.getElem?_map, List.getElem?_range hq]
    simp only [Option.map_some']
    rw [all2all_replicate N gs _ q hq, all2all_replicate N gs _ q hq,
      all2all_replicate N gs _ q hq, getD_of_getElem? _ (List.getElem?_eq_getElem hq2)]
  have hfields : ∀ q, q < N → ∃ g0 g, gs[q]? = some g0 ∧ (cluster_phase4 N gs)[q]? = some g ∧
      g.num_local_edges = g0.num_local_edges ∧
      g.nedges = (gs.map (fun x => x.num_local_edges)).sum ∧
      g.begin_eid = ((gs.map (fun x => x.num_local_edges)).take q).sum ∧
      g0.num_local_edges = (gs.map (fun x => x.num_local_edges)).getD q 0 := by
    intro q hq
    obtain ⟨g0, hg0, hg⟩ := hq4 q hq
    refine ⟨g0, _, hg0, hg, rfl, ?_, ?_, ?_⟩
    · show List.foldl _ 0 _ = _
      rw [foldl_add_eq_sum, Nat.zero_add]
    · show List.foldl _ 0 _ = _
      rw [foldl_getD_eq_sum_take _ q (by simp; omega)]
    · rw [List.getD_eq_getElem?_getD, List.getElem?_map, hg0]
      rfl
  have hlen4 : (cluster_phase4 N gs).length = N := by
    unfold cluster_phase4; simp
  refine ⟨hlen4, ?_, rfl, ?_, ?_⟩
  · intro q hq
    obtain ⟨g0, g, hg0, hg, h1, h2, h3, h4⟩ := hfields q hq
    refine ⟨g0, g, hg0, hg, all2all_replicate N gs _ q hq, h1, h2, h3, ?_⟩
    rw [sum_take_succ, h3, h1, h4]
  · rw [List.take_of_length_le (by simp; omega)]
  · intro x hx
    obtain ⟨q, hq, hx1, hx2⟩ := sum_take_interval_exists _ x hx
    rw [List.length_map, hlen] at hq
    obtain ⟨g0, g, hg0, hg, h1, _, h3, h4⟩ := hfields q hq
    refine ⟨q, g, hq, hg, by rw [h3]; exact hx1, by rw [h3, h1, h4]; exact hx2, ?_⟩
    intro q2 g2 hg2 hb1 hb2
    have hq2 : q2 < N := by
      rcases Nat.lt_or_ge q2 (cluster_phase4 N gs).length with h | h
      · omega
      · rw [List.getElem?_eq_none h] at hg2; cases hg2
    obtain ⟨g02, g2b, _, hg2b, k1, _, k3, k4⟩ := hfields q2 hq2
    rw [hg2] at hg2b
    have e : g2 = g2b := Option.some.inj hg2b
    subst e
    rw [k3] at hb1 hb2
    rw [k1, k4] at hb2
    rcases Nat.lt_trichotomy q2 q with h | h | h
    · have := sum_take_mono (gs.map (fun x => x.num_local_edges)) (Nat.succ_le_of_lt h)
      rw [sum_take_succ] at this
      omega
    · exact h
    · have := sum_take_mono (gs.map (fun x => x.num_local_edges)) (Nat.succ_le_of_lt h)
      rw [sum_take_succ] at this
      omega

theorem phase4_edge_statistics_witness :
    [graph_with_edges 2, graph_with_edges 0, graph_with_edges 3].length = 3 ∧
    (cluster_phase4 3 [graph_with_edges 2, graph_with_edges 0, graph_with_edges 3]).length = 3 ∧
    ∀ x, x < ([graph_with_edges 2, graph_with_edges 0, graph_with_edges 3].map
        (fun x => x.num_local_edges)).sum →
      ∃ q g, q < 3 ∧
        (cluster_phase4 3 [graph_with_edges 2, graph_with_edges 0, graph_with_edges 3])[q]? =
          some g ∧
        g.begin_eid ≤ x ∧ x < g.begin_eid + g.num_local_edges ∧
        ∀ q2 g2,
          (cluster_phase4 3 [graph_with_edges 2, graph_with_edges 0, graph_with_edges 3])[q2]? =
            some g2 →
          g2.begin_eid ≤ x → x < g2.begin_eid + g2.num_local_edges → q2 = q :=
  ⟨rfl,
   (phase4_edge_statistics 3 [graph_with_edges 2, graph_with_edges 0, graph_with_edges 3] rfl).1,
   (phase4_edge_statistics 3 [graph_with_edges 2, graph_with_edges 0, graph_with_edges 3]
      rfl).2.2.2.2⟩

/-- Phase 4 evaluated on local edge counts 2, 0, 3: `nedges = 5` everywhere and
`begin_eid` is 0, 2, 2. -/
theorem phase4_scenario :
    (cluster_phase4 3 [graph_with_edges 2, graph_with_edges 0, graph_with_edges 3]).map
      (fun g => (g.begin_eid, g.nedges)) = [(0, 5), (2, 5), (2, 5)] := by
  decide

/-! ## Round-robin assignment under equal mirror sets (C18) -/

theorem mirror_type.bits_length (m : mirror_type) :
    (mirror_type.bits m).length = mirror_type.popcount m := by
  unfold mirror_type.popcount
  rw [← List.toFinset_card_of_nodup (mirror_type.bits_nodup m)]
  congr 1
  ext p
  rw [List.mem_toFinset, mirror_type.mem_bits]

theorem mirror_type.bits_lt (m : mirror_type) {i j : Nat} (hij : i < j)
    (hj : j < (mirror_type.bits m).length) :
    (mirror_type.bits m).getD i 0 < (mirror_type.bits m).getD j 0 := by
  have hs : List.Pairwise (fun a b => a < b) (mirror_type.bits m) := by
    unfold mirror_type.bits
    exact (List.pairwise_lt_range _).filter _
  have hi : i < (mirror_type.bits m).length := by omega
  rw [List.getD_eq_getElem _ _ hi, List.getD_eq_getElem _ _ hj]
  exact List.pairwise_iff_getElem.1 hs i j hi hj hij

theorem mirror_type.bits_getD_mem (m : mirror_type) {j : Nat}
    (hj : j < (mirror_type.bits m).length) : (mirror_type.bits m).getD j 0 ∈ m := by
  rw [List.getD_eq_getElem _ _ hj, ← mirror_type.mem_bits]
  exact List.getElem_mem _

theorem mirror_type.mem_iff_getD (m : mirror_type) (p : Nat) :
    p ∈ m ↔ ∃ j, j < (mirror_type.bits m).length ∧ (mirror_type.bits m).getD j 0 = p := by
  rw [← mirror_type.mem_bits]
  constructor
  · intro h
    obtain ⟨j, hj, e⟩ := List.getElem_of_mem h
    exact ⟨j, hj, by rw [List.getD_eq_getElem _ _ hj, e]⟩
  · rintro ⟨j, hj, rfl⟩
    rw [List.getD_eq_getElem _ _ hj]
    exact List.getElem_mem _

theorem counts_at_set (counts : List Nat) (i x i2 : Nat) :
    counts_at (counts.set i x) i2 =
      if i = i2 ∧ i < counts.length then x else counts_at counts i2 := by
  unfold counts_at
  rw [List.getD_eq_getElem?_getD, List.getD_eq_getElem?_getD, List.getElem?_set]
  by_cases h : i = i2
  · subst h
    by_cases hl : i < counts.length
    · simp [hl]
    · simp [hl, List.getElem?_eq_none (Nat.le_of_not_lt hl)]
  · simp [h]

/-- One step of the assignment loop in a round-robin state: the owner is the `k`-th
smallest mirror, and the state advances. -/
theorem round_robin_step {V : Type} (N : Nat) (M : mirror_type) (d k : Nat) (counts : List Nat)
    (vid : Nat) (r : vertex_negotiator_record V) (hr : r.mirrors = M)
    (hbound : ∀ p ∈ M, p < N)
    (hst : round_robin_state N (mirror_type.bits M) d k counts) :
    ∃ c1 r1, assign_step N counts vid r = some (c1, r1) ∧
      r1.owner = (mirror_type.bits M).getD k 0 ∧
      round_robin_state N (mirror_type.bits M)
        (if k + 1 < (mirror_type.bits M).length then d else d + 1)
        (if k + 1 < (mirror_type.bits M).length then k + 1 else 0) c1 := by
  obtain ⟨hlen, hk, hc⟩ := hst
  have hpop : 0 < mirror_type.popcount r.mirrors := by
    rw [hr, ← mirror_type.bits_length]; omega
  obtain ⟨f, hf, hstep⟩ := assign_step_pos N counts vid r hpop
  obtain ⟨_, hmem, hmin⟩ := best_asg_spec counts r.mirrors f (mirror_type.first_bit_mem _ _ hf)
  rw [hr] at hmem hmin hstep
  -- the owner is the k-th smallest mirror
  obtain ⟨j0, hj0, ej0⟩ := (mirror_type.mem_iff_getD M _).1 hmem
  have hkm := mirror_type.bits_getD_mem M hk
  have hle := hmin _ hkm
  rw [← ej0, hc j0 hj0, hc k hk] at hle
  unfold lex_le at hle
  simp only [lt_self_iff_false, if_false, Nat.add_zero] at hle
  have hj0k : j0 = k := by
    rcases Nat.lt_trichotomy j0 k with h | h | h
    · rw [if_pos h] at hle; omega
    · exact h
    · have := mirror_type.bits_lt M h hj0
      rw [if_neg (by omega)] at hle
      omega
  subst hj0k
  refine ⟨_, _, hstep, ej0.symm, ?_, ?_, ?_⟩
  · simp [hlen]
  · split <;> omega
  · intro j hj
    rw [← ej0, counts_at_set, hc j0 hj0]
    simp only [lt_self_iff_false, if_false, Nat.add_zero]
    have hown : (mirror_type.bits M).getD j0 0 < counts.length := by
      rw [hlen]; exact hbound _ hkm
    by_cases hjk : j = j0
    · subst hjk
      rw [if_pos ⟨rfl, hown⟩]
      split_ifs <;> omega
    · have hne : (mirror_type.bits M).getD j0 0 ≠ (mirror_type.bits M).getD j 0 := by
        rcases Nat.lt_or_gt_of_ne hjk with h | h
        · have := mirror_type.bits_lt M h hj0; omega
        · have := mirror_type.bits_lt M h hj; omega
      rw [if_neg (fun h => hne h.1), hc j hj]
      split_ifs <;> omega

theorem round_robin_next_index (m k i : Nat) (hk : k < m) :
    ((if k + 1 < m then k + 1 else 0) + i) % m = (k + (i + 1)) % m := by
  split
  · congr 1; omega
  · have : k + 1 = m := by omega
    have e : k + (i + 1) = i + m := by omega
    rw [e, Nat.add_mod_right, Nat.zero_add]

/-- The assignment loop from a round-robin state: the `i`-th record goes to the
`(k + i) mod m`-th smallest mirror, and the loop ends in a round-robin state. -/
theorem round_robin_loop {V : Type} (N : Nat) (M : mirror_type)
    (hbound : ∀ p ∈ M, p < N) (entries : List (Nat × vertex_negotiator_record V)) :
    ∀ (d k : Nat) (counts : List Nat), (∀ e ∈ entries, e.2.mirrors = M) →
      round_robin_state N (mirror_type.bits M) d k counts →
      (∀ i, i < entries.length →
        ((loop_records N counts entries)[i]?).map (fun r => r.owner) =
          (mirror_type.bits M)[(k + i) % (mirror_type.bits M).length]?) ∧
      ∃ c sends d1 k1, assign_loop N counts entries = some (c, sends) ∧
        round_robin_state N (mirror_type.bits M) d1 k1 c := by
  induction entries with
  | nil =>
    intro d k counts _ hst
    exact ⟨fun i hi => by simp at hi, counts, [], d, k, rfl, hst⟩
  | cons e t ih =>
    intro d k counts hsame hst
    obtain ⟨c1, r1, hstep, hown, hst1⟩ :=
      round_robin_step N M d k counts e.1 e.2 (hsame e (List.mem_cons_self _ _)) hbound hst
    obtain ⟨ih1, c, sends, d1, k1, hloop, hst2⟩ :=
      ih _ _ c1 (fun x hx => hsame x (List.mem_cons_of_mem _ hx)) hst1
    have hk := hst.2.1
    constructor
    · intro i hi
      unfold loop_records
      simp only [hstep]
      cases i with
      | zero =>
        simp only [List.getElem?_cons_zero, Option.map_some', Nat.add_zero]
        rw [Nat.mod_eq_of_lt hk, hown, List.getD_eq_getElem?_getD,
          List.getElem?_eq_getElem hk]
        rfl
      | succ i =>
        simp only [List.getElem?_cons_succ]
        rw [ih1 i (by simpa using hi), round_robin_next_index _ k i hk]
    · refine ⟨c, notify r1 ++ sends, d1, k1, ?_, hst2⟩
      unfold assign_loop
      simp only [hstep, hloop]

theorem round_robin_state_balanced (N : Nat) (M : mirror_type) (d k : Nat) (counts : List Nat)
    (hst : round_robin_state N (mirror_type.bits M) d k counts) :
    ∀ p ∈ M, ∀ p2 ∈ M, counts_at counts p ≤ counts_at counts p2 + 1 := by
  intro p hp p2 hp2
  obtain ⟨j, hj, rfl⟩ := (mirror_type.mem_iff_getD M p).1 hp
  obtain ⟨j2, hj2, rfl⟩ := (mirror_type.mem_iff_getD M p2).1 hp2
  rw [hst.2.2 j hj, hst.2.2 j2 hj2]
  split <;> split <;> omega

/-- C18. On one negotiator whose load vector starts at zero, if every entry has the
same non-empty mirror set `M` of `m` PIDs below `N`, then the `i`-th entry processed is
assigned the `(i mod m)`-th smallest PID of `M`, and after every number of processed
entries the loads of any two members of `M` differ by at most 1. -/
theorem round_robin_assignment {V : Type} (N : Nat) (M : mirror_type)
    (entries : List (Nat × vertex_negotiator_record V))
    (hM : 0 < mirror_type.popcount M) (hbound : ∀ p ∈ M, p < N)
    (hsame : ∀ e ∈ entries, e.2.mirrors = M) :
    (mirror_type.bits M).length = mirror_type.popcount M ∧
    List.Pairwise (fun a b => a < b) (mirror_type.bits M) ∧
    (∃ c, assign_owners N entries =
      some (c, (loop_records N (List.replicate N 0) entries).flatMap notify)) ∧
    (∀ i, i < entries.length →
      ((loop_records N (List.replicate N 0) entries)[i]?).map (fun r => r.owner) =
        (mirror_type.bits M)[i % mirror_type.popcount M]?) ∧
    ∀ i, i ≤ entries.length → ∃ c sends, assign_owners N (entries.take i) = some (c, sends) ∧
      ∀ p ∈ M, ∀ p2 ∈ M, counts_at c p ≤ counts_at c p2 + 1 := by
  have hlenB := mirror_type.bits_length M
  have hst0 : round_robin_state N (mirror_type.bits M) 0 0 (List.replicate N 0) := by
    refine ⟨by simp, by omega, ?_⟩
    intro j _
    unfold counts_at
    rw [List.getD_eq_getElem?_getD, List.getElem?_replicate]
    split <;> simp
  refine ⟨hlenB, ?_, (loop_records_spec N _ entries).1, ?_, ?_⟩
  · unfold mirror_type.bits
    exact (List.pairwise_lt_range _).filter _
  · intro i hi
    have := (round_robin_loop N M hbound entries 0 0 _ hsame hst0).1 i hi
    rw [Nat.zero_add, hlenB] at this
    exact this
  · intro i _
    obtain ⟨_, c, sends, d1, k1, hloop, hst1⟩ := round_robin_loop N M hbound (entries.take i) 0 0 _
      (fun e he => hsame e (List.mem_of_mem_take he)) hst0
    exact ⟨c, sends, hloop, round_robin_state_balanced N M d1 k1 c hst1⟩

theorem round_robin_assignment_witness :
    0 < mirror_type.popcount ({0, 1} : Finset Nat) ∧
    (∀ p ∈ ({0, 1} : Finset Nat), p < 2) ∧
    (∀ e ∈ ([(1, ⟨0, 1, 1, 0, {0, 1}, 0⟩), (2, ⟨0, 1, 1, 0, {0, 1}, 0⟩),
        (3, ⟨0, 1, 1, 0, {0, 1}, 0⟩)] : List (Nat × vertex_negotiator_record Nat)),
      e.2.mirrors = {0, 1}) ∧
    ∀ i, i < 3 →
      ((loop_records 2 (List.replicate 2 0)
        ([(1, ⟨0, 1, 1, 0, {0, 1}, 0⟩), (2, ⟨0, 1, 1, 0, {0, 1}, 0⟩),
          (3, ⟨0, 1, 1, 0, {0, 1}, 0⟩)] : List (Nat × vertex_negotiator_record Nat)))[i]?).map
        (fun r => r.owner) =
        (mirror_type.bits ({0, 1} : Finset Nat))[i % mirror_type.popcount ({0, 1} : Finset Nat)]? :=
  ⟨by decide, by decide, by decide,
    (round_robin_assignment 2 {0, 1}
      [(1, ⟨0, 1, 1, 0, {0, 1}, 0⟩), (2, ⟨0, 1, 1, 0, {0, 1}, 0⟩), (3, ⟨0, 1, 1, 0, {0, 1}, 0⟩)]
      (by decide) (by decide) (by decide)).2.2.2.1⟩

/-- Scenario S1 evaluated: three vids with mirrors `{0, 1}` processed by one load
vector get the owners 0, 1, 0. -/
theorem round_robin_scenario :
    (loop_records 2 (List.replicate 2 0)
      ([(1, ⟨0, 1, 1, 0, {0, 1}, 0⟩), (2, ⟨0, 1, 1, 0, {0, 1}, 0⟩),
        (3, ⟨0, 1, 1, 0, {0, 1}, 0⟩)] : List (Nat × vertex_negotiator_record Nat))).map
      (fun r => r.owner) = [0, 1, 0] := by
  decide

/-! ## The run, step by step -/

theorem all_some_eq_some {α : Type} {l : List (Option α)} {xs : List α}
    (h : all_some l = some xs) : l = xs.map some := by
  induction l generalizing xs with
  | nil =>
    unfold all_some at h
    cases h
    rfl
  | cons o t ih =>
    cases o with
    | none => unfold all_some at h; cases h
    | some a =>
      unfold all_some at h
      rcases ht : all_some t with _ | ys
      · rw [ht] at h; cases h
      · rw [ht] at h
        simp only [Option.map_some', Option.some.injEq] at h
        rw [← h, ih ht]
        rfl

theorem all_some_range_inv {α : Type} (f : Nat → Option α) (N : Nat) {xs : List α}
    (h : all_some ((List.range N).map f) = some xs) :
    xs.length = N ∧ ∀ q, q < N → ∃ x, xs[q]? = some x ∧ f q = some x := by
  have h2 := all_some_eq_some h
  have hlen : xs.length = N := by
    have := congrArg List.length h2
    simp at this
    exact this.symm
  refine ⟨hlen, ?_⟩
  intro q hq
  have hq2 : q < xs.length := by omega
  refine ⟨xs[q], List.getElem?_eq_getElem hq2, ?_⟩
  have := congrArg (fun l => l[q]?) h2
  simp only [List.getElem?_map, List.getElem?_range hq, Option.map_some',
    List.getElem?_eq_getElem hq2] at this
  exact Option.some.inj this

/-- A successful run, unfolded on process `q`: the final graph is the result of the
receiving loop on the Phase 1 graph, with the counts of Phases 3 and 4 filled in. -/
theorem finalize_unfold {V E : Type} [Inhabited V] (env : ingress_env V E) (N : Nat)
    (calls : List (ingress_call V E)) (g1 gs : List (distributed_graph V E))
    (asg : List (List Nat × List (Nat × vertex_negotiator_record V)))
    (h1 : cluster_phase1 env N calls = some g1)
    (h2 : cluster_assign env N calls g1 = some asg)
    (h3 : finalize env N calls = some gs) (q : Nat) (hq : q < N) :
    ∃ g0 gr g, g1[q]? = some g0 ∧
      recv_loop g0 (env.negotiator_recv q (inbox (asg.map Prod.snd).flatten q)).flatten
        = some gr ∧
      gs[q]? = some g ∧ g.vid2lvid = gr.vid2lvid ∧ g.lvid2record = gr.lvid2record ∧
      g.local_graph = gr.local_graph := by
  unfold finalize at h3
  rw [h1] at h3
  simp only at h3
  rw [h2] at h3
  simp only at h3
  rcases h4 : cluster_phase3 env N g1 (asg.map Prod.snd).flatten with _ | g3
  · rw [h4] at h3; cases h3
  · rw [h4] at h3
    have e : cluster_phase4 N g3 = gs := Option.some.inj h3
    unfold cluster_phase1 at h1
    obtain ⟨hlen1, _⟩ := all_some_range_inv _ N h1
    unfold cluster_phase3 at h4
    obtain ⟨hlen3, hq3⟩ := all_some_range_inv _ N h4
    obtain ⟨x3, hx3, hf3⟩ := hq3 q hq
    have hq1 : q < g1.length := by omega
    rw [getD_of_getElem? _ (List.getElem?_eq_getElem hq1)] at hf3
    unfold finalize_phase3 at hf3
    rcases hloop : recv_loop g1[q]
        (env.negotiator_recv q (inbox (asg.map Prod.snd).flatten q)).flatten with _ | gr
    · rw [hloop] at hf3; cases hf3
    · rw [hloop] at hf3
      simp only at hf3
      split at hf3
      · have e3 := Option.some.inj hf3
        have hg : gs[q]? = some (finalize_phase4 q (g3.getD q (distributed_graph.empty V E))
            (all2all 0 (g3.map (fun g => List.replicate N g.num_local_edges)) q)
            (all2all 0 (g3.map (fun g => List.replicate N g.num_local_own_vertices)) q)
            (all2all 0 (g3.map (fun g => List.replicate N g.num_local_vertices)) q)) := by
          rw [← e]
          unfold cluster_phase4
          rw [List.getElem?_map, List.getElem?_range hq]
          rfl
        refine ⟨g1[q], gr, _, List.getElem?_eq_getElem hq1, hloop, hg, ?_, ?_, ?_⟩
        · rw [getD_of_getElem? _ hx3, ← e3]; rfl
        · rw [getD_of_getElem? _ hx3, ← e3]; rfl
        · rw [getD_of_getElem? _ hx3, ← e3]; rfl
      · cases hf3

theorem recv_loop_append {V E : Type} [Inhabited V] (g : distributed_graph V E)
    (a b : List (vertex_negotiator_record V)) :
    recv_loop g (a ++ b) =
      match recv_loop g a with
      | none => none
      | some g1 => recv_loop g1 b := by
  induction a generalizing g with
  | nil => rfl
  | cons r t ih =>
    have e1 : recv_loop g (r :: t ++ b) =
        match recv_rec g r with
        | none => none
        | some g1 => recv_loop g1 (t ++ b) := rfl
    have e2 : recv_loop g (r :: t) =
        match recv_rec g r with
        | none => none
        | some g1 => recv_loop g1 t := rfl
    rw [e1, e2]
    rcases recv_rec g r with _ | g1
    · rfl
    · exact ih g1

theorem recv_rec_find_stable {V E : Type} [Inhabited V] {g g1 : distributed_graph V E}
    {r : vertex_negotiator_record V} (h : recv_rec g r = some g1) {k lv : Nat}
    (hk : umap_find g.vid2lvid k = some lv) : umap_find g1.vid2lvid k = some lv := by
  unfold recv_rec at h
  split at h
  · simp only [Option.map_eq_some'] at h
    obtain ⟨recs, _, e⟩ := h
    rw [← e]
    show umap_find (g.vid2lvid ++ _) k = some lv
    rw [umap_find_append, hk]
    rfl
  · split at h
    · simp only [Option.map_eq_some'] at h
      obtain ⟨recs, _, e⟩ := h
      rw [← e]
      exact hk
    · cases h

theorem recv_loop_find_stable {V E : Type} [Inhabited V]
    (l : List (vertex_negotiator_record V)) {g g1 : distributed_graph V E}
    (h : recv_loop g l = some g1) {k lv : Nat}
    (hk : umap_find g.vid2lvid k = some lv) : umap_find g1.vid2lvid k = some lv := by
  induction l generalizing g with
  | nil =>
    unfold recv_loop at h
    cases h
    exact hk
  | cons r t ih =>
    unfold recv_loop at h
    rcases hr : recv_rec g r with _ | g2
    · rw [hr] at h; cases h
    · rw [hr] at h
      exact ih h (recv_rec_find_stable hr hk)

/-- The receiving loop, stopped before any of its records `r`: the records `pre`
before it were processed without abort, the record of `r.vid` was not written yet, and
the step for `r` and the rest of the loop do not abort either. -/
theorem recv_trace {V E : Type} [Inhabited V] (g0 : distributed_graph V E)
    (hinv : recv_inv g0 [] g0) (pre post : List (vertex_negotiator_record V))
    (r : vertex_negotiator_record V)
    (hnd : ((pre ++ r :: post).map (fun x => x.vid)).Nodup)
    (hne : ∀ x ∈ pre ++ r :: post, mirror_type.bits x.mirrors ≠ []) :
    ∃ g_mid g_next g_fin, recv_loop g0 pre = some g_mid ∧ recv_inv g0 pre g_mid ∧
      r.vid ∉ pre.map (fun x => x.vid) ∧
      recv_rec g_mid r = some g_next ∧ recv_inv g0 (pre ++ [r]) g_next ∧
      recv_loop g_next post = some g_fin ∧ recv_loop g0 (pre ++ r :: post) = some g_fin ∧
      recv_inv g0 (pre ++ r :: post) g_fin := by
  have hnd1 : (pre.map (fun x => x.vid)).Nodup := by
    rw [List.map_append] at hnd
    exact (List.nodup_append.1 hnd).1
  have hr : r.vid ∉ pre.map (fun x => x.vid) := by
    rw [List.map_append, List.nodup_append] at hnd
    intro hmem
    exact hnd.2.2 hmem (by simp)
  obtain ⟨g_mid, hl1, hi1⟩ := recv_loop_spec g0 pre [] g0 hinv (by simpa using hnd1)
    (fun x hx => hne x (List.mem_append_left _ hx))
  rw [List.nil_append] at hi1
  obtain ⟨g_next, hl2, hi2⟩ := recv_rec_spec g0 g_mid pre r hi1 hr
    (hne r (List.mem_append_right _ (List.mem_cons_self _ _)))
  obtain ⟨g_fin, hl3, hi3⟩ := recv_loop_spec g0 post (pre ++ [r]) g_next hi2
    (by rw [List.append_assoc]; exact hnd)
    (fun x hx => hne x (List.mem_append_right _ (List.mem_cons_of_mem _ hx)))
  rw [List.append_assoc] at hi3
  refine ⟨g_mid, g_next, g_fin, hl1, hi1, hr, hl2, hi2, hl3, ?_, hi3⟩
  rw [recv_loop_append, hl1]
  have e2 : recv_loop g_mid (r :: post) =
      match recv_rec g_mid r with
      | none => none
      | some g1 => recv_loop g1 post := rfl
  simp only
  rw [e2, hl2]
  exact hl3

/-- A fair run with its receiving loops: next to `finalize_spec`, every process `q`
drains, without repetition of a GVID, exactly the sent records that list `q`, its
loop starts from the Phase 1 graph, and the final maps are those the loop leaves. -/
theorem finalize_trace_spec {V E : Type} [Inhabited V] (env : ingress_env V E)
    (hfair : env.fair) (N : Nat) (hN : 0 < N) (calls : List (ingress_call V E)) :
    ∃ g1 asg gs, cluster_phase1 env N calls = some g1 ∧
      cluster_assign env N calls g1 = some asg ∧
      (asg.map Prod.snd).flatten = (cluster_records env N calls g1).flatMap notify ∧
      finalize env N calls = some gs ∧ run_post env N calls g1 gs ∧
      ∀ q, q < N → ∃ g0 gr g, g1[q]? = some g0 ∧
        phase1_post g0 (received_edges env N calls q) ∧ recv_inv g0 [] g0 ∧
        ((received_records env asg q).map (fun r => r.vid)).Nodup ∧
        (∀ r, r ∈ received_records env asg q ↔
          r ∈ cluster_records env N calls g1 ∧ q ∈ r.mirrors) ∧
        recv_loop g0 (received_records env asg q) = some gr ∧
        recv_inv g0 (received_records env asg q) gr ∧
        gs[q]? = some g ∧ g.vid2lvid = gr.vid2lvid ∧ g.lvid2record = gr.lvid2record ∧
        g.local_graph = gr.local_graph := by
  obtain ⟨g1, asg, gs, hp1, ha1, hsend, hfin, hrun⟩ := finalize_spec env hfair N hN calls
  refine ⟨g1, asg, gs, hp1, ha1, hsend, hfin, hrun, ?_⟩
  intro q hq
  obtain ⟨g1b, hp1b, _, hq1⟩ := cluster_phase1_spec env hfair N calls
  rw [hp1] at hp1b
  have e1 : g1 = g1b := Option.some.inj hp1b
  subst e1
  obtain ⟨g0, hg0, hpost, _, hinv⟩ := hq1 q hq
  obtain ⟨g0b, gr, g, hg0b, hloop, hg, hv, hr, hl⟩ :=
    finalize_unfold env N calls g1 gs asg hp1 ha1 hfin q hq
  rw [hg0] at hg0b
  have e2 : g0 = g0b := Option.some.inj hg0b
  subst e2
  obtain ⟨_, _, _, hnd, _, _, _⟩ := hrun
  have hperm := hfair.negotiator_recv_perm q (inbox (asg.map Prod.snd).flatten q)
  rw [hsend, inbox_flatMap_notify] at hperm
  have hrr : received_records env asg q =
      (env.negotiator_recv q ((cluster_records env N calls g1).filter
        (fun r => decide (q ∈ r.mirrors)))).flatten := by
    unfold received_records
    rw [hsend, inbox_flatMap_notify]
  have hL : ∀ r, r ∈ received_records env asg q ↔
      r ∈ cluster_records env N calls g1 ∧ q ∈ r.mirrors := by
    intro r
    rw [hrr, hperm.mem_iff, List.mem_filter]
    simp
  have hLnd : ((received_records env asg q).map (fun r => r.vid)).Nodup := by
    rw [hrr, (hperm.map _).nodup_iff]
    exact (List.filter_sublist _).map _ |>.nodup hnd
  have hLne : ∀ r ∈ received_records env asg q, mirror_type.bits r.mirrors ≠ [] :=
    fun r hr => mirror_type.bits_ne_nil _ q ((hL r).1 hr).2
  obtain ⟨gr2, hloop2, hinv2⟩ := recv_loop_spec g0 (received_records env asg q) [] g0 hinv
    (by simpa using hLnd) hLne
  rw [List.nil_append] at hinv2
  have hloop3 : recv_loop g0 (received_records env asg q) = some gr := hloop
  rw [hloop2] at hloop3
  have e3 : gr2 = gr := Option.some.inj hloop3
  subst e3
  exact ⟨g0, gr2, g, hg0, hpost, hinv, hLnd, hL, hloop2, hinv2, hg, hv, hr, hl⟩

/-- The loop body of Phase 3 for a record whose GVID has no LVID yet, on a graph whose
three sizes agree: the GVID gets the LVID `|vid2lvid|`, and the map, the vertex data
and the records grow by one entry at that position. -/
theorem recv_rec_append {V E : Type} [Inhabited V] (g : distributed_graph V E)
    (r : vertex_negotiator_record V) (hf : umap_find g.vid2lvid r.vid = none)
    (hnr : g.lvid2record.length = g.vid2lvid.length)
    (hnv : g.local_graph.num_vertices = g.vid2lvid.length)
    (hne : mirror_type.bits r.mirrors ≠ []) :
    local_record_at_write g r = some (fresh_record r.vid) ∧
    (g.local_graph.add_vertex g.vid2lvid.length r.vdata).vertices =
      g.local_graph.vertices ++ [r.vdata] ∧
    recv_rec g r = some { g with
      vid2lvid := g.vid2lvid ++ [(r.vid, g.vid2lvid.length)],
      local_graph := g.local_graph.add_vertex g.vid2lvid.length r.vdata,
      lvid2record := g.lvid2record ++ [stored_record r] } := by
  have hres : resize_records g.lvid2record (g.vid2lvid ++ [(r.vid, g.vid2lvid.length)]).length =
      g.lvid2record ++ [vertex_record.default] := by
    unfold resize_records
    rw [List.length_append, List.length_singleton, ← hnr, List.take_of_length_le (by omega)]
    simp
  have hmod : (g.lvid2record ++ [vertex_record.default]).modify
      (fun x => { x with gvid := r.vid }) g.vid2lvid.length =
      g.lvid2record ++ [fresh_record r.vid] := by
    rw [← hnr]
    apply List.ext_getElem?
    intro i
    rw [List.getElem?_modify]
    rcases Nat.lt_trichotomy i g.lvid2record.length with hi | hi | hi
    · rw [List.getElem?_append_left hi, List.getElem?_append_left hi,
        List.getElem?_eq_getElem hi]
      simp only [Option.map_eq_map, Option.map_some', Option.some.injEq]
      rw [if_neg (by omega)]
    · subst hi
      simp [fresh_record]
    · rw [List.getElem?_eq_none (by simp; omega), List.getElem?_eq_none (by simp; omega)]
      rfl
  have hget : (g.lvid2record ++ [fresh_record r.vid])[g.vid2lvid.length]? =
      some (fresh_record r.vid) := by
    rw [← hnr]; simp
  have hset : (g.lvid2record ++ [fresh_record r.vid]).set g.vid2lvid.length (stored_record r) =
      g.lvid2record ++ [stored_record r] := by
    rw [← hnr]; simp
  have hadd : (g.local_graph.add_vertex g.vid2lvid.length r.vdata).vertices =
      g.local_graph.vertices ++ [r.vdata] := by
    unfold local_graph.add_vertex local_graph.set_vertex_data
    rw [if_neg (by omega)]
    unfold local_graph.resize
    simp only
    have hvl : g.local_graph.vertices.length = g.vid2lvid.length := hnv
    rw [List.take_of_length_le (by omega), hvl]
    simp only [Nat.add_sub_cancel_left, List.replicate_one]
    rw [← hvl]
    simp
  refine ⟨?_, hadd, ?_⟩
  · unfold local_record_at_write
    rw [hf]
    simp only
    rw [hres, hmod, hget]
  · unfold recv_rec
    rw [hf]
    simp only
    rw [hres, hmod, write_record_fresh _ _ r hget hne, hset]
    rfl

/-- The record that the assertions of lines 316-318 inspect, in a state of the
receiving loop that has not yet seen the GVID: it is the fresh record, with both
degrees 0. -/
theorem local_record_at_write_fresh {V E : Type} [Inhabited V] (g0 g : distributed_graph V E)
    (done : List (vertex_negotiator_record V)) (r : vertex_negotiator_record V)
    (hinv : recv_inv g0 done g) (hr : r.vid ∉ done.map (fun r => r.vid))
    (hne : mirror_type.bits r.mirrors ≠ []) :
    local_record_at_write g r = some (fresh_record r.vid) := by
  obtain ⟨hd, hkeys, hrecs, hverts, hedges, hown, hstab⟩ := hinv
  have hnv : g.local_graph.num_vertices = g.vid2lvid.length := by
    unfold local_graph.num_vertices; rw [hverts, List.length_map]
  have hnr : g.lvid2record.length = g.vid2lvid.length := by
    rw [hrecs, List.length_map]
  rcases hf : umap_find g.vid2lvid r.vid with _ | lvid
  · exact (recv_rec_append g r hf hnr hnv hne).1
  · have hl : lvid < g.vid2lvid.length := dense_lvids_lt hd (umap_find_mem hf)
    unfold local_record_at_write
    rw [hf]
    simp only
    rw [if_pos (by omega), hrecs, List.getElem?_map, dense_lvids_find_getElem hd hf]
    simp [(record_for_snoc done r hr).2.2]
/-- C19. In a fair run of `N >= 1` processes `finalize` returns, and on every process
the receiving loop of Phase 3 drains at most one negotiator record per GVID, each with
a non-empty mirror set; the records that Phase 1 left have both degrees 0; and at
every position of the loop (the drained records split as `pre ++ r :: post`) the
records `pre` before it were processed without abort, the local record that the body
for `r` is about to overwrite (`local_record` of line 314, freshly created by the
resize or left by Phase 1) has `num_in_edges = 0` and `num_out_edges = 0`, and the
body for `r` passes its assertions. -/
theorem degree_assertions_never_fire {V E : Type} [Inhabited V] (env : ingress_env V E)
    (hfair : env.fair) (N : Nat) (hN : 0 < N) (calls : List (ingress_call V E)) :
    ∃ g1 asg gs, cluster_phase1 env N calls = some g1 ∧
      cluster_assign env N calls g1 = some asg ∧ finalize env N calls = some gs ∧
      ∀ q, q < N → ∃ g0, g1[q]? = some g0 ∧
        (∀ rec ∈ g0.lvid2record, rec.num_in_edges = 0 ∧ rec.num_out_edges = 0) ∧
        ((received_records env asg q).map (fun r => r.vid)).Nodup ∧
        (∀ r ∈ received_records env asg q, mirror_type.bits r.mirrors ≠ []) ∧
        ∀ pre r post, received_records env asg q = pre ++ r :: post →
          ∃ g_mid local_record g_next, recv_loop g0 pre = some g_mid ∧
            local_record_at_write g_mid r = some local_record ∧
            local_record.num_in_edges = 0 ∧ local_record.num_out_edges = 0 ∧
            recv_rec g_mid r = some g_next := by
  obtain ⟨g1, asg, gs, hp1, ha1, _, hfin, _, htrace⟩ :=
    finalize_trace_spec env hfair N hN calls
  refine ⟨g1, asg, gs, hp1, ha1, hfin, ?_⟩
  intro q hq
  obtain ⟨g0, gr, g, hg0, hpost, hinv, hnd, hL, _⟩ := htrace q hq
  have hLne : ∀ r ∈ received_records env asg q, mirror_type.bits r.mirrors ≠ [] :=
    fun r hr => mirror_type.bits_ne_nil _ q ((hL r).1 hr).2
  refine ⟨g0, hg0, ?_, hnd, hLne, ?_⟩
  · intro rec hrec
    rw [hpost.2.1] at hrec
    obtain ⟨e, _, rfl⟩ := List.mem_map.1 hrec
    exact ⟨rfl, rfl⟩
  · intro pre r post hsplit
    rw [hsplit] at hnd hLne
    obtain ⟨g_mid, g_next, g_fin, hl1, hi1, hr, hl2, _⟩ := recv_trace g0 hinv pre post r hnd hLne
    refine ⟨g_mid, fresh_record r.vid, g_next, hl1, ?_, rfl, rfl, hl2⟩
    exact local_record_at_write_fresh g0 g_mid pre r hi1 hr
      (hLne r (List.mem_append_right _ (List.mem_cons_self _ _)))

theorem degree_assertions_never_fire_witness :
    (ingress_env.fifo Nat Nat triangle_hash).fair ∧ 0 < 2 ∧
    ∃ g1 asg gs, cluster_phase1 (ingress_env.fifo Nat Nat triangle_hash) 2 triangle_calls
        = some g1 ∧
      cluster_assign (ingress_env.fifo Nat Nat triangle_hash) 2 triangle_calls g1 = some asg ∧
      finalize (ingress_env.fifo Nat Nat triangle_hash) 2 triangle_calls = some gs ∧
      ∀ q, q < 2 → ∃ g0, g1[q]? = some g0 ∧
        (∀ rec ∈ g0.lvid2record, rec.num_in_edges = 0 ∧ rec.num_out_edges = 0) ∧
        ((received_records (ingress_env.fifo Nat Nat triangle_hash) asg q).map
          (fun r => r.vid)).Nodup ∧
        (∀ r ∈ received_records (ingress_env.fifo Nat Nat triangle_hash) asg q,
          mirror_type.bits r.mirrors ≠ []) ∧
        ∀ pre r post,
          received_records (ingress_env.fifo Nat Nat triangle_hash) asg q = pre ++ r :: post →
          ∃ g_mid local_record g_next, recv_loop g0 pre = some g_mid ∧
            local_record_at_write g_mid r = some local_record ∧
            local_record.num_in_edges = 0 ∧ local_record.num_out_edges = 0 ∧
            recv_rec g_mid r = some g_next :=
  ⟨fifo_fair Nat Nat triangle_hash, by decide,
    degree_assertions_never_fire (ingress_env.fifo Nat Nat triangle_hash)
      (fifo_fair Nat Nat triangle_hash) 2 (by decide) triangle_calls⟩
/-- C15. When no process has called `add_edge` or `add_vertex`, a fair run of
`finalize` on `N >= 1` processes returns without abort; no negotiator constructs or
sends a record; and every process ends with an empty `vid2lvid`, an empty
`lvid2record`, no local vertex and no local edge, and with `nedges`, `nverts`,
`nreplicas`, `begin_eid` and `local_own_nverts` all 0: every final graph is the empty
graph. -/
theorem finalize_empty {V E : Type} [Inhabited V] (env : ingress_env V E)
    (hfair : env.fair) (N : Nat) (hN : 0 < N) :
    ∃ g1 asg gs, cluster_phase1 env N [] = some g1 ∧
      cluster_assign env N [] g1 = some asg ∧
      cluster_records env N [] g1 = [] ∧ (asg.map Prod.snd).flatten = [] ∧
      finalize env N [] = some gs ∧ gs.length = N ∧
      gs = List.replicate N (distributed_graph.empty V E) ∧
      ∀ g ∈ gs, g.vid2lvid = [] ∧ g.lvid2record = [] ∧ g.local_graph.vertices = [] ∧
        g.local_graph.edges = [] ∧ g.nedges = 0 ∧ g.nverts = 0 ∧ g.nreplicas = 0 ∧
        g.begin_eid = 0 ∧ g.local_own_nverts = 0 := by
  obtain ⟨g1, asg, gs, hp1, ha1, hsend, hfin, hrun⟩ := finalize_spec env hfair N hN []
  obtain ⟨_, hlen, _, hnd, hsound, hcomplete, hfinal⟩ := hrun
  have hrecs : cluster_records env N ([] : List (ingress_call V E)) g1 = [] := by
    apply List.eq_nil_iff_forall_not_mem.2
    intro r hr
    have := (hsound r hr).1
    simp [seen_vids, call_edges, call_vertices, endpoints] at this
  have hall : ∀ g ∈ gs, g.vid2lvid = [] ∧ g.lvid2record = [] ∧ g.local_graph.vertices = [] ∧
      g.local_graph.edges = [] ∧ g.local_own_nverts = 0 := by
    intro g hg
    obtain ⟨q, hq, hgq⟩ := List.getElem_of_mem hg
    have hqN : q < N := by omega
    obtain ⟨g2, hg2, hfp, _⟩ := hfinal q hqN
    rw [List.getElem?_eq_getElem hq, hgq] at hg2
    have e : g = g2 := Option.some.inj hg2
    subst e
    obtain ⟨_, hkeys, hr, hv, he, hown⟩ := hfp
    have hmap : g.vid2lvid = [] := by
      apply List.eq_nil_iff_forall_not_mem.2
      intro e he2
      obtain ⟨r, hr2, _⟩ := (hkeys e.1).1 (List.mem_map.2 ⟨e, he2, rfl⟩)
      rw [hrecs] at hr2
      cases hr2
    have hedges : received_edges env N ([] : List (ingress_call V E)) q = [] := by
      have := received_edges_perm env hfair N ([] : List (ingress_call V E)) q
      simpa [call_edges] using this
    rw [hmap] at hr hv
    rw [hedges] at he
    refine ⟨hmap, hr, hv, he, ?_⟩
    rw [hown, hr]
    rfl
  have hzero : ∀ (f : distributed_graph V E → Nat), (∀ g ∈ gs, f g = 0) →
      ∀ l : List (distributed_graph V E), (∀ g ∈ l, g ∈ gs) → (l.map f).sum = 0 := by
    intro f hf l hl
    apply List.sum_eq_zero
    intro x hx
    obtain ⟨g, hg, rfl⟩ := List.mem_map.1 hx
    exact hf g (hl g hg)
  have hall2 : ∀ g ∈ gs, g.vid2lvid = [] ∧ g.lvid2record = [] ∧ g.local_graph.vertices = [] ∧
      g.local_graph.edges = [] ∧ g.nedges = 0 ∧ g.nverts = 0 ∧ g.nreplicas = 0 ∧
      g.begin_eid = 0 ∧ g.local_own_nverts = 0 := by
    intro g hg
    obtain ⟨h1, h2, h3, h4, h5⟩ := hall g hg
    obtain ⟨q, hq, hgq⟩ := List.getElem_of_mem hg
    have hqN : q < N := by omega
    obtain ⟨g2, hg2, _, hne, hbe, hnv, hnr⟩ := hfinal q hqN
    rw [List.getElem?_eq_getElem hq, hgq] at hg2
    have e : g = g2 := Option.some.inj hg2
    subst e
    refine ⟨h1, h2, h3, h4, ?_, ?_, ?_, ?_, h5⟩
    · rw [hne]
      apply hzero _ _ gs (fun _ h => h)
      intro x hx
      show x.local_graph.edges.length = 0
      rw [(hall x hx).2.2.2.1]; rfl
    · rw [hnv]
      apply hzero _ _ gs (fun _ h => h)
      intro x hx
      exact (hall x hx).2.2.2.2
    · rw [hnr]
      apply hzero _ _ gs (fun _ h => h)
      intro x hx
      show x.local_graph.vertices.length = 0
      rw [(hall x hx).2.2.1]; rfl
    · rw [hbe]
      apply hzero _ _ (gs.take q) (fun _ h => List.mem_of_mem_take h)
      intro x hx
      show x.local_graph.edges.length = 0
      rw [(hall x hx).2.2.2.1]; rfl
  refine ⟨g1, asg, gs, hp1, ha1, hrecs, ?_, hfin, hlen, ?_, hall2⟩
  · rw [hsend, hrecs]; rfl
  · rw [← hlen]
    apply List.eq_replicate_of_mem
    intro g hg
    obtain ⟨h1, h2, h3, h4, h5, h6, h7, h8, h9⟩ := hall2 g hg
    rcases g with ⟨a, b, ⟨c, d⟩, e, f, g, h, i⟩
    simp only at h1 h2 h3 h4 h5 h6 h7 h8 h9
    subst h1 h2 h3 h4 h5 h6 h7 h8 h9
    rfl

theorem finalize_empty_witness :
    (ingress_env.fifo String Nat triangle_hash).fair ∧ 0 < 3 ∧
    ∃ g1 asg gs, cluster_phase1 (ingress_env.fifo String Nat triangle_hash) 3 [] = some g1 ∧
      cluster_assign (ingress_env.fifo String Nat triangle_hash) 3 [] g1 = some asg ∧
      cluster_records (ingress_env.fifo String Nat triangle_hash) 3 [] g1 = [] ∧
      (asg.map Prod.snd).flatten = [] ∧
      finalize (ingress_env.fifo String Nat triangle_hash) 3 [] = some gs ∧ gs.length = 3 ∧
      gs = List.replicate 3 (distributed_graph.empty String Nat) ∧
      ∀ g ∈ gs, g.vid2lvid = [] ∧ g.lvid2record = [] ∧ g.local_graph.vertices = [] ∧
        g.local_graph.edges = [] ∧ g.nedges = 0 ∧ g.nverts = 0 ∧ g.nreplicas = 0 ∧
        g.begin_eid = 0 ∧ g.local_own_nverts = 0 :=
  ⟨fifo_fair String Nat triangle_hash, by decide,
    finalize_empty (ingress_env.fifo String Nat triangle_hash)
      (fifo_fair String Nat triangle_hash) 3 (by decide)⟩
/-- The sent record of a GVID that is in no edge: its only mirror is the negotiator,
which owns it, and both degrees are 0. -/
theorem record_sound_singleton {V E : Type} [Inhabited V] {env : ingress_env V E}
    (hfair : env.fair) {N : Nat} (hN : 0 < N) {calls : List (ingress_call V E)}
    {r : vertex_negotiator_record V} (h : record_sound env N calls r)
    (hno : r.vid ∉ endpoints (call_edges calls)) :
    r.mirrors = {vertex_to_proc N r.vid} ∧ r.owner = vertex_to_proc N r.vid ∧
      r.num_in_edges = 0 ∧ r.num_out_edges = 0 := by
  obtain ⟨_, hown, hin, hout, hmir, _⟩ := h
  have hm : r.mirrors = {vertex_to_proc N r.vid} := by
    ext p
    rw [Finset.mem_singleton]
    constructor
    · intro hp
      rcases (hmir p).1 hp with ⟨hpN, hpe⟩ | ⟨_, hpe⟩
      · exact absurd ((mem_endpoints_received env hfair N hN calls r.vid).1 ⟨p, hpN, hpe⟩) hno
      · exact hpe
    · intro hp
      exact (hmir p).2 (Or.inr ⟨hno, hp⟩)
  refine ⟨hm, ?_, ?_, ?_⟩
  · rw [hm] at hown
    exact Finset.mem_singleton.1 hown
  · rw [hin, (in_count_eq_zero hno).1]; rfl
  · rw [hout, (in_count_eq_zero hno).2]; rfl

/-- C11. For a GVID submitted by `add_vertex` that is an endpoint of no edge, a fair
run of `finalize` on `N >= 1` processes returns; the negotiator `vid mod N` sends one
record for it, with `owner = vid mod N` and `mirrors = {vid mod N}`; the owning
process `vid mod N` holds the GVID, and the record stored there has
`owner = vid mod N` and an empty `_mirrors`: the sent mirror set `{owner}` with the
owner bit cleared (lines 321-322). -/
theorem singleton_local_mirrors {V E : Type} [Inhabited V] (env : ingress_env V E)
    (hfair : env.fair) (N : Nat) (hN : 0 < N) (calls : List (ingress_call V E)) (vid : Nat)
    (hsub : ∃ x ∈ call_vertices calls, x.vid = vid)
    (hno : vid ∉ endpoints (call_edges calls)) :
    ∃ g1 gs sent g lvid r, cluster_phase1 env N calls = some g1 ∧
      finalize env N calls = some gs ∧
      sent ∈ cluster_records env N calls g1 ∧ sent.vid = vid ∧
      sent.owner = vid % N ∧ sent.mirrors = {vid % N} ∧
      gs[vid % N]? = some g ∧ umap_find g.vid2lvid vid = some lvid ∧
      g.lvid2record[lvid]? = some r ∧ r.gvid = vid ∧ r.owner = vid % N ∧
      r._mirrors = mirror_type.clear_bit sent.mirrors sent.owner ∧ r._mirrors = ∅ := by
  obtain ⟨g1, asg, gs, hp1, _, _, hfin, hrun⟩ := finalize_spec env hfair N hN calls
  obtain ⟨_, _, _, hnd, hsound, hcomplete, hfinal⟩ := hrun
  have hseen : vid ∈ seen_vids calls := by
    obtain ⟨x, hx, hxv⟩ := hsub
    unfold seen_vids
    exact List.mem_append_right _ (List.mem_map.2 ⟨x, hx, hxv⟩)
  obtain ⟨sent, hsent, hsv⟩ := hcomplete vid hseen
  subst hsv
  obtain ⟨hm, ho, _, _⟩ := record_sound_singleton hfair hN (hsound sent hsent) hno
  have hq : sent.vid % N < N := Nat.mod_lt _ hN
  obtain ⟨g, hg, hfp, _⟩ := hfinal (sent.vid % N) hq
  have hkey : sent.vid ∈ g.vid2lvid.map Prod.fst :=
    (hfp.2.1 sent.vid).2 ⟨sent, hsent, rfl, by
      rw [hm]; exact Finset.mem_singleton.2 rfl⟩
  obtain ⟨lvid, hlv⟩ := umap_find_isSome.2 hkey
  obtain ⟨r2, hr2, hr2v, _, hrec, _⟩ := final_post_record hfp hnd hlv
  have e : r2 = sent := record_unique hnd hsent hr2 hr2v
  subst e
  refine ⟨g1, gs, r2, g, lvid, stored_record r2, hp1, hfin, hsent, rfl, ho, hm, hg, hlv,
    hrec, rfl, ho, rfl, ?_⟩
  show mirror_type.clear_bit r2.mirrors r2.owner = ∅
  rw [hm, ho]
  unfold mirror_type.clear_bit vertex_to_proc
  exact Finset.erase_singleton _

theorem singleton_local_mirrors_witness :
    (ingress_env.fifo String Nat triangle_hash).fair ∧ 0 < 3 ∧
    (∃ x ∈ call_vertices singleton_calls, x.vid = 42) ∧
    42 ∉ endpoints (call_edges singleton_calls) ∧
    ∃ g1 gs sent g lvid r,
      cluster_phase1 (ingress_env.fifo String Nat triangle_hash) 3 singleton_calls = some g1 ∧
      finalize (ingress_env.fifo String Nat triangle_hash) 3 singleton_calls = some gs ∧
      sent ∈ cluster_records (ingress_env.fifo String Nat triangle_hash) 3 singleton_calls g1 ∧
      sent.vid = 42 ∧ sent.owner = 42 % 3 ∧ sent.mirrors = {42 % 3} ∧
      gs[42 % 3]? = some g ∧ umap_find g.vid2lvid 42 = some lvid ∧
      g.lvid2record[lvid]? = some r ∧ r.gvid = 42 ∧ r.owner = 42 % 3 ∧
      r._mirrors = mirror_type.clear_bit sent.mirrors sent.owner ∧ r._mirrors = ∅ :=
  ⟨fifo_fair String Nat triangle_hash, by decide,
    ⟨⟨42, "X"⟩, by simp [singleton_calls, call_vertices], rfl⟩, by decide,
    singleton_local_mirrors (ingress_env.fifo String Nat triangle_hash)
      (fifo_fair String Nat triangle_hash) 3 (by decide) singleton_calls 42
      ⟨⟨42, "X"⟩, by simp [singleton_calls, call_vertices], rfl⟩ (by decide)⟩

/-- Scenario S3 evaluated: after `add_vertex(42, "X")` and `finalize` on three
processes, the record stored on the owning process 0 has owner 0 and the empty
`_mirrors`, which is not `{0}`. -/
theorem singleton_local_mirrors_counterexample :
    (finalize (ingress_env.fifo String Nat triangle_hash) 3 singleton_calls).bind
        (fun gs => (stored_record_at gs 0 42).map (fun r => (r.owner, r._mirrors))) =
      some (0, ∅) ∧
    ¬ ((finalize (ingress_env.fifo String Nat triangle_hash) 3 singleton_calls).bind
        (fun gs => (stored_record_at gs 0 42).map (fun r => r._mirrors)) = some {0}) := by
  decide
theorem last_vdata_const {V : Type} (l : List (vertex_buffer_record V)) (vid : Nat) (d vdata : V)
    (hex : ∃ x ∈ l, x.vid = vid) (hall : ∀ x ∈ l, x.vid = vid → x.vdata = vdata) :
    last_vdata l vid d = vdata := by
  rw [last_vdata_eq_last_payload]
  obtain ⟨x, hx, hxl, hxv⟩ := last_payload_isSome l vid hex
  rw [hx]
  exact hall x hxl hxv

/-- A GVID that is in no edge has no LVID on any process after Phase 1. -/
theorem phase1_no_singleton {V E : Type} [Inhabited V] (env : ingress_env V E)
    (hfair : env.fair) (N : Nat) (hN : 0 < N) (calls : List (ingress_call V E)) (vid q : Nat)
    (hq : q < N) (g : distributed_graph V E)
    (hpost : phase1_post g (received_edges env N calls q))
    (hno : vid ∉ endpoints (call_edges calls)) : umap_find g.vid2lvid vid = none := by
  rw [umap_find_eq_none, phase1_post_keys hpost]
  intro h
  exact hno ((mem_endpoints_received env hfair N hN calls vid).1 ⟨q, hq, h⟩)

/-- C12. For a GVID submitted by `add_vertex` (by any callers, all with the payload
`vdata`) that is an endpoint of no edge, in a fair run on `N >= 1` processes: every
payload is routed to the negotiator `vid mod N`; that negotiator constructs the record
`sent` with `owner = vid mod N`, `mirrors = {vid mod N}`, both degrees 0 and the
submitted payload; every negotiator message about the GVID is `sent` addressed to
process `vid mod N`, which alone receives it; no process holds the GVID after Phase 1;
when the loop of process `vid mod N` reaches `sent` the GVID has no LVID, and the loop
body gives it the LVID `|vid2lvid|`, appends the vertex data `vdata` to the local
graph and the record `gvid = vid, owner = vid mod N, num_in_edges = num_out_edges = 0`
to `lvid2record`; this LVID, data and record are what the final graph of that process
holds; and no other process holds the GVID. -/
theorem singleton_placement {V E : Type} [Inhabited V] (env : ingress_env V E)
    (hfair : env.fair) (N : Nat) (hN : 0 < N) (calls : List (ingress_call V E))
    (vid : Nat) (vdata : V)
    (hsub : ∃ x ∈ call_vertices calls, x.vid = vid)
    (hdata : ∀ x ∈ call_vertices calls, x.vid = vid → x.vdata = vdata)
    (hno : vid ∉ endpoints (call_edges calls)) :
    ∃ g1 asg gs sent, cluster_phase1 env N calls = some g1 ∧
      cluster_assign env N calls g1 = some asg ∧ finalize env N calls = some gs ∧
      (∀ m ∈ vertex_sends N calls, m.2.vid = vid → m.1 = vid % N) ∧
      sent ∈ loop_records N (List.replicate N 0)
        (env.vrec_map_order (vid % N) (cluster_vrec_map env N calls g1 (vid % N))) ∧
      sent.vid = vid ∧ sent.owner = vid % N ∧ sent.mirrors = {vid % N} ∧
      sent.num_in_edges = 0 ∧ sent.num_out_edges = 0 ∧ sent.vdata = vdata ∧
      (∀ m ∈ (asg.map Prod.snd).flatten, m.2.vid = vid → m = (vid % N, sent)) ∧
      sent ∈ received_records env asg (vid % N) ∧
      (∀ q, q < N → q ≠ vid % N → ∀ r ∈ received_records env asg q, r.vid ≠ vid) ∧
      (∀ (q : Nat) (g : distributed_graph V E), g1[q]? = some g →
        umap_find g.vid2lvid vid = none) ∧
      (∃ g0 pre post g_mid g_next g, g1[vid % N]? = some g0 ∧
        received_records env asg (vid % N) = pre ++ sent :: post ∧
        recv_loop g0 pre = some g_mid ∧ umap_find g_mid.vid2lvid vid = none ∧
        g_mid.local_graph.num_vertices = g_mid.vid2lvid.length ∧
        g_mid.lvid2record.length = g_mid.vid2lvid.length ∧
        recv_rec g_mid sent = some g_next ∧
        g_next.vid2lvid = g_mid.vid2lvid ++ [(vid, g_mid.vid2lvid.length)] ∧
        g_next.local_graph.vertices = g_mid.local_graph.vertices ++ [vdata] ∧
        g_next.lvid2record = g_mid.lvid2record ++
          [{ owner := vid % N, gvid := vid, num_in_edges := 0, num_out_edges := 0,
             _mirrors := ∅ }] ∧
        gs[vid % N]? = some g ∧
        umap_find g.vid2lvid vid = some g_mid.vid2lvid.length ∧
        g.local_graph.vertices[g_mid.vid2lvid.length]? = some vdata ∧
        g.lvid2record[g_mid.vid2lvid.length]? =
          some { owner := vid % N, gvid := vid, num_in_edges := 0, num_out_edges := 0,
                 _mirrors := ∅ }) ∧
      ∀ (q : Nat) (g : distributed_graph V E), gs[q]? = some g → q ≠ vid % N →
        umap_find g.vid2lvid vid = none := by
  obtain ⟨g1, asg, gs, hp1, ha1, hsend, hfin, hrun, htrace⟩ :=
    finalize_trace_spec env hfair N hN calls
  obtain ⟨hlen1, hlens, h1, hnd, hsound, hcomplete, hfinal⟩ := hrun
  have hseen : vid ∈ seen_vids calls := by
    obtain ⟨x, hx, hxv⟩ := hsub
    unfold seen_vids
    exact List.mem_append_right _ (List.mem_map.2 ⟨x, hx, hxv⟩)
  obtain ⟨sent, hsent, hsv⟩ := hcomplete vid hseen
  subst hsv
  obtain ⟨hm, ho, hin, hout⟩ := record_sound_singleton hfair hN (hsound sent hsent) hno
  have hq : sent.vid % N < N := Nat.mod_lt _ hN
  have hstored : stored_record sent =
      { owner := sent.vid % N, gvid := sent.vid, num_in_edges := 0, num_out_edges := 0,
        _mirrors := ∅ } := by
    unfold stored_record
    rw [hin, hout, hm, ho]
    unfold mirror_type.clear_bit vertex_to_proc
    rw [Finset.erase_singleton]
  have hvd : sent.vdata = vdata := by
    obtain ⟨d0, hd0⟩ := (hsound sent hsent).2.2.2.2.2
    rw [hd0]
    have hperm := received_vertices_perm env hfair N calls (vertex_to_proc N sent.vid)
    apply last_vdata_const
    · obtain ⟨x, hx, hxv⟩ := hsub
      refine ⟨x, hperm.mem_iff.2 (List.mem_filter.2 ⟨hx, ?_⟩), hxv⟩
      rw [hxv]
      simp
    · intro x hx hxv
      exact hdata x (List.mem_filter.1 (hperm.mem_iff.1 hx)).1 hxv
  have huniq : ∀ r ∈ cluster_records env N calls g1, r.vid = sent.vid → r = sent :=
    fun r hr hrv => record_unique hnd hsent hr hrv
  obtain ⟨g0, gr, g, hg0, hpost, hinv, hLnd, hL, hloop, hinvr, hg, hgv, hgr, hgl⟩ :=
    htrace (sent.vid % N) hq
  have hrecv : sent ∈ received_records env asg (sent.vid % N) :=
    (hL sent).2 ⟨hsent, by rw [hm]; exact Finset.mem_singleton.2 rfl⟩
  have hp1none : ∀ (q : Nat) (g : distributed_graph V E), g1[q]? = some g →
      umap_find g.vid2lvid sent.vid = none := by
    intro q g2 hg2
    have hqN : q < N := by
      have := (List.getElem?_eq_some_iff.1 hg2).1
      omega
    obtain ⟨g3, hg3, hpost3⟩ := h1 q hqN
    rw [hg2] at hg3
    have e : g2 = g3 := Option.some.inj hg3
    subst e
    exact phase1_no_singleton env hfair N hN calls sent.vid q hqN g2 hpost3 hno
  obtain ⟨pre, post, hsplit⟩ := List.append_of_mem hrecv
  have hLne : ∀ r ∈ received_records env asg (sent.vid % N), mirror_type.bits r.mirrors ≠ [] :=
    fun r hr => mirror_type.bits_ne_nil _ _ ((hL r).1 hr).2
  rw [hsplit] at hLnd hLne
  obtain ⟨g_mid, g_next, g_fin, hl1, hi1, hrpre, hl2, _, hl3, hl4, _⟩ :=
    recv_trace g0 hinv pre post sent hLnd hLne
  have hfin2 : g_fin = gr := by
    rw [hsplit, hl4] at hloop
    exact Option.some.inj hloop
  subst hfin2
  have hnv : g_mid.local_graph.num_vertices = g_mid.vid2lvid.length := by
    unfold local_graph.num_vertices; rw [hi1.2.2.2.1, List.length_map]
  have hnr : g_mid.lvid2record.length = g_mid.vid2lvid.length := by
    rw [hi1.2.2.1, List.length_map]
  have hmidnone : umap_find g_mid.vid2lvid sent.vid = none := by
    rw [umap_find_eq_none, hi1.2.1]
    rintro (h | h)
    · exact (umap_find_eq_none.1 (hp1none _ g0 hg0)) h
    · exact hrpre h
  obtain ⟨_, hadd, hstep⟩ := recv_rec_append g_mid sent hmidnone hnr hnv
    (hLne sent (List.mem_append_right _ (List.mem_cons_self _ _)))
  have hnext : g_next = { g_mid with
      vid2lvid := g_mid.vid2lvid ++ [(sent.vid, g_mid.vid2lvid.length)],
      local_graph := g_mid.local_graph.add_vertex g_mid.vid2lvid.length sent.vdata,
      lvid2record := g_mid.lvid2record ++ [stored_record sent] } := by
    rw [hl2] at hstep
    exact Option.some.inj hstep
  have hfindnext : umap_find g_next.vid2lvid sent.vid = some g_mid.vid2lvid.length := by
    rw [hnext]
    show umap_find (g_mid.vid2lvid ++ _) sent.vid = _
    rw [umap_find_append, hmidnone, umap_find_cons]
    simp
  have hfindfin : umap_find g.vid2lvid sent.vid = some g_mid.vid2lvid.length := by
    rw [hgv]
    exact recv_loop_find_stable post hl3 hfindnext
  obtain ⟨g2, hg2, hfp, _⟩ := hfinal (sent.vid % N) hq
  rw [hg] at hg2
  have e : g = g2 := Option.some.inj hg2
  subst e
  obtain ⟨r2, hr2, hr2v, _, hrec, hdat⟩ := final_post_record hfp hnd hfindfin
  have e2 : r2 = sent := huniq r2 hr2 hr2v
  subst e2
  refine ⟨g1, asg, gs, r2, hp1, ha1, hfin, ?_, ?_, rfl, ho, hm, hin, hout, hvd, ?_, hrecv, ?_,
    hp1none, ?_, ?_⟩
  · intro m hm2 hmv
    rw [vertex_sends_eq] at hm2
    obtain ⟨x, _, rfl⟩ := List.mem_map.1 hm2
    show vertex_to_proc N x.vid = _
    rw [show x.vid = r2.vid from hmv]
    rfl
  · exact (mem_loop_records_iff env hfair N hN calls g1 h1 (r2.vid % N) hq r2).2 ⟨hsent, rfl⟩
  · intro m hm2 hmv
    rw [hsend] at hm2
    obtain ⟨r, hr, hmr⟩ := List.mem_flatMap.1 hm2
    unfold notify at hmr
    obtain ⟨p, hp, rfl⟩ := List.mem_map.1 hmr
    have e3 : r = r2 := huniq r hr hmv
    subst e3
    rw [mirror_type.mem_bits, hm, Finset.mem_singleton] at hp
    rw [hp]
    rfl
  · intro q hqN hne r hr hrv
    obtain ⟨_, _, _, _, _, _, _, hLq, _⟩ := htrace q hqN
    obtain ⟨hrc, hqm⟩ := (hLq r).1 hr
    have e3 : r = r2 := huniq r hrc hrv
    subst e3
    rw [hm, Finset.mem_singleton] at hqm
    exact hne hqm
  · refine ⟨g0, pre, post, g_mid, g_next, g, hg0, hsplit, hl1, hmidnone, hnv, hnr, hl2, ?_, ?_,
      ?_, hg, hfindfin, ?_, ?_⟩
    · rw [hnext]
    · rw [hnext]
      show (g_mid.local_graph.add_vertex g_mid.vid2lvid.length r2.vdata).vertices = _
      rw [hadd, hvd]
    · rw [hnext, ← hstored]
    · rw [hdat, hvd]
    · rw [hrec, hstored]
  · intro q g3 hg3 hne
    have hqN : q < N := by
      have := (List.getElem?_eq_some_iff.1 hg3).1
      omega
    obtain ⟨g4, hg4, hfp4, _⟩ := hfinal q hqN
    rw [hg3] at hg4
    have e : g3 = g4 := Option.some.inj hg4
    subst e
    rw [umap_find_eq_none, hfp4.2.1]
    rintro ⟨r, hr, hrv, hqm⟩
    have e3 : r = r2 := huniq r hr hrv
    subst e3
    rw [hm, Finset.mem_singleton] at hqm
    exact hne hqm

theorem singleton_placement_witness :
    (ingress_env.fifo String Nat triangle_hash).fair ∧ 0 < 3 ∧
    (∃ x ∈ call_vertices singleton_calls, x.vid = 42) ∧
    (∀ x ∈ call_vertices singleton_calls, x.vid = 42 → x.vdata = "X") ∧
    42 ∉ endpoints (call_edges singleton_calls) ∧
    ∃ g1 asg gs sent,
      cluster_phase1 (ingress_env.fifo String Nat triangle_hash) 3 singleton_calls = some g1 ∧
      cluster_assign (ingress_env.fifo String Nat triangle_hash) 3 singleton_calls g1
        = some asg ∧
      finalize (ingress_env.fifo String Nat triangle_hash) 3 singleton_calls = some gs ∧
      (∀ m ∈ vertex_sends 3 singleton_calls, m.2.vid = 42 → m.1 = 42 % 3) ∧
      sent ∈ loop_records 3 (List.replicate 3 0)
        ((ingress_env.fifo String Nat triangle_hash).vrec_map_order (42 % 3)
          (cluster_vrec_map (ingress_env.fifo String Nat triangle_hash) 3 singleton_calls g1
            (42 % 3))) ∧
      sent.vid = 42 ∧ sent.owner = 42 % 3 ∧ sent.mirrors = {42 % 3} ∧
      sent.num_in_edges = 0 ∧ sent.num_out_edges = 0 ∧ sent.vdata = "X" ∧
      (∀ m ∈ (asg.map Prod.snd).flatten, m.2.vid = 42 → m = (42 % 3, sent)) ∧
      sent ∈ received_records (ingress_env.fifo String Nat triangle_hash) asg (42 % 3) ∧
      (∀ q, q < 3 → q ≠ 42 % 3 →
        ∀ r ∈ received_records (ingress_env.fifo String Nat triangle_hash) asg q, r.vid ≠ 42) ∧
      (∀ (q : Nat) (g : distributed_graph String Nat), g1[q]? = some g →
        umap_find g.vid2lvid 42 = none) ∧
      (∃ g0 pre post g_mid g_next g, g1[42 % 3]? = some g0 ∧
        received_records (ingress_env.fifo String Nat triangle_hash) asg (42 % 3)
          = pre ++ sent :: post ∧
        recv_loop g0 pre = some g_mid ∧ umap_find g_mid.vid2lvid 42 = none ∧
        g_mid.local_graph.num_vertices = g_mid.vid2lvid.length ∧
        g_mid.lvid2record.length = g_mid.vid2lvid.length ∧
        recv_rec g_mid sent = some g_next ∧
        g_next.vid2lvid = g_mid.vid2lvid ++ [(42, g_mid.vid2lvid.length)] ∧
        g_next.local_graph.vertices = g_mid.local_graph.vertices ++ ["X"] ∧
        g_next.lvid2record = g_mid.lvid2record ++
          [{ owner := 42 % 3, gvid := 42, num_in_edges := 0, num_out_edges := 0,
             _mirrors := ∅ }] ∧
        gs[42 % 3]? = some g ∧
        umap_find g.vid2lvid 42 = some g_mid.vid2lvid.length ∧
        g.local_graph.vertices[g_mid.vid2lvid.length]? = some "X" ∧
        g.lvid2record[g_mid.vid2lvid.length]? =
          some { owner := 42 % 3, gvid := 42, num_in_edges := 0, num_out_edges := 0,
                 _mirrors := ∅ }) ∧
      ∀ (q : Nat) (g : distributed_graph String Nat), gs[q]? = some g → q ≠ 42 % 3 →
        umap_find g.vid2lvid 42 = none :=
  ⟨fifo_fair String Nat triangle_hash, by decide,
    ⟨⟨42, "X"⟩, by simp [singleton_calls, call_vertices], rfl⟩,
    by simp [singleton_calls, call_vertices], by decide,
    singleton_placement (ingress_env.fifo String Nat triangle_hash)
      (fifo_fair String Nat triangle_hash) 3 (by decide) singleton_calls 42 "X"
      ⟨⟨42, "X"⟩, by simp [singleton_calls, call_vertices], rfl⟩
      (by simp [singleton_calls, call_vertices]) (by decide)⟩

/-- Scenario S3 evaluated: after `add_vertex(42, "X")` and `finalize` on three
processes, process 0 holds the GVID 42 under LVID 0 with the vertex data `"X"`, and
the processes 1 and 2 hold nothing. -/
theorem singleton_scenario :
    (finalize (ingress_env.fifo String Nat triangle_hash) 3 singleton_calls).map
        (fun gs => gs.map (fun g => g.vid2lvid)) = some [[(42, 0)], [], []] ∧
    (finalize (ingress_env.fifo String Nat triangle_hash) 3 singleton_calls).map
        (fun gs => gs.map (fun g => g.local_graph.vertices)) = some [["X"], [], []] ∧
    (finalize (ingress_env.fifo String Nat triangle_hash) 3 singleton_calls).bind
        (fun gs => (stored_record_at gs 0 42).map
          (fun r => [r.owner, r.gvid, r.num_in_edges, r.num_out_edges])) =
      some [0, 42, 0, 0] := by
  decide
/-- C13. In a fair run on `N >= 1` processes `finalize` returns, and for every seen
GVID `v` there is one sent negotiator record `sent` such that every process that holds
`v` afterwards stores `sent.owner`, `sent.num_in_edges`, `sent.num_out_edges`, the
mirror set `sent.mirrors` without the owner, and the vertex data `sent.vdata`: all
replicas agree. When `v` was submitted by `add_vertex` (once or several times), that
vertex data is one of the submitted payloads. A GVID that was never seen is held by no
process. -/
theorem replica_consistency {V E : Type} [Inhabited V] (env : ingress_env V E)
    (hfair : env.fair) (N : Nat) (hN : 0 < N) (calls : List (ingress_call V E)) :
    ∃ g1 gs, cluster_phase1 env N calls = some g1 ∧ finalize env N calls = some gs ∧
      (∀ v ∈ seen_vids calls, ∃ sent ∈ cluster_records env N calls g1, sent.vid = v ∧
        (∀ (q : Nat) (g : distributed_graph V E) (lvid : Nat), gs[q]? = some g →
          umap_find g.vid2lvid v = some lvid →
          ∃ r : vertex_record, g.lvid2record[lvid]? = some r ∧ r.gvid = v ∧
            r.owner = sent.owner ∧ r.num_in_edges = sent.num_in_edges ∧
            r.num_out_edges = sent.num_out_edges ∧
            r._mirrors = mirror_type.clear_bit sent.mirrors sent.owner ∧
            g.local_graph.vertices[lvid]? = some sent.vdata) ∧
        ((∃ x ∈ call_vertices calls, x.vid = v) →
          ∃ x ∈ call_vertices calls, x.vid = v ∧ sent.vdata = x.vdata)) ∧
      ∀ v, v ∉ seen_vids calls → ∀ (q : Nat) (g : distributed_graph V E),
        gs[q]? = some g → umap_find g.vid2lvid v = none := by
  obtain ⟨g1, asg, gs, hp1, _, _, hfin, hrun⟩ := finalize_spec env hfair N hN calls
  obtain ⟨_, hlens, _, hnd, hsound, hcomplete, hfinal⟩ := hrun
  have hget : ∀ (q : Nat) (g : distributed_graph V E), gs[q]? = some g →
      final_post env N calls (cluster_records env N calls g1) q g := by
    intro q g hg
    have hqN : q < N := by
      have := (List.getElem?_eq_some_iff.1 hg).1
      omega
    obtain ⟨g2, hg2, hfp, _⟩ := hfinal q hqN
    rw [hg] at hg2
    have e : g = g2 := Option.some.inj hg2
    subst e
    exact hfp
  refine ⟨g1, gs, hp1, hfin, ?_, ?_⟩
  · intro v hv
    obtain ⟨sent, hsent, hsv⟩ := hcomplete v hv
    subst hsv
    refine ⟨sent, hsent, rfl, ?_, ?_⟩
    · intro q g lvid hg hlv
      obtain ⟨r2, hr2, hr2v, _, hrec, hdat⟩ := final_post_record (hget q g hg) hnd hlv
      have e : r2 = sent := record_unique hnd hsent hr2 hr2v
      subst e
      exact ⟨stored_record r2, hrec, rfl, rfl, rfl, rfl, rfl, hdat⟩
    · rintro ⟨x, hx, hxv⟩
      have hperm := received_vertices_perm env hfair N calls (vertex_to_proc N sent.vid)
      have hex : ∃ y ∈ received_vertices env N calls (vertex_to_proc N sent.vid),
          y.vid = sent.vid := by
        refine ⟨x, hperm.mem_iff.2 (List.mem_filter.2 ⟨hx, ?_⟩), hxv⟩
        rw [hxv]
        simp
      obtain ⟨y, hy, hyl, hyv⟩ := last_payload_isSome _ _ hex
      refine ⟨y, (List.mem_filter.1 (hperm.mem_iff.1 hyl)).1, hyv, ?_⟩
      obtain ⟨d0, hd0⟩ := (hsound sent hsent).2.2.2.2.2
      rw [hd0, last_vdata_eq_last_payload, hy]
      rfl
  · intro v hv q g hg
    rw [umap_find_eq_none, (hget q g hg).2.1]
    rintro ⟨r, hr, hrv, _⟩
    apply hv
    rw [← hrv]
    exact (hsound r hr).1

theorem replica_consistency_witness :
    (ingress_env.fifo String Nat duplicate_hash).fair ∧ 0 < 2 ∧
    ∃ g1 gs,
      cluster_phase1 (ingress_env.fifo String Nat duplicate_hash) 2 duplicate_calls = some g1 ∧
      finalize (ingress_env.fifo String Nat duplicate_hash) 2 duplicate_calls = some gs ∧
      (∀ v ∈ seen_vids duplicate_calls,
        ∃ sent ∈ cluster_records (ingress_env.fifo String Nat duplicate_hash) 2
            duplicate_calls g1, sent.vid = v ∧
        (∀ (q : Nat) (g : distributed_graph String Nat) (lvid : Nat), gs[q]? = some g →
          umap_find g.vid2lvid v = some lvid →
          ∃ r : vertex_record, g.lvid2record[lvid]? = some r ∧ r.gvid = v ∧
            r.owner = sent.owner ∧ r.num_in_edges = sent.num_in_edges ∧
            r.num_out_edges = sent.num_out_edges ∧
            r._mirrors = mirror_type.clear_bit sent.mirrors sent.owner ∧
            g.local_graph.vertices[lvid]? = some sent.vdata) ∧
        ((∃ x ∈ call_vertices duplicate_calls, x.vid = v) →
          ∃ x ∈ call_vertices duplicate_calls, x.vid = v ∧ sent.vdata = x.vdata)) ∧
      ∀ v, v ∉ seen_vids duplicate_calls → ∀ (q : Nat) (g : distributed_graph String Nat),
        gs[q]? = some g → umap_find g.vid2lvid v = none :=
  ⟨fifo_fair String Nat duplicate_hash, by decide,
    replica_consistency (ingress_env.fifo String Nat duplicate_hash)
      (fifo_fair String Nat duplicate_hash) 2 (by decide) duplicate_calls⟩

/-- Scenario S4 evaluated: with the payloads `"A"` and `"B"` submitted for the GVID 7
and delivered in this order, both processes hold 7 and both store `"B"`, the same
owner, the same degrees and the same local mirror set. -/
theorem duplicate_scenario :
    (finalize (ingress_env.fifo String Nat duplicate_hash) 2 duplicate_calls).map
        (fun gs => [stored_vdata_at gs 0 7, stored_vdata_at gs 1 7]) =
      some [some "B", some "B"] ∧
    (finalize (ingress_env.fifo String Nat duplicate_hash) 2 duplicate_calls).map
        (fun gs => [(stored_record_at gs 0 7).map
            (fun r => [r.owner, r.num_in_edges, r.num_out_edges]),
          (stored_record_at gs 1 7).map
            (fun r => [r.owner, r.num_in_edges, r.num_out_edges])]) =
      some [some [0, 1, 1], some [0, 1, 1]] ∧
    (finalize (ingress_env.fifo String Nat duplicate_hash) 2 duplicate_calls).map
        (fun gs => [(stored_record_at gs 0 7).map (fun r => r._mirrors),
          (stored_record_at gs 1 7).map (fun r => r._mirrors)]) =
      some [some {1}, some {1}] := by
  decide
/-- The mixed scenario evaluated on three processes: the sizes of `vid2lvid`,
`lvid2record` and the local graph on each process after `finalize`; process 0 holds the
GVIDs 1 and 2 of its edge and the singleton 42, added by `add_vertex` at LVID 2. -/
theorem size_scenario :
    (finalize (ingress_env.fifo String Nat triangle_hash) 3 mixed_calls).map
        (fun gs => gs.map (fun g =>
          [g.vid2lvid.length, g.lvid2record.length, g.local_graph.num_vertices])) =
      some [[3, 3, 3], [2, 2, 2], [0, 0, 0]] ∧
    (finalize (ingress_env.fifo String Nat triangle_hash) 3 mixed_calls).map
        (fun gs => gs.map (fun g => g.vid2lvid)) =
      some [[(1, 0), (2, 1), (42, 2)], [(2, 0), (3, 1)], []] := by
  decide

end graphlab
